import Mathlib

/-!
# go-text: the LTSV writer and the CSV reader and writer

A shallow embedding of `ltsv/writer.go` and of the CSV codec exercised by
`csv/reader_test.go` and `csv/writer_test.go`, with the properties stated for them.

Conventions of the embedding.

* A Go `string` is modelled as the list of runes that `for _, r := range s` yields
  (`GoString`); strings are taken to be valid UTF-8, so writing a string and writing
  its runes are the same thing.
* `bufio.Writer` is modelled by the text it has accepted so far.  The sink below it
  never fails, so every `WriteString` / `WriteRune` / `Write` returns a nil error and
  the `err != nil` branches that follow those calls are not taken.  The text is the
  one handed to the encoding transform (`text.GetTransformWriter`), before transcoding.
* An `error` is modelled by its message.
-/

namespace GoText

/-! # Definitions -/

deriving instance DecidableEq for Except

/-- A Go rune as produced by ranging over a string. -/
abbrev Rune := Char

/-- A Go string, as its sequence of runes. -/
abbrev GoString := List Char

/-- The rune-membership test `unicode.In(r, table)` of a table declared elsewhere. -/
abbrev RangeTable := Rune → Bool

/-- The encodings of package `text` named in the sources; `other` stands for the
remaining constants of the enumeration. -/
inductive Encoding where
  | UTF8
  | UTF8M
  | SJIS
  | other (code : Nat)
deriving DecidableEq, Repr

/-- The bytes of `text.UTF8BOM()` (EF BB BF), as the rune U+FEFF they encode. -/
def UTF8BOM : GoString := [Char.ofNat 0xFEFF]

/-- Upper-case hexadecimal digits of `n`, most significant first. -/
def upperHex (n : Nat) : GoString := (Nat.toDigits 16 n).map Char.toUpper

/-- The verb `%U` of `fmt.Sprintf`: `U+` and at least four upper-case hex digits. -/
def fmtU (r : Rune) : GoString :=
  let ds := upperHex r.toNat
  'U' :: '+' :: (List.replicate (4 - ds.length) '0' ++ ds)

namespace ltsv

/-- The receiver of `ltsv.Writer`: `writer` is the text accepted by the buffered writer. -/
structure Writer where
  header : List GoString
  writer : GoString
  lineBreak : GoString
  appended : Bool
deriving DecidableEq, Repr

/-- The inner loop `for _, r := range s { if !unicode.In(r, table) { return ... r } }`:
the rune at which the loop returns, if it does. -/
def scanRunes (table : RangeTable) : GoString → Option Rune
  | [] => none
  | r :: rest => if !table r then some r else scanRunes table rest

/-- The outer loop of `NewWriter` over the labels of the header. -/
def scanLabels (table : RangeTable) : List GoString → Option Rune
  | [] => none
  | label :: rest =>
    match scanRunes table label with
    | some r => some r
    | none => scanLabels table rest

/-- Message of the error of `NewWriter`. -/
def labelError (r : Rune) : GoString :=
  "unpermitted character in label: ".toList ++ fmtU r

/-- Message of the character error of `Write`. -/
def fieldValueError (r : Rune) : GoString :=
  "unpermitted character in field-value: ".toList ++ fmtU r

/-- Message of the length error of `Write`. -/
def lengthError : GoString := "field length does not match".toList

/-- `NewWriter(w, header, lineBreak, enc)`; `lineBreak` is the value `lineBreak.Value()`. -/
def NewWriter (LabelTable : RangeTable) (header : List GoString) (lineBreak : GoString)
    (enc : Encoding) : Except GoString Writer :=
  match scanLabels LabelTable header with
  | some r => .error (labelError r)
  | none =>
    let bw : GoString := []
    let bw := if enc = Encoding.UTF8M then bw ++ UTF8BOM else bw
    .ok { header := header, lineBreak := lineBreak, writer := bw, appended := false }

/-- The loop `for i := 0; i < len(record); i++` of `Write`, started at index `i` with
`n` iterations left; returns the buffered text and the error, if any. -/
def writeFields (FieldValueTable : RangeTable) (header record : List GoString) :
    Nat → Nat → GoString → GoString × Option GoString
  | 0, _, bw => (bw, none)
  | n + 1, i, bw =>
    match scanRunes FieldValueTable (record.getD i []) with
    | some r => (bw, some (fieldValueError r))
    | none =>
      let bw := if 0 < i then bw ++ ['\t'] else bw
      let bw := bw ++ header.getD i []
      let bw := bw ++ [':']
      let bw := bw ++ record.getD i []
      writeFields FieldValueTable header record n (i + 1) bw

/-- `(e *Writer) Write(record)`: the writer after the call and the returned error. -/
def Writer.Write (FieldValueTable : RangeTable) (e : Writer) (record : List GoString) :
    Writer × Option GoString :=
  if record.length ≠ e.header.length then
    (e, some lengthError)
  else
    let e1 : Writer :=
      if e.appended then { e with writer := e.writer ++ e.lineBreak }
      else { e with appended := true }
    let res := writeFields FieldValueTable e1.header record record.length 0 e1.writer
    ({ e1 with writer := res.1 }, res.2)

/-- A sequence of `Write` calls: the final writer and the error of each call. -/
def writeAll (FieldValueTable : RangeTable) (e : Writer) :
    List (List GoString) → Writer × List (Option GoString)
  | [] => (e, [])
  | record :: rest =>
    let r := e.Write FieldValueTable record
    let rs := writeAll FieldValueTable r.1 rest
    (rs.1, r.2 :: rs.2)

/-- One LTSV line: `header[i] ++ ":" ++ record[i]` joined by a TAB. -/
def line (header record : List GoString) : GoString :=
  List.intercalate ['\t'] (List.zipWith (fun h v => h ++ [':'] ++ v) header record)

/-- Every rune of every value of the record is in the table. -/
def Permitted (table : RangeTable) (record : List GoString) : Prop :=
  ∀ v ∈ record, ∀ r ∈ v, table r = true

/-- An instance of the field-value table used for concrete inputs: the `fbyte` class of
the LTSV format (%x01-08, %x0B, %x0C, %x0E-FF), which excludes TAB, LF and CR.  The
table of the package is declared outside the files at hand. -/
def fbyteTable : RangeTable := fun r =>
  let n := r.toNat
  (1 ≤ n && n ≤ 8) || n == 0x0B || n == 0x0C || (0x0E ≤ n && n ≤ 0xFF)

/-- An instance of the label table used for concrete inputs: the `lbyte` class of the
LTSV format (`0-9`, `A-Z`, `a-z`, `_`, `.`, `-`). -/
def lbyteTable : RangeTable := fun r =>
  r.isAlphanum || r == '_' || r == '.' || r == '-'

/-! ### Auxiliary definitions for the LTSV writer -/

/-- The fields of a line each preceded by a TAB: what the loop of `Write` emits from
an index greater than zero on. -/
def tabbed (header record : List GoString) : GoString :=
  ((List.zipWith (fun h v => h ++ [':'] ++ v) header record).map
    (fun s => ['\t'] ++ s)).flatten

/-- The first rune outside the table in a list of strings, in order: the first
offending string and the first offending rune in it. -/
def firstOutside (table : RangeTable) (ss : List GoString) : Option Rune :=
  ss.flatten.find? (fun r => !table r)

/-- The values from index `i` on that the loop of `Write` accepts before it stops. -/
def accepted (table : RangeTable) (record : List GoString) (i : Nat) : List GoString :=
  (record.drop i).takeWhile (fun v => (scanRunes table v).isNone)

instance (table : RangeTable) (record : List GoString) : Decidable (Permitted table record) := by
  unfold Permitted; infer_instance

/-- A writer as `NewWriter` returns it for the header `a`, line break LF and UTF-8. -/
def sampleWriter : Writer :=
  { header := ["a".toList], writer := [], lineBreak := "\n".toList, appended := false }

end ltsv

namespace csv

/-- Modelled from the spec: `text.LineBreak` is declared outside the files at hand; the
three conventions of §2 (`LF`, `CR`, `CRLF`). -/
inductive LineBreak where
  | CR
  | LF
  | CRLF
deriving DecidableEq, Repr

/-- Modelled from the spec: the text of a line-break convention (`lineBreak.Value()`). -/
def LineBreak.Value : LineBreak → GoString
  | .CR => ['\r']
  | .LF => ['\n']
  | .CRLF => ['\r', '\n']

/-- Modelled from the spec: `csv/writer.go` is not among the files at hand.  A write-side
field of §3: content and the caller's quote flag (`Field{Contents, Quote}` in
`writer_test.go`). -/
structure Field where
  Contents : GoString
  Quote : Bool
deriving DecidableEq, Repr

/-- Modelled from the spec: the CSV writer of §4.3 with the interface used by
`TestWriter_Write`.  `buffered` is the text accepted and not yet flushed, `output` the
text delivered to the sink, `appended` whether a record has been written. -/
structure Writer where
  Delimiter : Rune
  lineBreak : GoString
  buffered : GoString
  output : GoString
  appended : Bool
deriving DecidableEq, Repr

/-- Modelled from the spec: `NewWriter(w, lineBreak, enc)` of §4.3; the byte-order mark
is emitted at construction when the encoding carries one.  The delimiter defaults to
the comma (§3). -/
def NewWriter (lineBreak : GoString) (enc : Encoding) : Writer :=
  { Delimiter := ',', lineBreak := lineBreak,
    buffered := if enc = Encoding.UTF8M then UTF8BOM else [],
    output := [], appended := false }

/-- Modelled from the spec: the quoting condition of §4.3: the content contains the
delimiter, a double quote, CR or LF, or the quote flag is set. -/
def needsQuote (delimiter : Rune) (f : Field) : Bool :=
  f.Quote || f.Contents.any
    (fun r => r == delimiter || r == '"' || r == '\r' || r == '\n')

/-- Modelled from the spec: the runes of a quoted content, one by one, every literal
double quote written twice (§4.3). -/
def writeEscaped : GoString → GoString → GoString
  | bw, [] => bw
  | bw, r :: rest =>
    if r = '"' then writeEscaped (bw ++ ['"', '"']) rest
    else writeEscaped (bw ++ [r]) rest

/-- Modelled from the spec: one field written to the buffer (§4.3): in double quotes
when quoting is needed, verbatim otherwise. -/
def writeField (delimiter : Rune) (bw : GoString) (f : Field) : GoString :=
  if needsQuote delimiter f then
    writeEscaped (bw ++ ['"']) f.Contents ++ ['"']
  else bw ++ f.Contents

/-- Modelled from the spec: the fields of a record written in turn, the delimiter in
front of every field but the first (§4.3, "fields joined by the configured
delimiter"). -/
def writeRecord (delimiter : Rune) : Bool → GoString → List Field → GoString
  | _, bw, [] => bw
  | first, bw, f :: rest =>
    let bw := if first then bw else bw ++ [delimiter]
    writeRecord delimiter false (writeField delimiter bw f) rest

/-- Modelled from the spec: `Write(record)` of §4.3: the line break in front of every
record but the first, then the fields. -/
def Writer.Write (e : Writer) (record : List Field) : Writer :=
  let bw := if e.appended then e.buffered ++ e.lineBreak else e.buffered
  { e with buffered := writeRecord e.Delimiter true bw record, appended := true }

/-- Modelled from the spec: `Flush()` of §4.3 delivers the buffered text to the sink. -/
def Writer.Flush (e : Writer) : Writer :=
  { e with output := e.output ++ e.buffered, buffered := [] }

/-- Modelled from the spec: the loop `for _, r := range records { e.Write(r) }` of
`TestWriter_Write`. -/
def Writer.WriteAll (e : Writer) : List (List Field) → Writer
  | [] => e
  | record :: rest => (e.Write record).WriteAll rest

/-- The serialized form of a field in the words of §4.3. -/
def fieldText (delimiter : Rune) (f : Field) : GoString :=
  if f.Quote ∨ delimiter ∈ f.Contents ∨ '"' ∈ f.Contents ∨ '\r' ∈ f.Contents ∨
      '\n' ∈ f.Contents then
    ['"'] ++ (f.Contents.map (fun r => if r = '"' then ['"', '"'] else [r])).flatten ++ ['"']
  else f.Contents

/-- The serialized form of a record: its fields joined by the delimiter. -/
def recordText (delimiter : Rune) (record : List Field) : GoString :=
  List.intercalate [delimiter] (record.map (fieldText delimiter))

/-- The serialized form of a list of records: the lines joined by the line break. -/
def recordsText (delimiter : Rune) (lineBreak : GoString) (records : List (List Field)) :
    GoString :=
  List.intercalate lineBreak (records.map (recordText delimiter))

/-! ### The CSV reader

`csv/reader.go` is not among the files at hand: the reader below is the state machine
of §4.2 of the specification, with the position arithmetic that the expected messages
of `reader_test.go` fix. -/

/-- Modelled from the spec: `text.RawText`, a read-side field of §3: the decoded content
or the absent marker (`nil`), distinct from the empty string. -/
abbrev RawText := Option GoString

/-- Modelled from the spec: a unit of the decoded stream: a rune, or one line-break
sequence (`\r`, `\n` or `\r\n`, §4.1). -/
inductive Token where
  | rune (c : Rune)
  | lineBreak (lb : LineBreak)
deriving DecidableEq, Repr

/-- Whether the token is a line-break sequence. -/
def Token.isLineBreak : Token → Bool
  | .rune _ => false
  | .lineBreak _ => true

/-- Modelled from the spec: one rune as a unit of the stream: `\r` and `\n` are line
breaks on their own (§4.1). -/
def Token.ofRune (c : Rune) : Token :=
  if c = '\r' then Token.lineBreak LineBreak.CR
  else if c = '\n' then Token.lineBreak LineBreak.LF
  else Token.rune c

/-- Modelled from the spec: the rune stream read with its line-break sequences
recognised; `\r\n` is one sequence (§4.1, §4.2). -/
def tokens : GoString → List Token
  | [] => []
  | [c] => [Token.ofRune c]
  | c :: d :: rest =>
    if c = '\r' ∧ d = '\n' then Token.lineBreak LineBreak.CRLF :: tokens rest
    else Token.ofRune c :: tokens (d :: rest)

/-- Modelled from the spec: the states of the reader (§4.2). -/
inductive State where
  | StartOfField
  | InUnquotedField
  | InQuotedField
  | QuoteInQuotedField
  | EndOfRecord
deriving DecidableEq, Repr

/-- Modelled from the spec: a reading error with its position (§7): 1-based line and
0-based column. -/
structure ParseError where
  line : Nat
  column : Nat
  message : GoString
deriving DecidableEq, Repr

/-- The text of a reading error as the tests expect it:
`line %d, column %d: %s`. -/
def ParseError.Error (e : ParseError) : GoString :=
  "line ".toList ++ Nat.toDigits 10 e.line ++ ", column ".toList ++
    Nat.toDigits 10 e.column ++ ": ".toList ++ e.message

/-- Message of §4.2 for a quote left open at end of stream. -/
def extraneousQuote : GoString := "extraneous \" in field".toList

/-- Message of §4.2 for a closing quote followed by other text. -/
def unexpectedQuote : GoString := "unexpected \" in field".toList

/-- Message of §4.2 for a record whose field count differs. -/
def wrongNumberOfFields : GoString := "wrong number of fields in line".toList

/-- Modelled from the spec: the reader while it runs (§3, §4.2): the state, the buffer of
the field being read, the fields of the record being read, the records completed, the
position, the field count established by the first record and the detected line
break (empty while none has been seen). -/
structure Machine where
  state : State
  field : GoString
  record : List RawText
  records : List (List RawText)
  line : Nat
  column : Nat
  FieldsPerRecord : Option Nat
  DetectedLineBreak : GoString
deriving DecidableEq, Repr

/-- Modelled from the spec: the absent field: the null marker, or the empty string under
"without-null" (§4.2). -/
def absent (withoutNull : Bool) : RawText :=
  if withoutNull then some [] else none

/-- Modelled from the spec: a field closed by the delimiter (§4.2).  The delimiter has
been consumed; when the record then holds the established number of fields, a further
field follows and the record has too many: the error is raised at the current
position. -/
def closeField (m : Machine) (f : RawText) : Except ParseError Machine :=
  let record := m.record ++ [f]
  match m.FieldsPerRecord with
  | some k =>
    if k ≤ record.length then
      .error { line := m.line, column := m.column, message := wrongNumberOfFields }
    else .ok { m with state := State.StartOfField, field := [], record := record }
  | none => .ok { m with state := State.StartOfField, field := [], record := record }

/-- Modelled from the spec: a record closed by a line break or by the end of the stream
(§4.2).  The first record fixes the field count; a later record with fewer fields is an
error at the line of the record, column 0. -/
def closeRecord (m : Machine) (f : RawText) : Except ParseError Machine :=
  let record := m.record ++ [f]
  match m.FieldsPerRecord with
  | some k =>
    if record.length < k then
      .error { line := m.line, column := 0, message := wrongNumberOfFields }
    else
      .ok { m with state := State.EndOfRecord, field := [], record := [],
                   records := m.records ++ [record] }
  | none =>
    .ok { m with state := State.EndOfRecord, field := [], record := [],
                 records := m.records ++ [record],
                 FieldsPerRecord := some record.length }

/-- Modelled from the spec: an accepted line-break sequence (§4.1, §4.2): the line number
goes up, the column returns to 0, and outside quoted fields the first one seen is the
detected line break. -/
def newLine (m : Machine) (lb : LineBreak) (detect : Bool) : Machine :=
  { m with line := m.line + 1, column := 0,
           DetectedLineBreak :=
             if detect && m.DetectedLineBreak.isEmpty then lb.Value
             else m.DetectedLineBreak }

/-- Modelled from the spec: the transition on one unit of the stream (§4.2).
`onlyBreaksFollow` tells whether nothing but line breaks follows the unit: an empty
line at the start of a record is then a trailing blank line, discarded. -/
def step (delimiter : Rune) (withoutNull : Bool) (m : Machine) (t : Token)
    (onlyBreaksFollow : Bool) : Except ParseError Machine :=
  match t with
  | .rune c =>
    let m1 := { m with column := m.column + 1 }
    match m.state with
    | .StartOfField | .EndOfRecord =>
      if c = '"' then .ok { m1 with state := State.InQuotedField, field := [] }
      else if c = delimiter then closeField m1 (absent withoutNull)
      else .ok { m1 with state := State.InUnquotedField, field := [c] }
    | .InUnquotedField =>
      if c = delimiter then closeField m1 (some m.field)
      else .ok { m1 with field := m.field ++ [c] }
    | .InQuotedField =>
      if c = '"' then .ok { m1 with state := State.QuoteInQuotedField }
      else .ok { m1 with field := m.field ++ [c] }
    | .QuoteInQuotedField =>
      if c = '"' then .ok { m1 with state := State.InQuotedField, field := m.field ++ ['"'] }
      else if c = delimiter then closeField m1 (some m.field)
      else .error { line := m.line, column := m.column, message := unexpectedQuote }
  | .lineBreak lb =>
    match m.state with
    | .StartOfField | .EndOfRecord =>
      if m.record.isEmpty && onlyBreaksFollow then
        .ok { newLine m lb true with state := State.StartOfField }
      else (closeRecord m (absent withoutNull)).map (fun m2 => newLine m2 lb true)
    | .InUnquotedField =>
      (closeRecord m (some m.field)).map (fun m2 => newLine m2 lb true)
    | .InQuotedField =>
      .ok { newLine m lb false with field := m.field ++ lb.Value }
    | .QuoteInQuotedField =>
      (closeRecord m (some m.field)).map (fun m2 => newLine m2 lb true)

/-- Modelled from the spec: the end of the stream (§4.2); reading it counts as one more
column. -/
def atEnd (withoutNull : Bool) (m : Machine) : Except ParseError Machine :=
  let m1 := { m with column := m.column + 1 }
  match m.state with
  | .StartOfField | .EndOfRecord =>
    if m.record.isEmpty then .ok m1 else closeRecord m1 (absent withoutNull)
  | .InUnquotedField => closeRecord m1 (some m.field)
  | .InQuotedField =>
    .error { line := m1.line, column := m1.column, message := extraneousQuote }
  | .QuoteInQuotedField => closeRecord m1 (some m.field)

/-- Modelled from the spec: the reader run over the stream; with `single` it stops when a
record is closed and returns the rest of the stream (§4.2). -/
def run (delimiter : Rune) (withoutNull : Bool) (single : Bool) :
    Machine → List Token → Except ParseError (Machine × List Token)
  | m, [] => (atEnd withoutNull m).map (fun m2 => (m2, []))
  | m, t :: rest =>
    match step delimiter withoutNull m t (rest.all Token.isLineBreak) with
    | .error e => .error e
    | .ok m2 =>
      if single && m2.state == State.EndOfRecord then .ok (m2, rest)
      else run delimiter withoutNull single m2 rest

/-- Modelled from the spec: a reader session (§3): configuration, the stream still to be
read, the position, the established field count and the detected line break. -/
structure Reader where
  Delimiter : Rune
  WithoutNull : Bool
  reader : List Token
  line : Nat
  column : Nat
  FieldsPerRecord : Option Nat
  DetectedLineBreak : GoString
deriving DecidableEq, Repr

/-- Modelled from the spec: `NewReader(r, enc)`, over the decoded text of the stream:
delimiter `,`, nulls kept, line 1, column 0 (§3). -/
def NewReader (input : GoString) : Reader :=
  { Delimiter := ',', WithoutNull := false, reader := tokens input, line := 1, column := 0,
    FieldsPerRecord := none, DetectedLineBreak := [] }

/-- The machine at the start of a record of the session. -/
def Reader.machine (r : Reader) : Machine :=
  { state := State.StartOfField, field := [], record := [], records := [],
    line := r.line, column := r.column, FieldsPerRecord := r.FieldsPerRecord,
    DetectedLineBreak := r.DetectedLineBreak }

/-- The session after a run of the machine. -/
def Reader.after (r : Reader) (m : Machine) (rest : List Token) : Reader :=
  { r with reader := rest, line := m.line, column := m.column,
           FieldsPerRecord := m.FieldsPerRecord,
           DetectedLineBreak := m.DetectedLineBreak }

/-- Modelled from the spec: `ReadAll()`: every record of the stream, or the first error
(§4.2, §7). -/
def Reader.ReadAll (r : Reader) : Except ParseError (List (List RawText) × Reader) :=
  match run r.Delimiter r.WithoutNull false r.machine r.reader with
  | .error e => .error e
  | .ok (m, rest) => .ok (m.records, r.after m rest)

/-- Modelled from the spec: `Read()`: the next record, `none` at the end of the stream. -/
def Reader.Read (r : Reader) : Except ParseError (Option (List RawText) × Reader) :=
  match run r.Delimiter r.WithoutNull true r.machine r.reader with
  | .error e => .error e
  | .ok (m, rest) => .ok (m.records.head?, r.after m rest)

/-- Modelled from the spec: `ReadHeader()`: one record read as labels, an absent label
being the empty string; the following reads are held to its field count (§4.2). -/
def Reader.ReadHeader (r : Reader) : Except ParseError (Option (List GoString) × Reader) :=
  match run r.Delimiter true true r.machine r.reader with
  | .error e => .error e
  | .ok (m, rest) =>
    .ok (m.records.head?.map (fun rec => rec.map (fun f => f.getD [])), r.after m rest)

/-! ### What the tests observe -/

/-- The string literal as a Go string. -/
abbrev str (s : String) : GoString := s.toList

/-- What `TestWriter_Write` observes: the text delivered after the writes and the flush. -/
def writeOutcome (delimiter : Rune) (lineBreak : GoString) (enc : Encoding)
    (records : List (List Field)) : GoString :=
  (({ NewWriter lineBreak enc with Delimiter := delimiter }).WriteAll records).Flush.output

/-! ### Auxiliary definitions for the CSV codec -/

/-- A content with every double quote doubled. -/
def escape (s : GoString) : GoString :=
  (s.map (fun r => if r = '"' then ['"', '"'] else [r])).flatten

/-- The runes a list of units stands for. -/
def detok : List Token → GoString
  | [] => []
  | .rune c :: ts => c :: detok ts
  | .lineBreak lb :: ts => lb.Value ++ detok ts

/-- The units of a content whose double quotes are doubled. -/
def escTok : List Token → List Token
  | [] => []
  | .rune c :: ts =>
    if c = '"' then Token.rune '"' :: Token.rune '"' :: escTok ts
    else Token.rune c :: escTok ts
  | .lineBreak lb :: ts => Token.lineBreak lb :: escTok ts

/-- The position (line, column) after the units have been consumed. -/
def advance : Nat × Nat → List Token → Nat × Nat
  | p, [] => p
  | p, .rune _ :: ts => advance (p.1, p.2 + 1) ts
  | p, .lineBreak _ :: ts => advance (p.1 + 1, 0) ts

/-- The machine moved to a position. -/
def Machine.moveTo (m : Machine) (p : Nat × Nat) : Machine :=
  { m with line := p.1, column := p.2 }

/-! ### Cells, rows and tables: the written forms of fields and records -/

/-- A field as it stands in a CSV text: bare, or in double quotes. -/
inductive Cell where
  | bare (s : GoString)
  | quoted (s : GoString)
deriving DecidableEq, Repr

/-- The text of a cell. -/
def Cell.text : Cell → GoString
  | .bare s => s
  | .quoted s => ['"'] ++ escape s ++ ['"']

/-- The units of the text of a cell. -/
def Cell.toks : Cell → List Token
  | .bare s => s.map Token.rune
  | .quoted s => Token.rune '"' :: (escTok (tokens s) ++ [Token.rune '"'])

/-- The field a cell stands for: an empty bare cell is absent. -/
def Cell.value (wn : Bool) : Cell → RawText
  | .bare s => if s.isEmpty then absent wn else some s
  | .quoted s => some s

/-- A bare cell holds no delimiter, CR or LF and does not start with a double quote. -/
def Cell.Valid (d : Rune) : Cell → Prop
  | .bare s => (∀ x ∈ s, x ≠ d ∧ x ≠ '\r' ∧ x ≠ '\n') ∧ s.head? ≠ some '"'
  | .quoted _ => True

/-- The state of the reader once the text of a cell is read from the start of a field. -/
def Cell.state (st : State) : Cell → State
  | .bare s => if s.isEmpty then st else State.InUnquotedField
  | .quoted _ => State.QuoteInQuotedField

/-- The field buffer once the text of a cell is read from the start of a field. -/
def Cell.field : Cell → GoString
  | .bare s => s
  | .quoted s => s

/-- The two states in which a field starts. -/
def State.isStart (st : State) : Prop :=
  st = State.StartOfField ∨ st = State.EndOfRecord

/-- A record as it stands in a CSV text: cells each followed by the delimiter, and a
last cell. -/
structure Row where
  init : List Cell
  last : Cell
deriving DecidableEq, Repr

/-- The cells of a row. -/
def Row.cells (r : Row) : List Cell := r.init ++ [r.last]

/-- The text of cells each followed by the delimiter. -/
def cellsDelimText (d : Rune) (cs : List Cell) : GoString :=
  (cs.map (fun c => c.text ++ [d])).flatten

/-- The units of cells each followed by the delimiter. -/
def cellsDelimToks (d : Rune) (cs : List Cell) : List Token :=
  (cs.map (fun c => c.toks ++ [Token.rune d])).flatten

/-- The text of a row: its cells joined by the delimiter. -/
def Row.text (d : Rune) (r : Row) : GoString := cellsDelimText d r.init ++ r.last.text

/-- The units of the text of a row. -/
def Row.toks (d : Rune) (r : Row) : List Token := cellsDelimToks d r.init ++ r.last.toks

/-- The fields a row stands for. -/
def Row.values (wn : Bool) (r : Row) : List RawText := r.cells.map (Cell.value wn)

/-- A row of valid cells that is not an empty line. -/
def Row.Valid (d : Rune) (r : Row) : Prop :=
  (∀ c ∈ r.cells, c.Valid d) ∧ ¬ (r.init = [] ∧ r.last = Cell.bare [])

/-- Rows with the line break that closes each of them. -/
abbrev Table := List (Row × LineBreak)

/-- The text of a table. -/
def tableText (d : Rune) (t : Table) : GoString :=
  (t.map (fun rl => rl.1.text d ++ rl.2.Value)).flatten

/-- The units of the text of a table. -/
def tableToks (d : Rune) (t : Table) : List Token :=
  (t.map (fun rl => rl.1.toks d ++ [Token.lineBreak rl.2])).flatten

/-- The detected line break after a table is read: the first line break, unless one
had been detected before. -/
def detected (dl : GoString) : Table → GoString
  | [] => dl
  | rl :: _ => if dl.isEmpty then rl.2.Value else dl

/-- The position (line, column) reached at the end of a text read from line 1,
column 0. -/
def position (s : GoString) : Nat × Nat := advance (1, 0) (tokens s)

/-- What a caller of `ReadAll` observes on a new reader over `input` with the given
delimiter and null mode: the records and the detected line break, or the error. -/
def readAll (delimiter : Rune) (withoutNull : Bool) (input : GoString) :
    Except ParseError (List (List RawText) × GoString) :=
  match ({ NewReader input with Delimiter := delimiter, WithoutNull := withoutNull }).ReadAll with
  | .error e => .error e
  | .ok (records, r) => .ok (records, r.DetectedLineBreak)

/-- The records completed all have the established number of fields, and the record
being read has fewer. -/
def Inv (m : Machine) : Prop :=
  match m.FieldsPerRecord with
  | none => m.records = []
  | some k => m.record.length < k ∧ ∀ r ∈ m.records, r.length = k

/-- The content of the cell holds no CR and no LF. -/
def Cell.OneLine : Cell → Prop
  | .bare s => ∀ x ∈ s, x ≠ '\r' ∧ x ≠ '\n'
  | .quoted s => ∀ x ∈ s, x ≠ '\r' ∧ x ≠ '\n'

instance (c : Cell) : Decidable c.OneLine := by
  cases c <;> unfold Cell.OneLine <;> infer_instance

instance (d : Rune) (c : Cell) : Decidable (c.Valid d) := by
  cases c <;> unfold Cell.Valid <;> infer_instance

instance (d : Rune) (r : Row) : Decidable (r.Valid d) := by
  unfold Row.Valid; infer_instance

/-- The cell the writer makes of a field. -/
def Field.cell (d : Rune) (f : Field) : Cell :=
  if needsQuote d f then Cell.quoted f.Contents else Cell.bare f.Contents

/-- The row the writer makes of the fields `init` followed by `last`. -/
def fieldsRow (d : Rune) (init : List Field) (last : Field) : Row :=
  ⟨init.map (Field.cell d), last.cell d⟩

/-- The value read back for a written field. -/
def readBack (wn : Bool) (f : Field) : RawText :=
  if f.Contents = [] ∧ f.Quote = false then absent wn else some f.Contents

/-- The number of line-break sequences among the units. -/
def lineBreakCount (ts : List Token) : Nat := ts.countP Token.isLineBreak

/-- The number of runes after the last line-break sequence: the runes on the last
line. -/
def lastLineRunes (ts : List Token) : Nat :=
  (ts.reverse.takeWhile (fun t => !t.isLineBreak)).length

/-- What a caller of `ReadHeader` observes on a new reader over `input` with the given
delimiter: the labels, or the error. -/
def readHeader (delimiter : Rune) (input : GoString) :
    Except ParseError (Option (List GoString)) :=
  match ({ NewReader input with Delimiter := delimiter }).ReadHeader with
  | .error e => .error e
  | .ok (labels, _) => .ok labels

/-- The first line terminator that occurs in a text (CR, LF or CRLF), empty when there
is none. -/
def firstLineBreak (input : GoString) : GoString :=
  match (tokens input).find? Token.isLineBreak with
  | some (Token.lineBreak lb) => lb.Value
  | _ => []

/-- The machine without its detected line break. -/
def Machine.forget (m : Machine) : Machine := { m with DetectedLineBreak := [] }

/-- The state of the reader after a rune, errors aside: the state component of
`step` on a rune. -/
def quoteStep (d : Rune) (s : State) (c : Rune) : State :=
  match s with
  | .StartOfField | .EndOfRecord =>
    if c = '"' then State.InQuotedField
    else if c = d then State.StartOfField
    else State.InUnquotedField
  | .InUnquotedField => if c = d then State.StartOfField else State.InUnquotedField
  | .InQuotedField => if c = '"' then State.QuoteInQuotedField else State.InQuotedField
  | .QuoteInQuotedField => if c = '"' then State.InQuotedField else State.StartOfField

/-- The first line terminator of the stream that is not inside a quoted field, empty
when there is none; `s` is the state in which the stream is entered. -/
def firstBreakOutside (d : Rune) : State → List Token → GoString
  | _, [] => []
  | s, .rune c :: rest => firstBreakOutside d (quoteStep d s c) rest
  | s, .lineBreak lb :: rest =>
    if s = State.InQuotedField then firstBreakOutside d s rest else lb.Value

/-- Modelled from the spec: the decoder of the Encoding Adapter (§2 item 1, §6
`decode(byteStream, encodingName)`), on the text of the stream: under the encoding that
carries a mandatory byte-order mark the mark that opens the stream is consumed and is
not part of the decoded text; the other encodings give the text as it is (the model is
over runes on both sides, transcoding is the adapter's). -/
def decode (enc : Encoding) (stream : GoString) : GoString :=
  if enc = Encoding.UTF8M ∧ UTF8BOM.isPrefixOf stream = true then
    stream.drop UTF8BOM.length
  else stream

/-- What a caller of `ReadAll` observes on `NewReader(r, enc)` over the stream `r`, with
the given delimiter and null mode: the reader of §3 over the decoded text. -/
def readAllFrom (delimiter : Rune) (withoutNull : Bool) (enc : Encoding)
    (stream : GoString) : Except ParseError (List (List RawText) × GoString) :=
  readAll delimiter withoutNull (decode enc stream)

/-- The state in which the reader is after the units, errors aside: `quoteStep` on a
rune; a line break inside a quoted field leaves the field open, and any other line
break starts a record. -/
def quoteScan (d : Rune) : State → List Token → State
  | s, [] => s
  | s, .rune c :: rest => quoteScan d (quoteStep d s c) rest
  | s, .lineBreak _ :: rest =>
    quoteScan d (if s = State.InQuotedField then s else State.StartOfField) rest

/-- The stream ends while a quoted field is still open. -/
def endsInQuotedField (d : Rune) (input : GoString) : Prop :=
  quoteScan d State.StartOfField (tokens input) = State.InQuotedField

instance (d : Rune) (input : GoString) : Decidable (endsInQuotedField d input) := by
  unfold endsInQuotedField; infer_instance

end csv

/-! # Theorems -/

/-! ## General list facts -/

theorem intercalate_cons_eq {α : Type} (sep a : List α) (l : List (List α)) :
    List.intercalate sep (a :: l) = a ++ (l.map (fun s => sep ++ s)).flatten := by
  induction l generalizing a with
  | nil => simp [List.intercalate, List.intersperse]
  | cons b l ih =>
    have h := ih b
    simp only [List.intercalate, List.intersperse, List.flatten_cons, List.map_cons] at h ⊢
    rw [h, List.append_assoc]

namespace ltsv

theorem line_cons (h v : GoString) (hs vs : List GoString) :
    line (h :: hs) (v :: vs) = h ++ [':'] ++ v ++ tabbed hs vs := by
  simp only [line, tabbed, List.zipWith_cons_cons, intercalate_cons_eq]

theorem tabbed_cons (h v : GoString) (hs vs : List GoString) :
    tabbed (h :: hs) (v :: vs) = ['\t'] ++ h ++ [':'] ++ v ++ tabbed hs vs := by
  simp [tabbed]

theorem scanRunes_eq_none (table : RangeTable) (s : GoString) :
    scanRunes table s = none ↔ ∀ r ∈ s, table r = true := by
  induction s with
  | nil => simp [scanRunes]
  | cons a s ih =>
    by_cases h : table a = true <;> simp [scanRunes, h, ih]

theorem scanLabels_eq_none (table : RangeTable) (ls : List GoString) :
    scanLabels table ls = none ↔ ∀ l ∈ ls, ∀ r ∈ l, table r = true := by
  induction ls with
  | nil => simp [scanLabels]
  | cons a ls ih =>
    cases h : scanRunes table a with
    | none =>
      have ha := (scanRunes_eq_none table a).1 h
      simp only [scanLabels, h, ih, List.mem_cons, forall_eq_or_imp]
      exact ⟨fun H => ⟨ha, H⟩, fun H => H.2⟩
    | some r =>
      have ha : ¬ ∀ r ∈ a, table r = true := by
        rw [← scanRunes_eq_none, h]; simp
      simp only [scanLabels, h, List.mem_cons, forall_eq_or_imp]
      constructor
      · intro H; cases H
      · intro H; exact absurd H.1 ha

theorem scanRunes_eq_find (table : RangeTable) (s : GoString) :
    scanRunes table s = s.find? (fun r => !table r) := by
  induction s with
  | nil => rfl
  | cons a s ih =>
    by_cases h : table a = true <;> simp [scanRunes, List.find?_cons, h, ih]

theorem scanLabels_eq_firstOutside (table : RangeTable) (ss : List GoString) :
    scanLabels table ss = firstOutside table ss := by
  induction ss with
  | nil => rfl
  | cons a ss ih =>
    simp only [firstOutside, List.flatten_cons, List.find?_append] at ih ⊢
    rw [← ih, ← scanRunes_eq_find]
    cases h : scanRunes table a <;> simp [scanLabels, h]

/-- The loop of `Write` from an index `i > 0`: it emits the accepted fields, each after
a TAB, and returns the error of the first unpermitted rune, if there is one. -/
theorem writeFields_pos (T : RangeTable) (header record : List GoString)
    (hlen : record.length = header.length) :
    ∀ (n i : Nat) (bw : GoString), 0 < i → i + n = record.length →
      writeFields T header record n i bw =
        (bw ++ tabbed (header.drop i) (accepted T record i),
         (scanLabels T (record.drop i)).map fieldValueError) := by
  intro n
  induction n with
  | zero =>
    intro i bw _ hi
    have h1 : record.drop i = [] := List.drop_eq_nil_of_le (by omega)
    simp [writeFields, accepted, h1, tabbed, scanLabels]
  | succ n ih =>
    intro i bw hpos hi
    have hr : i < record.length := by omega
    have hh : i < header.length := by omega
    have h1 : record.drop i = record[i] :: record.drop (i + 1) := List.drop_eq_getElem_cons hr
    have h2 : header.drop i = header[i] :: header.drop (i + 1) := List.drop_eq_getElem_cons hh
    have g1 : record.getD i [] = record[i] := List.getD_eq_getElem _ _ hr
    have g2 : header.getD i [] = header[i] := List.getD_eq_getElem _ _ hh
    rw [writeFields, g1, g2]
    cases hs : scanRunes T record[i] with
    | some r =>
      have ha : accepted T record i = [] := by
        unfold accepted
        rw [h1, List.takeWhile_cons_of_neg (by simp [hs])]
      rw [ha, h1]
      simp [hs, scanLabels, tabbed]
    | none =>
      simp only [hpos, if_true]
      rw [ih (i + 1) _ (by omega) (by omega)]
      have ha : accepted T record i = record[i] :: accepted T record (i + 1) := by
        unfold accepted
        rw [h1, List.takeWhile_cons_of_pos (by simp [hs])]
      rw [ha, h2, tabbed_cons, h1]
      simp [scanLabels, hs]

/-- The loop of `Write` from index 0. -/
theorem writeFields_zero (T : RangeTable) (header record : List GoString)
    (hlen : record.length = header.length) (bw : GoString) :
    writeFields T header record record.length 0 bw =
      (bw ++ line header (accepted T record 0),
       (scanLabels T record).map fieldValueError) := by
  cases record with
  | nil => simp [writeFields, accepted, line, scanLabels, List.intercalate]
  | cons v vs =>
    cases header with
    | nil => simp at hlen
    | cons h hs =>
      simp only [List.length_cons, writeFields, List.getD_cons_zero, Nat.lt_irrefl, if_false]
      cases hv : scanRunes T v with
      | some r => simp [accepted, hv, line, scanLabels, List.intercalate]
      | none =>
        rw [writeFields_pos T (h :: hs) (v :: vs) hlen vs.length 1 _ (by omega) (by simp; omega)]
        have ha : accepted T (v :: vs) 0 = v :: accepted T (v :: vs) 1 := by
          simp [accepted, hv]
        rw [ha, line_cons]
        simp [scanLabels, hv]

theorem accepted_of_permitted (T : RangeTable) (record : List GoString)
    (h : Permitted T record) : accepted T record 0 = record := by
  simp only [accepted, List.drop_zero]
  apply List.takeWhile_eq_self_iff.2
  intro v hv
  simp [(scanRunes_eq_none T v).2 (h v hv)]

/-- What `Write` does, in closed form. -/
theorem Write_eq (T : RangeTable) (e : Writer) (record : List GoString) :
    e.Write T record =
      if record.length ≠ e.header.length then (e, some lengthError)
      else
        ({ e with
            appended := true
            writer := e.writer ++ (if e.appended then e.lineBreak else []) ++
              line e.header (accepted T record 0) },
         (scanLabels T record).map fieldValueError) := by
  unfold Writer.Write
  by_cases hl : record.length = e.header.length
  · simp only [hl, ne_eq, not_true_eq_false, if_false]
    cases ha : e.appended
    · simp [← hl, writeFields_zero T e.header record hl]
    · simp [← hl, writeFields_zero T e.header record hl, ha]
  · simp [hl]

/-! ## Sequences of `Write` calls -/

theorem Write_header (T : RangeTable) (e : Writer) (record : List GoString) :
    (e.Write T record).1.header = e.header := by
  rw [Write_eq]; split <;> rfl

theorem Write_lineBreak (T : RangeTable) (e : Writer) (record : List GoString) :
    (e.Write T record).1.lineBreak = e.lineBreak := by
  rw [Write_eq]; split <;> rfl

theorem Write_appended (T : RangeTable) (e : Writer) (record : List GoString) :
    (e.Write T record).1.appended =
      (e.appended || decide (record.length = e.header.length)) := by
  rw [Write_eq]
  by_cases h : record.length = e.header.length <;> simp [h]

theorem writeAll_header (T : RangeTable) (records : List (List GoString)) :
    ∀ e : Writer, (writeAll T e records).1.header = e.header := by
  induction records with
  | nil => intro e; rfl
  | cons r rest ih => intro e; simp only [writeAll]; rw [ih, Write_header]

theorem writeAll_lineBreak (T : RangeTable) (records : List (List GoString)) :
    ∀ e : Writer, (writeAll T e records).1.lineBreak = e.lineBreak := by
  induction records with
  | nil => intro e; rfl
  | cons r rest ih => intro e; simp only [writeAll]; rw [ih, Write_lineBreak]

theorem writeAll_appended (T : RangeTable) (records : List (List GoString)) :
    ∀ e : Writer, (writeAll T e records).1.appended =
      (e.appended || records.any (fun r => decide (r.length = e.header.length))) := by
  induction records with
  | nil => intro e; simp [writeAll]
  | cons r rest ih =>
    intro e
    simp only [writeAll]
    rw [ih, Write_appended, Write_header, List.any_cons, Bool.or_assoc]

/-- Permitted records of the right length written to a writer that has appended
before: every record comes after a line break. -/
theorem writeAll_appended_permitted (T : RangeTable) (records : List (List GoString)) :
    ∀ e : Writer, e.appended = true →
      (∀ r ∈ records, r.length = e.header.length ∧ Permitted T r) →
      writeAll T e records =
        ({ e with writer := e.writer ++
            (records.map (fun r => e.lineBreak ++ line e.header r)).flatten },
         List.replicate records.length none) := by
  induction records with
  | nil => intro e _ _; simp [writeAll]
  | cons r rest ih =>
    intro e ha hr
    have h1 := hr r (List.mem_cons_self _ _)
    have h2 : ∀ x ∈ rest, x.length = e.header.length ∧ Permitted T x :=
      fun x hx => hr x (List.mem_cons_of_mem _ hx)
    have hw : e.Write T r =
        ({ e with writer := e.writer ++ e.lineBreak ++ line e.header r }, none) := by
      rw [Write_eq, accepted_of_permitted T r h1.2,
        (scanLabels_eq_none T r).2 h1.2]
      simp [h1.1, ha]
    simp only [writeAll, hw]
    rw [ih { e with writer := e.writer ++ e.lineBreak ++ line e.header r } ha h2]
    simp [List.replicate_succ, List.append_assoc]

/-- Permitted records of the right length written to a fresh writer: the lines are
joined by the line break. -/
theorem writeAll_fresh_permitted (T : RangeTable) (records : List (List GoString))
    (e : Writer) (hf : e.appended = false)
    (hr : ∀ r ∈ records, r.length = e.header.length ∧ Permitted T r) :
    (writeAll T e records).1.writer =
        e.writer ++ List.intercalate e.lineBreak (records.map (line e.header)) ∧
      (writeAll T e records).2 = List.replicate records.length none := by
  cases records with
  | nil => simp [writeAll, List.intercalate]
  | cons r rest =>
    have h1 := hr r (List.mem_cons_self _ _)
    have h2 : ∀ x ∈ rest, x.length = e.header.length ∧ Permitted T x :=
      fun x hx => hr x (List.mem_cons_of_mem _ hx)
    have hw : e.Write T r =
        ({ e with appended := true, writer := e.writer ++ line e.header r }, none) := by
      rw [Write_eq, accepted_of_permitted T r h1.2,
        (scanLabels_eq_none T r).2 h1.2]
      simp [h1.1, hf]
    simp only [writeAll, hw]
    rw [writeAll_appended_permitted T rest
      { e with appended := true, writer := e.writer ++ line e.header r } rfl h2]
    simp [List.replicate_succ, intercalate_cons_eq, List.map_map, Function.comp_def]

/-- The text a sequence of `Write` calls appends does not depend on the text already
accepted by the buffered writer. -/
theorem writeAll_writer_prefix (T : RangeTable) (records : List (List GoString)) :
    ∀ e : Writer,
      (writeAll T e records).1.writer =
          e.writer ++ (writeAll T { e with writer := [] } records).1.writer ∧
        (writeAll T e records).2 = (writeAll T { e with writer := [] } records).2 := by
  induction records with
  | nil => intro e; simp [writeAll]
  | cons r rest ih =>
    intro e
    simp only [writeAll]
    have h1 := ih (e.Write T r).1
    have h2 := ih ((({ e with writer := [] } : Writer).Write T r).1)
    have hw : (({ e with writer := [] } : Writer).Write T r) =
        ({ (e.Write T r).1 with
            writer := (e.Write T r).1.writer.drop e.writer.length }, (e.Write T r).2) := by
      rw [Write_eq, Write_eq]
      by_cases hl : r.length = e.header.length <;> simp [hl]
    have hp : (e.Write T r).1.writer =
        e.writer ++ (e.Write T r).1.writer.drop e.writer.length := by
      rw [Write_eq]
      by_cases hl : r.length = e.header.length <;> simp [hl]
    rw [hw] at h2 ⊢
    simp only at h2 ⊢
    constructor
    · rw [h1.1, h2.1, ← List.append_assoc, ← hp]
    · rw [h1.2, h2.2]

theorem NewWriter_ok_iff (L : RangeTable) (header : List GoString) (lb : GoString)
    (enc : Encoding) (w : Writer) :
    NewWriter L header lb enc = .ok w ↔
      scanLabels L header = none ∧
        w = { header := header, lineBreak := lb, appended := false,
              writer := if enc = Encoding.UTF8M then UTF8BOM else [] } := by
  unfold NewWriter
  cases h : scanLabels L header with
  | some r => simp
  | none =>
    by_cases he : enc = Encoding.UTF8M <;> simp [he, eq_comm]

theorem fieldValueError_ne_lengthError (r : Rune) : fieldValueError r ≠ lengthError := by
  intro h
  have h1 : (fieldValueError r).head? = some 'u' := rfl
  have h2 : lengthError.head? = some 'f' := rfl
  rw [h, h2] at h1
  exact absurd h1 (by decide)

/-! ## The LTSV writer: claims -/

/-- C1: for a header accepted by `NewWriter`, any line break and any records that each
have `len(header)` values made of runes of `FieldValueTable`, every `Write` call
succeeds and the text written is the construction-time prologue followed by the lines
of the records joined by the line break, a line being `header[i]:record[i]` joined by
TAB; no line break follows the last record. -/
theorem C1_write_all_output (LabelTable FieldValueTable : RangeTable)
    (header : List GoString) (lb : GoString) (enc : Encoding) (w : Writer)
    (records : List (List GoString))
    (hw : NewWriter LabelTable header lb enc = .ok w)
    (hrec : ∀ r ∈ records, r.length = header.length ∧ Permitted FieldValueTable r) :
    (writeAll FieldValueTable w records).2 = List.replicate records.length none ∧
      (writeAll FieldValueTable w records).1.writer =
        w.writer ++ List.intercalate lb (records.map (line header)) := by
  obtain ⟨_, rfl⟩ := (NewWriter_ok_iff _ _ _ _ _).1 hw
  have h := writeAll_fresh_permitted FieldValueTable records
    { header := header, lineBreak := lb, appended := false,
      writer := if enc = Encoding.UTF8M then UTF8BOM else [] } rfl hrec
  exact ⟨h.2, h.1⟩

/-- C1 at the header `ab`, `c`, line break LF, encoding UTF8M and two records. -/
theorem C1_write_all_output_witness :
    NewWriter lbyteTable ["ab".toList, "c".toList] "\n".toList Encoding.UTF8M =
        .ok { header := ["ab".toList, "c".toList], writer := UTF8BOM,
              lineBreak := "\n".toList, appended := false } ∧
      (writeAll fbyteTable
          { header := ["ab".toList, "c".toList], writer := UTF8BOM,
            lineBreak := "\n".toList, appended := false }
          [["1".toList, "2".toList], ["x".toList, "".toList]]).1.writer =
        UTF8BOM ++ "ab:1\tc:2\nab:x\tc:".toList :=
  ⟨by decide,
   (C1_write_all_output lbyteTable fbyteTable ["ab".toList, "c".toList] "\n".toList
      Encoding.UTF8M _ [["1".toList, "2".toList], ["x".toList, "".toList]]
      (by decide) (by decide)).2⟩

/-- C2: on a sink that never fails, `Write` returns an error exactly when the record
has not `len(header)` values or some value contains a rune outside
`FieldValueTable`. -/
theorem C2_write_error_iff (FieldValueTable : RangeTable) (e : Writer)
    (record : List GoString) :
    (e.Write FieldValueTable record).2.isSome = true ↔
      (record.length ≠ e.header.length ∨
        ∃ v ∈ record, ∃ r ∈ v, FieldValueTable r = false) := by
  have hn : (scanLabels FieldValueTable record).isSome = true ↔
      ∃ v ∈ record, ∃ r ∈ v, FieldValueTable r = false := by
    have h := scanLabels_eq_none FieldValueTable record
    cases hs : scanLabels FieldValueTable record with
    | none =>
      have h1 := h.1 hs
      simp only [Option.isSome_none, Bool.false_eq_true, false_iff]
      rintro ⟨v, hv, r, hr, hf⟩
      rw [h1 v hv r hr] at hf
      cases hf
    | some c =>
      simp only [Option.isSome_some, true_iff]
      by_contra hc
      have hall : ∀ l ∈ record, ∀ r ∈ l, FieldValueTable r = true := by
        intro l hl r hr
        by_contra hf
        exact hc ⟨l, hl, r, hr, by simpa using hf⟩
      rw [h.2 hall] at hs
      cases hs
  rw [Write_eq]
  by_cases hl : record.length = e.header.length
  · simp only [hl, ne_eq, not_true_eq_false, if_false, false_or, Option.isSome_map']
    exact hn
  · simp [hl]

/-- C3 as stated fails: on a fresh writer a record whose value holds a TAB is refused
with an error, and the call has set the `appended` flag. -/
theorem C3_state_unchanged_counterexample :
    NewWriter lbyteTable ["a".toList] "\n".toList Encoding.UTF8 = .ok sampleWriter ∧
      (sampleWriter.Write fbyteTable ["\t".toList]).2 = some (fieldValueError '\t') ∧
      ¬ ((sampleWriter.Write fbyteTable ["\t".toList]).1.header = sampleWriter.header ∧
         (sampleWriter.Write fbyteTable ["\t".toList]).1.lineBreak = sampleWriter.lineBreak ∧
         (sampleWriter.Write fbyteTable ["\t".toList]).1.appended = sampleWriter.appended) := by
  decide

/-- C3, amended: when `Write` returns an error, the header and the line break are the
same after the call as before it; the `appended` flag is the same when the error is
the length mismatch or when the flag was already set, and it is set after the call
when the error is an unpermitted character. -/
theorem C3_write_error_state (FieldValueTable : RangeTable) (e : Writer)
    (record : List GoString) (msg : GoString)
    (herr : (e.Write FieldValueTable record).2 = some msg) :
    (e.Write FieldValueTable record).1.header = e.header ∧
      (e.Write FieldValueTable record).1.lineBreak = e.lineBreak ∧
      (msg = lengthError → (e.Write FieldValueTable record).1.appended = e.appended) ∧
      (e.appended = true → (e.Write FieldValueTable record).1.appended = e.appended) ∧
      (msg ≠ lengthError → (e.Write FieldValueTable record).1.appended = true) := by
  refine ⟨Write_header _ _ _, Write_lineBreak _ _ _, ?_, ?_, ?_⟩
  · intro hm
    rw [Write_eq] at herr ⊢
    by_cases hl : record.length = e.header.length
    · simp only [hl, ne_eq, not_true_eq_false, if_false, Option.map_eq_some'] at herr
      obtain ⟨r, _, hr⟩ := herr
      exact absurd (hr.trans hm) (fieldValueError_ne_lengthError r)
    · simp [hl]
  · intro ha
    rw [Write_appended, ha]; rfl
  · intro hm
    rw [Write_eq] at herr ⊢
    by_cases hl : record.length = e.header.length
    · simp [hl]
    · simp only [hl, ne_eq, not_false_eq_true, if_true, Option.some.injEq] at herr
      exact absurd herr.symm hm

/-- C3, amended, at a fresh writer and a record holding a TAB. -/
theorem C3_write_error_state_witness :
    (sampleWriter.Write fbyteTable ["\t".toList]).2 = some (fieldValueError '\t') ∧
      (sampleWriter.Write fbyteTable ["\t".toList]).1.header = sampleWriter.header ∧
      (sampleWriter.Write fbyteTable ["\t".toList]).1.lineBreak = sampleWriter.lineBreak ∧
      (sampleWriter.Write fbyteTable ["\t".toList]).1.appended = true :=
  have h := C3_write_error_state fbyteTable sampleWriter ["\t".toList]
    (fieldValueError '\t') (by decide)
  ⟨by decide, h.1, h.2.1, h.2.2.2.2 (fieldValueError_ne_lengthError _)⟩

/-- C4 as stated fails: after a first `Write` that failed on a TAB, no call has
succeeded, yet the next, successful `Write` puts the line break in front of its line. -/
theorem C4_line_break_counterexample :
    NewWriter lbyteTable ["a".toList] "\n".toList Encoding.UTF8 = .ok sampleWriter ∧
      (writeAll fbyteTable sampleWriter [["\t".toList]]).2 =
        [some (fieldValueError '\t')] ∧
      (writeAll fbyteTable sampleWriter [["\t".toList]]).1.writer = [] ∧
      ((writeAll fbyteTable sampleWriter [["\t".toList]]).1.Write fbyteTable
          ["x".toList]).2 = none ∧
      ((writeAll fbyteTable sampleWriter [["\t".toList]]).1.Write fbyteTable
          ["x".toList]).1.writer = "\n".toList ++ line ["a".toList] ["x".toList] := by
  decide

/-- C4, amended: after any sequence of `Write` calls on a writer returned by
`NewWriter`, a successful `Write` appends the line break in front of its line exactly
when some earlier call was given a record of `len(header)` values (it succeeded, or it
failed on an unpermitted character); so the first record successfully written is not
preceded by a line break when every earlier call failed on the length. -/
theorem C4_line_break_placement (LabelTable FieldValueTable : RangeTable)
    (header : List GoString) (lb : GoString) (enc : Encoding) (w : Writer)
    (earlier : List (List GoString)) (record : List GoString)
    (hw : NewWriter LabelTable header lb enc = .ok w)
    (hok : ((writeAll FieldValueTable w earlier).1.Write FieldValueTable record).2 = none) :
    ((writeAll FieldValueTable w earlier).1.Write FieldValueTable record).1.writer =
      (writeAll FieldValueTable w earlier).1.writer ++
        (if earlier.any (fun r => decide (r.length = header.length)) then lb else []) ++
        line header record := by
  obtain ⟨_, rfl⟩ := (NewWriter_ok_iff _ _ _ _ _).1 hw
  rw [Write_eq] at hok ⊢
  rw [writeAll_header, writeAll_lineBreak, writeAll_appended] at hok ⊢
  by_cases hl : record.length = header.length
  · simp only [hl, ne_eq, not_true_eq_false, if_false, Option.map_eq_none'] at hok ⊢
    have hp : Permitted FieldValueTable record := (scanLabels_eq_none _ _).1 hok
    rw [accepted_of_permitted _ _ hp]
    simp
  · simp [hl] at hok

/-- C4, amended, at one length failure followed by a successful call. -/
theorem C4_line_break_placement_witness :
    ((writeAll fbyteTable sampleWriter [[]]).1.Write fbyteTable ["x".toList]).2 = none ∧
      ((writeAll fbyteTable sampleWriter [[]]).1.Write fbyteTable ["x".toList]).1.writer =
        (writeAll fbyteTable sampleWriter [[]]).1.writer ++
          (if [([] : List GoString)].any (fun r => decide (r.length = ["a".toList].length))
            then "\n".toList else []) ++
          line ["a".toList] ["x".toList] :=
  ⟨by decide,
   C4_line_break_placement lbyteTable fbyteTable ["a".toList] "\n".toList Encoding.UTF8
     sampleWriter [[]] ["x".toList] (by decide) (by decide)⟩

/-- C5: on a sink that never fails, `NewWriter` returns an error, and no writer,
exactly when some label holds a rune outside `LabelTable`; the empty header and a
header of empty labels are accepted. -/
theorem C5_new_writer_error_iff (LabelTable : RangeTable) (header : List GoString)
    (lb : GoString) (enc : Encoding) (n : Nat) :
    ((∃ msg, NewWriter LabelTable header lb enc = .error msg) ↔
        ∃ l ∈ header, ∃ r ∈ l, LabelTable r = false) ∧
      ((∃ w, NewWriter LabelTable header lb enc = .ok w) ↔
        ∀ l ∈ header, ∀ r ∈ l, LabelTable r = true) ∧
      (∃ w, NewWriter LabelTable [] lb enc = .ok w) ∧
      (∃ w, NewWriter LabelTable (List.replicate n []) lb enc = .ok w) := by
  have hok : ∀ hd : List GoString,
      (∃ w, NewWriter LabelTable hd lb enc = .ok w) ↔
        ∀ l ∈ hd, ∀ r ∈ l, LabelTable r = true := by
    intro hd
    rw [← scanLabels_eq_none]
    constructor
    · rintro ⟨w, hw⟩
      exact ((NewWriter_ok_iff _ _ _ _ _).1 hw).1
    · intro h
      exact ⟨_, (NewWriter_ok_iff _ _ _ _ _).2 ⟨h, rfl⟩⟩
  refine ⟨?_, hok header, (hok []).2 (by simp), (hok _).2 ?_⟩
  · have h2 := hok header
    constructor
    · rintro ⟨msg, hm⟩
      by_contra hc
      have hall : ∀ l ∈ header, ∀ r ∈ l, LabelTable r = true := by
        intro l hl r hr
        by_contra hf
        exact hc ⟨l, hl, r, hr, by simpa using hf⟩
      obtain ⟨w, hw⟩ := h2.2 hall
      rw [hw] at hm
      cases hm
    · rintro ⟨l, hl, r, hr, hf⟩
      cases hn : NewWriter LabelTable header lb enc with
      | error msg => exact ⟨msg, rfl⟩
      | ok w =>
        have := h2.1 ⟨w, hn⟩ l hl r hr
        rw [hf] at this
        cases this
  · intro l hl r hr
    rw [List.eq_of_mem_replicate hl] at hr
    cases hr

/-- C6: the character errors carry the offending code point.  `NewWriter` fails with
`unpermitted character in label: ` followed by the `U+XXXX` form of the first rune
outside `LabelTable` in header order, and succeeds when there is none; `Write` on a
record of the right length fails with `unpermitted character in field-value: `
followed by the `U+XXXX` form of the first rune outside `FieldValueTable` in record
order, and succeeds when there is none. -/
theorem C6_error_carries_code_point (LabelTable FieldValueTable : RangeTable)
    (header : List GoString) (lb : GoString) (enc : Encoding) (e : Writer)
    (record : List GoString) :
    (NewWriter LabelTable header lb enc =
        match firstOutside LabelTable header with
        | some r => .error ("unpermitted character in label: ".toList ++ fmtU r)
        | none =>
          .ok { header := header, lineBreak := lb, appended := false,
                writer := if enc = Encoding.UTF8M then UTF8BOM else [] }) ∧
      ((e.Write FieldValueTable record).2 =
        if record.length ≠ e.header.length then some "field length does not match".toList
        else (firstOutside FieldValueTable record).map
          (fun r => "unpermitted character in field-value: ".toList ++ fmtU r)) ∧
      fmtU '\t' = "U+0009".toList ∧
      fmtU (Char.ofNat 0x3042) = "U+3042".toList ∧
      fmtU (Char.ofNat 0x1F600) = "U+1F600".toList := by
  refine ⟨?_, ?_, by decide, by decide, by decide⟩
  · rw [← scanLabels_eq_firstOutside]
    unfold NewWriter
    cases scanLabels LabelTable header with
    | some r => rfl
    | none => by_cases he : enc = Encoding.UTF8M <;> simp [he]
  · rw [Write_eq, ← scanLabels_eq_firstOutside]
    by_cases hl : record.length = e.header.length
    · simp only [hl, ne_eq, not_true_eq_false, if_false]
      rfl
    · simp only [hl, ne_eq, not_false_eq_true, if_true]
      rfl

theorem mem_intercalate {α : Type} (c : α) (sep : List α) (xs : List (List α))
    (h : c ∈ List.intercalate sep xs) : c ∈ sep ∨ ∃ x ∈ xs, c ∈ x := by
  cases xs with
  | nil => simp [List.intercalate] at h
  | cons a l =>
    rw [intercalate_cons_eq, List.mem_append, List.mem_flatten] at h
    rcases h with h | ⟨y, hy, hc⟩
    · exact Or.inr ⟨a, List.mem_cons_self _ _, h⟩
    · obtain ⟨x, hx, rfl⟩ := List.mem_map.1 hy
      rcases List.mem_append.1 hc with h | h
      · exact Or.inl h
      · exact Or.inr ⟨x, List.mem_cons_of_mem _ hx, h⟩

theorem mem_zipWith_field (x : GoString) :
    ∀ (hs vs : List GoString), x ∈ List.zipWith (fun h v => h ++ [':'] ++ v) hs vs →
      ∃ h ∈ hs, ∃ v ∈ vs, x = h ++ [':'] ++ v
  | [], _, hx => by simp at hx
  | _ :: _, [], hx => by simp at hx
  | h :: hs, v :: vs, hx => by
    rw [List.zipWith_cons_cons, List.mem_cons] at hx
    rcases hx with rfl | hx
    · exact ⟨h, List.mem_cons_self _ _, v, List.mem_cons_self _ _, rfl⟩
    · obtain ⟨h2, hh, v2, hv, e⟩ := mem_zipWith_field x hs vs hx
      exact ⟨h2, List.mem_cons_of_mem _ hh, v2, List.mem_cons_of_mem _ hv, e⟩

/-- Every rune of a line is a TAB, a colon, a rune of a label or a rune of a value. -/
theorem mem_line (c : Rune) (hs vs : List GoString) (h : c ∈ line hs vs) :
    c = '\t' ∨ c = ':' ∨ (∃ l ∈ hs, c ∈ l) ∨ (∃ v ∈ vs, c ∈ v) := by
  rcases mem_intercalate c _ _ h with h | ⟨x, hx, hc⟩
  · exact Or.inl (by simpa using h)
  · obtain ⟨l, hl, v, hv, rfl⟩ := mem_zipWith_field x hs vs hx
    simp only [List.mem_append, List.mem_singleton] at hc
    rcases hc with (hc | hc) | hc
    · exact Or.inr (Or.inr (Or.inl ⟨l, hl, hc⟩))
    · exact Or.inr (Or.inl hc)
    · exact Or.inr (Or.inr (Or.inr ⟨v, hv, hc⟩))

/-- What one `Write` appends: runes of the line break, the labels and the values of
the record, TABs and colons, and nothing else. -/
theorem Write_appends (T : RangeTable) (e : Writer) (record : List GoString) :
    ∃ t, (e.Write T record).1.writer = e.writer ++ t ∧
      ∀ c ∈ t, c = '\t' ∨ c = ':' ∨ c ∈ e.lineBreak ∨ (∃ l ∈ e.header, c ∈ l) ∨
        (∃ v ∈ record, c ∈ v) := by
  rw [Write_eq]
  by_cases hl : record.length = e.header.length
  · refine ⟨(if e.appended then e.lineBreak else []) ++ line e.header (accepted T record 0),
      by simp [hl, List.append_assoc], ?_⟩
    intro c hc
    rcases List.mem_append.1 hc with h | h
    · split at h
      · exact Or.inr (Or.inr (Or.inl h))
      · simp at h
    · rcases mem_line c _ _ h with h | h | h | ⟨v, hv, hcv⟩
      · exact Or.inl h
      · exact Or.inr (Or.inl h)
      · exact Or.inr (Or.inr (Or.inr (Or.inl h)))
      · refine Or.inr (Or.inr (Or.inr (Or.inr ⟨v, ?_, hcv⟩)))
        have hsub := (List.takeWhile_sublist
          (fun v => (scanRunes T v).isNone) (l := record.drop 0)).subset hv
        simpa using hsub
  · exact ⟨[], by simp [hl], by simp⟩

/-- What a sequence of `Write` calls appends: runes of the line break, the labels and
the values of the records, TABs and colons, and nothing else. -/
theorem writeAll_appends (T : RangeTable) (records : List (List GoString)) :
    ∀ e : Writer, ∃ body, (writeAll T e records).1.writer = e.writer ++ body ∧
      ∀ c ∈ body, c = '\t' ∨ c = ':' ∨ c ∈ e.lineBreak ∨ (∃ l ∈ e.header, c ∈ l) ∨
        (∃ r ∈ records, ∃ v ∈ r, c ∈ v) := by
  induction records with
  | nil => intro e; exact ⟨[], by simp [writeAll], by simp⟩
  | cons r rest ih =>
    intro e
    obtain ⟨t, ht, hprov⟩ := Write_appends T e r
    obtain ⟨body, hb, hprov2⟩ := ih (e.Write T r).1
    rw [Write_header, Write_lineBreak] at hprov2
    refine ⟨t ++ body, ?_, ?_⟩
    · simp only [writeAll]
      rw [hb, ht, List.append_assoc]
    · intro c hc
      rcases List.mem_append.1 hc with h | h
      · rcases hprov c h with h | h | h | h | ⟨v, hv, hcv⟩
        · exact Or.inl h
        · exact Or.inr (Or.inl h)
        · exact Or.inr (Or.inr (Or.inl h))
        · exact Or.inr (Or.inr (Or.inr (Or.inl h)))
        · exact Or.inr (Or.inr (Or.inr (Or.inr ⟨r, List.mem_cons_self _ _, v, hv, hcv⟩)))
      · rcases hprov2 c h with h | h | h | h | ⟨r2, hr2, v, hv, hcv⟩
        · exact Or.inl h
        · exact Or.inr (Or.inl h)
        · exact Or.inr (Or.inr (Or.inl h))
        · exact Or.inr (Or.inr (Or.inr (Or.inl h)))
        · exact Or.inr (Or.inr (Or.inr (Or.inr
            ⟨r2, List.mem_cons_of_mem _ hr2, v, hv, hcv⟩)))

/-- C7: for a valid header the prologue written at construction is the UTF-8 BOM when
the encoding is UTF8M and is empty otherwise.  Whatever `Write` calls follow, the output
is that prologue followed by a text made only of TABs, colons and runes of the line
break, of the labels and of the values of the records: no `Write` emits the mark.  So
when the data do not hold the rune of the mark, it occurs in the output once when the
encoding is UTF8M, and not at all otherwise.  The text appended after the prologue, and
the errors returned, are those of the same calls on a writer built for UTF-8. -/
theorem C7_byte_order_mark (LabelTable FieldValueTable : RangeTable)
    (header : List GoString) (lb : GoString) (enc : Encoding) (w : Writer)
    (records : List (List GoString))
    (hw : NewWriter LabelTable header lb enc = .ok w) :
    w.writer = (if enc = Encoding.UTF8M then UTF8BOM else []) ∧
      (∃ body, (writeAll FieldValueTable w records).1.writer = w.writer ++ body ∧
        ∀ c ∈ body, c = '\t' ∨ c = ':' ∨ c ∈ lb ∨ (∃ l ∈ header, c ∈ l) ∨
          (∃ r ∈ records, ∃ v ∈ r, c ∈ v)) ∧
      ((∀ c ∈ UTF8BOM, c ∉ lb ∧ (∀ l ∈ header, c ∉ l) ∧ ∀ r ∈ records, ∀ v ∈ r, c ∉ v) →
        ∀ c ∈ UTF8BOM, (writeAll FieldValueTable w records).1.writer.count c =
          if enc = Encoding.UTF8M then 1 else 0) ∧
      ∃ w0, NewWriter LabelTable header lb Encoding.UTF8 = .ok w0 ∧ w0.writer = [] ∧
        (writeAll FieldValueTable w records).1.writer =
          w.writer ++ (writeAll FieldValueTable w0 records).1.writer ∧
        (writeAll FieldValueTable w records).2 = (writeAll FieldValueTable w0 records).2 := by
  obtain ⟨hs, rfl⟩ := (NewWriter_ok_iff _ _ _ _ _).1 hw
  have happ := writeAll_appends FieldValueTable records
    { header := header, lineBreak := lb, appended := false,
      writer := if enc = Encoding.UTF8M then UTF8BOM else [] }
  refine ⟨rfl, happ, ?_, _, (NewWriter_ok_iff _ _ _ _ _).2 ⟨hs, rfl⟩, by simp, ?_⟩
  · intro hdata c hc
    obtain ⟨body, hb, hprov⟩ := happ
    obtain ⟨h1, h2, h3⟩ := hdata c hc
    have hc2 : c = Char.ofNat 0xFEFF := by simpa [UTF8BOM] using hc
    have hbody : c ∉ body := by
      intro hmem
      rcases hprov c hmem with h | h | h | ⟨l, hl, hcl⟩ | ⟨r, hr, v, hv, hcv⟩
      · rw [hc2] at h; exact absurd h (by decide)
      · rw [hc2] at h; exact absurd h (by decide)
      · exact h1 h
      · exact h2 l hl hcl
      · exact h3 r hr v hv hcv
    rw [hb, List.count_append, List.count_eq_zero.2 hbody, Nat.add_zero]
    by_cases he : enc = Encoding.UTF8M
    · simp [he, hc2, UTF8BOM]
    · simp [he]
  · have h := writeAll_writer_prefix FieldValueTable records
      { header := header, lineBreak := lb, appended := false,
        writer := if enc = Encoding.UTF8M then UTF8BOM else [] }
    simpa using h

/-- C7 at the header `a`, encoding UTF8M and two records: the output holds the mark
once. -/
theorem C7_byte_order_mark_witness :
    NewWriter lbyteTable ["a".toList] "\n".toList Encoding.UTF8M =
        .ok { sampleWriter with writer := UTF8BOM } ∧
      (writeAll fbyteTable { sampleWriter with writer := UTF8BOM }
          [["1".toList], ["2".toList]]).1.writer.count (Char.ofNat 0xFEFF) = 1 :=
  ⟨by decide,
    (C7_byte_order_mark lbyteTable fbyteTable ["a".toList] "\n".toList
      Encoding.UTF8M { sampleWriter with writer := UTF8BOM } [["1".toList], ["2".toList]]
      (by decide)).2.2.1 (by decide) (Char.ofNat 0xFEFF) (by decide)⟩

/-! ## The LTSV writer: partial output, length mismatch and injectivity of lines -/

theorem zipWith_take_right {α β γ : Type} (f : α → β → γ) :
    ∀ (i : Nat) (hs : List α) (vs : List β),
      List.zipWith f hs (vs.take i) = List.zipWith f (hs.take i) (vs.take i) := by
  intro i
  induction i with
  | zero => intro hs vs; simp
  | succ i ih =>
    intro hs vs
    cases hs with
    | nil => simp
    | cons h hs =>
      cases vs with
      | nil => simp
      | cons v vs => simp [ih hs vs]

theorem takeWhile_eq_take {α : Type} (p : α → Bool) :
    ∀ (i : Nat) (l : List α), i < l.length → (∀ x ∈ l.take i, p x = true) →
      (∀ x, l[i]? = some x → p x = false) → l.takeWhile p = l.take i := by
  intro i
  induction i with
  | zero =>
    intro l hi _ hbad
    cases l with
    | nil => simp at hi
    | cons a l =>
      have := hbad a (by simp)
      simp [List.takeWhile_cons, this]
  | succ i ih =>
    intro l hi hgood hbad
    cases l with
    | nil => simp at hi
    | cons a l =>
      have ha : p a = true := hgood a (by simp)
      rw [List.takeWhile_cons_of_pos ha, List.take_succ_cons]
      congr 1
      apply ih l (by simpa using hi)
      · intro x hx
        exact hgood x (by simp [hx])
      · intro x hx
        exact hbad x (by simpa using hx)

/-- The values accepted before the first value that holds an unpermitted rune. -/
theorem accepted_eq_take (T : RangeTable) (record : List GoString) (i : Nat)
    (hi : i < record.length) (hgood : Permitted T (record.take i))
    (hbad : ∃ r ∈ record.getD i [], T r = false) :
    accepted T record 0 = record.take i := by
  simp only [accepted, List.drop_zero]
  apply takeWhile_eq_take _ i record hi
  · intro v hv
    have : scanRunes T v = none := (scanRunes_eq_none T v).2 (fun r hr => hgood v hv r hr)
    simp [this]
  · intro v hv
    obtain ⟨r, hr, hf⟩ := hbad
    have hv2 : record.getD i [] = v := by
      simp [List.getD_eq_getElem?_getD, hv]
    rw [hv2] at hr
    cases hs : scanRunes T v with
    | none =>
      have := (scanRunes_eq_none T v).1 hs r hr
      rw [hf] at this
      cases this
    | some c => rfl

theorem line_ne_nil (h v : GoString) (hs vs : List GoString) :
    line (h :: hs) (v :: vs) ≠ [] := by
  rw [line_cons]
  simp

/-- A failing `Write` on any writer: for a record of the right length whose first value
holding a rune outside `FieldValueTable` is at index `i`, the call has appended exactly
the line break (when the `appended` flag is set) followed by `header[0]:record[0]` TAB
... TAB `header[i-1]:record[i-1]`, with no trailing TAB. -/
theorem Write_partial_output (FieldValueTable : RangeTable) (e : Writer)
    (record : List GoString) (i : Nat)
    (hlen : record.length = e.header.length) (hi : i < record.length)
    (hgood : Permitted FieldValueTable (record.take i))
    (hbad : ∃ r ∈ record.getD i [], FieldValueTable r = false) :
    (∃ r ∈ record.getD i [], FieldValueTable r = false ∧
        (e.Write FieldValueTable record).2 = some (fieldValueError r)) ∧
      (e.Write FieldValueTable record).1.writer =
        e.writer ++ (if e.appended then e.lineBreak else []) ++
          line (e.header.take i) (record.take i) ∧
      ((e.Write FieldValueTable record).1.writer = e.writer ↔
        i = 0 ∧ (e.appended = false ∨ e.lineBreak = [])) ∧
      (0 < i → (e.Write FieldValueTable record).1.writer ≠ e.writer) := by
  have hacc := accepted_eq_take FieldValueTable record i hi hgood hbad
  have hw : (e.Write FieldValueTable record).1.writer =
      e.writer ++ (if e.appended then e.lineBreak else []) ++
        line (e.header.take i) (record.take i) := by
    rw [Write_eq]
    simp only [hlen, ne_eq, not_true_eq_false, if_false]
    rw [hacc, line, zipWith_take_right, ← line]
  have hpos : 0 < i → line (e.header.take i) (record.take i) ≠ [] := by
    intro h0
    obtain ⟨j, rfl⟩ : ∃ j, i = j + 1 := ⟨i - 1, by omega⟩
    cases hr : record with
    | nil => rw [hr] at hi; simp at hi
    | cons v vs =>
      cases hh : e.header with
      | nil => rw [hr, hh] at hlen; simp at hlen
      | cons h hs =>
        simp only [List.take_succ_cons]
        exact line_ne_nil _ _ _ _
  refine ⟨?_, hw, ?_, ?_⟩
  · -- the error is the first unpermitted rune of the value at index `i`
    have herr : (e.Write FieldValueTable record).2 =
        (scanLabels FieldValueTable record).map fieldValueError := by
      rw [Write_eq]
      simp [hlen]
    have hsplit : record = record.take i ++ (record.getD i [] :: record.drop (i + 1)) := by
      have h1 : record.getD i [] = record[i] := List.getD_eq_getElem _ _ hi
      rw [h1, ← List.drop_eq_getElem_cons hi, List.take_append_drop]
    have hscan : scanLabels FieldValueTable record =
        scanRunes FieldValueTable (record.getD i []) := by
      rw [scanLabels_eq_firstOutside, firstOutside]
      conv_lhs => rw [hsplit]
      rw [List.flatten_append, List.find?_append, List.flatten_cons, List.find?_append]
      have h1 : (record.take i).flatten.find? (fun r => !FieldValueTable r) = none := by
        rw [List.find?_eq_none]
        intro r hr
        obtain ⟨v, hv, hrv⟩ := List.mem_flatten.1 hr
        simp [hgood v hv r hrv]
      rw [h1, scanRunes_eq_find]
      obtain ⟨r, hr, hf⟩ := hbad
      have h2 : ((record.getD i []).find? (fun r => !FieldValueTable r)).isSome = true := by
        rw [List.find?_isSome]
        exact ⟨r, hr, by simp [hf]⟩
      obtain ⟨c, hc⟩ := Option.isSome_iff_exists.1 h2
      rw [hc]
      rfl
    rw [herr, hscan, scanRunes_eq_find]
    obtain ⟨r, hr, hf⟩ := hbad
    have h2 : ((record.getD i []).find? (fun r => !FieldValueTable r)).isSome = true := by
      rw [List.find?_isSome]
      exact ⟨r, hr, by simp [hf]⟩
    obtain ⟨c, hc⟩ := Option.isSome_iff_exists.1 h2
    refine ⟨c, List.mem_of_find?_eq_some hc, ?_, by rw [hc]; rfl⟩
    have := List.find?_some hc
    simpa using this
  · rw [hw]
    constructor
    · intro h
      have h2 : (if e.appended then e.lineBreak else []) ++
          line (e.header.take i) (record.take i) = [] := by
        have := congrArg (List.drop e.writer.length) h
        simpa [List.append_assoc] using this
      have h3 := List.append_eq_nil.1 h2
      have hi0 : i = 0 := by
        by_contra hne
        exact hpos (by omega) h3.2
      refine ⟨hi0, ?_⟩
      cases ha : e.appended
      · exact Or.inl rfl
      · right
        simpa [ha] using h3.1
    · rintro ⟨rfl, h | h⟩
      · simp [h, line, List.intercalate]
      · simp [h, line, List.intercalate]
  · intro h0 h
    rw [hw] at h
    have h2 : (if e.appended then e.lineBreak else []) ++
        line (e.header.take i) (record.take i) = [] := by
      have := congrArg (List.drop e.writer.length) h
      simpa [List.append_assoc] using this
    exact hpos h0 (List.append_eq_nil.1 h2).2

/-- C17 as stated fails.  On a new writer a record refused at index 0 appends nothing but
sets the flag, so a second record refused at index 0 appends the line break although no
record had been appended before, and the output changes.  And on a writer whose line
break is empty, a record refused at index 0 after an appended record leaves the output
unchanged. -/
theorem C17_partial_output_counterexample :
    (NewWriter lbyteTable ["a".toList] "\n".toList Encoding.UTF8 = .ok sampleWriter ∧
      (sampleWriter.Write fbyteTable ["\t".toList]).2 = some (fieldValueError '\t') ∧
      (sampleWriter.Write fbyteTable ["\t".toList]).1.writer = [] ∧
      ((sampleWriter.Write fbyteTable ["\t".toList]).1.Write fbyteTable
          ["\t".toList]).2 = some (fieldValueError '\t') ∧
      ((sampleWriter.Write fbyteTable ["\t".toList]).1.Write fbyteTable
          ["\t".toList]).1.writer = "\n".toList) ∧
    (NewWriter lbyteTable ["a".toList] [] Encoding.UTF8 =
        .ok { header := ["a".toList], writer := [], lineBreak := [], appended := false } ∧
      ({ header := ["a".toList], writer := [], lineBreak := [], appended := false } :
          Writer).Write fbyteTable ["x".toList] =
        ({ header := ["a".toList], writer := "a:x".toList, lineBreak := [],
           appended := true }, none) ∧
      (({ header := ["a".toList], writer := "a:x".toList, lineBreak := [],
          appended := true } : Writer).Write fbyteTable ["\t".toList]).2 =
        some (fieldValueError '\t') ∧
      (({ header := ["a".toList], writer := "a:x".toList, lineBreak := [],
          appended := true } : Writer).Write fbyteTable ["\t".toList]).1.writer =
        "a:x".toList) := by
  refine ⟨⟨?_, ?_, ?_, ?_, ?_⟩, ?_, ?_, ?_, ?_⟩ <;> decide

/-- C17, amended: on a writer returned by `NewWriter`, after any sequence of `Write`
calls, for a record of the right length whose first value holding a rune outside
`FieldValueTable` is at index `i`, the failing `Write` has appended exactly the line
break, if and only if some earlier call was given a record of `len(header)` values
(whether that call succeeded or failed on an unpermitted character), followed by
`header[0]:record[0]` TAB ... TAB `header[i-1]:record[i-1]`, with no trailing TAB.  The
output is unchanged exactly when `i = 0` and either no earlier call was given a record
of `len(header)` values or the line break is empty, and it is changed whenever `i > 0`:
the values are not all validated before writing. -/
theorem C17_partial_output (LabelTable FieldValueTable : RangeTable)
    (header : List GoString) (lb : GoString) (enc : Encoding) (w : Writer)
    (earlier : List (List GoString)) (record : List GoString) (i : Nat)
    (hw : NewWriter LabelTable header lb enc = .ok w)
    (hlen : record.length = header.length) (hi : i < record.length)
    (hgood : Permitted FieldValueTable (record.take i))
    (hbad : ∃ r ∈ record.getD i [], FieldValueTable r = false) :
    (∃ r ∈ record.getD i [], FieldValueTable r = false ∧
        ((writeAll FieldValueTable w earlier).1.Write FieldValueTable record).2 =
          some (fieldValueError r)) ∧
      ((writeAll FieldValueTable w earlier).1.Write FieldValueTable record).1.writer =
        (writeAll FieldValueTable w earlier).1.writer ++
          (if earlier.any (fun r => decide (r.length = header.length)) then lb else []) ++
          line (header.take i) (record.take i) ∧
      (((writeAll FieldValueTable w earlier).1.Write FieldValueTable record).1.writer =
          (writeAll FieldValueTable w earlier).1.writer ↔
        i = 0 ∧ (earlier.any (fun r => decide (r.length = header.length)) = false ∨
          lb = [])) ∧
      (0 < i →
        ((writeAll FieldValueTable w earlier).1.Write FieldValueTable record).1.writer ≠
          (writeAll FieldValueTable w earlier).1.writer) := by
  obtain ⟨_, rfl⟩ := (NewWriter_ok_iff _ _ _ _ _).1 hw
  have hh := writeAll_header FieldValueTable earlier
    { header := header, lineBreak := lb, appended := false,
      writer := if enc = Encoding.UTF8M then UTF8BOM else [] }
  have hl := writeAll_lineBreak FieldValueTable earlier
    { header := header, lineBreak := lb, appended := false,
      writer := if enc = Encoding.UTF8M then UTF8BOM else [] }
  have ha := writeAll_appended FieldValueTable earlier
    { header := header, lineBreak := lb, appended := false,
      writer := if enc = Encoding.UTF8M then UTF8BOM else [] }
  simp only [Bool.false_or] at hh hl ha
  have h := Write_partial_output FieldValueTable
    (writeAll FieldValueTable
      { header := header, lineBreak := lb, appended := false,
        writer := if enc = Encoding.UTF8M then UTF8BOM else [] } earlier).1
    record i (by rw [hh]; exact hlen) hi hgood hbad
  rw [hh, hl, ha] at h
  refine ⟨h.1, ?_, ?_, h.2.2.2⟩
  · rw [h.2.1]
  · rw [h.2.2.1]

/-- C17, amended, at the header `a`, `b`, `c`, after one record written, and a record
whose value at index 2 holds a TAB. -/
theorem C17_partial_output_witness :
    ((writeAll fbyteTable
        { header := ["a".toList, "b".toList, "c".toList], writer := [],
          lineBreak := "\n".toList, appended := false }
        [["0".toList, "0".toList, "0".toList]]).1.Write fbyteTable
        ["1".toList, "2".toList, "\t".toList]).1.writer =
      "a:0\tb:0\tc:0".toList ++ "\n".toList ++ "a:1\tb:2".toList :=
  (C17_partial_output lbyteTable fbyteTable ["a".toList, "b".toList, "c".toList]
    "\n".toList Encoding.UTF8
    { header := ["a".toList, "b".toList, "c".toList], writer := [],
      lineBreak := "\n".toList, appended := false }
    [["0".toList, "0".toList, "0".toList]]
    ["1".toList, "2".toList, "\t".toList] 2 (by decide) (by decide) (by decide) (by decide)
    ⟨'\t', by decide, by decide⟩).2.1

/-- C18: for a record whose length differs from that of the header, `Write` returns the
error `field length does not match` and leaves the writer as it was: nothing is
appended to the output and header, line break and `appended` flag are unchanged;
whether the record holds unpermitted characters plays no part. -/
theorem C18_length_mismatch (FieldValueTable : RangeTable) (e : Writer)
    (record : List GoString) (hlen : record.length ≠ e.header.length) :
    e.Write FieldValueTable record = (e, some "field length does not match".toList) := by
  unfold Writer.Write
  rw [if_pos hlen]
  rfl

/-- C18 at a record of two values that hold a TAB, for a header of one label. -/
theorem C18_length_mismatch_witness :
    ({ header := ["a".toList], writer := "a:0".toList, lineBreak := "\n".toList,
       appended := true } : Writer).Write fbyteTable ["\t".toList, "\t".toList] =
      ({ header := ["a".toList], writer := "a:0".toList, lineBreak := "\n".toList,
         appended := true }, some "field length does not match".toList) :=
  C18_length_mismatch fbyteTable
    { header := ["a".toList], writer := "a:0".toList, lineBreak := "\n".toList,
      appended := true } ["\t".toList, "\t".toList] (by decide)

/-- Two texts without TAB, each followed by nothing or by a text that starts with a
TAB, are equal when the whole texts are. -/
theorem tab_split (x : GoString) :
    ∀ (y a b : GoString), '\t' ∉ x → '\t' ∉ y →
      (a = [] ∨ a.head? = some '\t') → (b = [] ∨ b.head? = some '\t') →
      x ++ a = y ++ b → x = y ∧ a = b := by
  induction x with
  | nil =>
    intro y a b _ hy ha _ h
    cases y with
    | nil => exact ⟨rfl, by simpa using h⟩
    | cons c y =>
      simp only [List.nil_append, List.cons_append] at h
      rcases ha with ha | ha
      · rw [ha] at h; cases h
      · rw [h] at ha
        simp only [List.head?_cons, Option.some.injEq] at ha
        exact absurd (by simp [ha]) hy
  | cons c x ih =>
    intro y a b hx hy ha hb h
    cases y with
    | nil =>
      simp only [List.nil_append, List.cons_append] at h
      rcases hb with hb | hb
      · rw [hb] at h; cases h
      · rw [← h] at hb
        simp only [List.head?_cons, Option.some.injEq] at hb
        exact absurd (by simp [hb]) hx
    | cons c2 y =>
      simp only [List.cons_append, List.cons.injEq] at h
      obtain ⟨h1, h2⟩ := ih y a b (fun hc => hx (List.mem_cons_of_mem _ hc))
        (fun hc => hy (List.mem_cons_of_mem _ hc)) ha hb h.2
      exact ⟨by rw [h.1, h1], h2⟩

theorem tabbed_head (hs vs : List GoString) :
    tabbed hs vs = [] ∨ (tabbed hs vs).head? = some '\t' := by
  cases hs with
  | nil => left; simp [tabbed]
  | cons h hs =>
    cases vs with
    | nil => left; simp [tabbed]
    | cons v vs => right; simp [tabbed_cons]

/-- A line determines its values when no value holds a TAB. -/
theorem line_injective (header : List GoString) :
    ∀ (r1 r2 : List GoString), r1.length = header.length → r2.length = header.length →
      (∀ v ∈ r1, '\t' ∉ v) → (∀ v ∈ r2, '\t' ∉ v) →
      line header r1 = line header r2 → r1 = r2 := by
  induction header with
  | nil =>
    intro r1 r2 h1 h2 _ _ _
    rw [List.length_eq_zero.1 h1, List.length_eq_zero.1 h2]
  | cons h hs ih =>
    intro r1 r2 h1 h2 ht1 ht2 heq
    cases r1 with
    | nil => simp at h1
    | cons v1 vs1 =>
      cases r2 with
      | nil => simp at h2
      | cons v2 vs2 =>
        simp only [line_cons, List.append_assoc] at heq
        have heq2 := List.append_cancel_left (List.append_cancel_left heq)
        obtain ⟨hv, htab⟩ := tab_split v1 v2 _ _ (ht1 v1 (List.mem_cons_self _ _))
          (ht2 v2 (List.mem_cons_self _ _)) (tabbed_head hs vs1) (tabbed_head hs vs2) heq2
        have hl1 : vs1.length = hs.length := by simpa using h1
        have hl2 : vs2.length = hs.length := by simpa using h2
        have hline : line hs vs1 = line hs vs2 := by
          cases hs with
          | nil =>
            rw [List.length_eq_zero.1 hl1, List.length_eq_zero.1 hl2]
          | cons h' hs' =>
            cases vs1 with
            | nil => simp at hl1
            | cons w1 ws1 =>
              cases vs2 with
              | nil => simp at hl2
              | cons w2 ws2 =>
                rw [tabbed_cons, tabbed_cons] at htab
                rw [line_cons, line_cons]
                simpa [List.append_assoc] using htab
        rw [hv, ih vs1 vs2 hl1 hl2 (fun v hv => ht1 v (List.mem_cons_of_mem _ hv))
          (fun v hv => ht2 v (List.mem_cons_of_mem _ hv)) hline]

/-- C19: if `FieldValueTable` does not contain TAB, then for every header and every two
records of length `len(header)` whose values hold only runes of `FieldValueTable`, the
lines `header[i]:value[i]` joined by TAB are equal only if the records are equal; so is
the text that `Write` appends for them on the same writer. -/
theorem C19_line_injective (FieldValueTable : RangeTable) (header : List GoString)
    (r1 r2 : List GoString) (htab : FieldValueTable '\t' = false)
    (h1 : r1.length = header.length) (h2 : r2.length = header.length)
    (hp1 : Permitted FieldValueTable r1) (hp2 : Permitted FieldValueTable r2) :
    (line header r1 = line header r2 → r1 = r2) ∧
      (∀ e : Writer, e.header = header →
        (e.Write FieldValueTable r1).1.writer = (e.Write FieldValueTable r2).1.writer →
        r1 = r2) := by
  have hno : ∀ r : List GoString, Permitted FieldValueTable r → ∀ v ∈ r, '\t' ∉ v := by
    intro r hp v hv hc
    have := hp v hv '\t' hc
    rw [htab] at this
    cases this
  have hline : line header r1 = line header r2 → r1 = r2 :=
    line_injective header r1 r2 h1 h2 (hno r1 hp1) (hno r2 hp2)
  refine ⟨hline, ?_⟩
  intro e he hw
  rw [Write_eq, Write_eq, accepted_of_permitted _ _ hp1, accepted_of_permitted _ _ hp2] at hw
  simp only [he, h1, h2, ne_eq, not_true_eq_false, if_false] at hw
  exact hline (List.append_cancel_left hw)

/-- C19 at the header `a`, `b` and two records that differ in their second value: their
lines differ. -/
theorem C19_line_injective_witness :
    line ["a".toList, "b".toList] ["1".toList, "2:".toList] ≠
      line ["a".toList, "b".toList] ["1".toList, "2".toList] :=
  fun h => absurd
    ((C19_line_injective fbyteTable ["a".toList, "b".toList] ["1".toList, "2:".toList]
      ["1".toList, "2".toList] (by decide) (by decide) (by decide) (by decide)
      (by decide)).1 h) (by decide)

end ltsv

/-! ## The CSV writer -/

namespace csv

theorem escape_cons (c : Rune) (s : GoString) :
    escape (c :: s) = (if c = '"' then ['"', '"'] else [c]) ++ escape s := by
  simp [escape]

theorem writeEscaped_eq (s : GoString) : ∀ bw : GoString, writeEscaped bw s = bw ++ escape s := by
  induction s with
  | nil => intro bw; simp [writeEscaped, escape]
  | cons c s ih =>
    intro bw
    by_cases hc : c = '"'
    · simp [writeEscaped, escape_cons, hc, ih]
    · simp [writeEscaped, escape_cons, hc, ih]

theorem needsQuote_iff (d : Rune) (f : Field) :
    needsQuote d f = true ↔
      (f.Quote ∨ d ∈ f.Contents ∨ '"' ∈ f.Contents ∨ '\r' ∈ f.Contents ∨ '\n' ∈ f.Contents) := by
  simp only [needsQuote, Bool.or_eq_true, List.any_eq_true, beq_iff_eq]
  constructor
  · rintro (h | ⟨x, hx, h⟩)
    · exact Or.inl h
    · rcases h with ((h | h) | h) | h
      · exact Or.inr (Or.inl (h ▸ hx))
      · exact Or.inr (Or.inr (Or.inl (h ▸ hx)))
      · exact Or.inr (Or.inr (Or.inr (Or.inl (h ▸ hx))))
      · exact Or.inr (Or.inr (Or.inr (Or.inr (h ▸ hx))))
  · rintro (h | h | h | h | h)
    · exact Or.inl h
    · exact Or.inr ⟨_, h, Or.inl (Or.inl (Or.inl rfl))⟩
    · exact Or.inr ⟨_, h, Or.inl (Or.inl (Or.inr rfl))⟩
    · exact Or.inr ⟨_, h, Or.inl (Or.inr rfl)⟩
    · exact Or.inr ⟨_, h, Or.inr rfl⟩

theorem writeField_eq (d : Rune) (bw : GoString) (f : Field) :
    writeField d bw f = bw ++ fieldText d f := by
  unfold writeField fieldText
  by_cases h : needsQuote d f = true
  · rw [if_pos h, if_pos ((needsQuote_iff d f).1 h), writeEscaped_eq]
    simp [escape]
  · rw [if_neg h, if_neg (fun hc => h ((needsQuote_iff d f).2 hc))]

theorem writeRecord_false (d : Rune) (fs : List Field) :
    ∀ bw : GoString, writeRecord d false bw fs =
      bw ++ ((fs.map (fieldText d)).map (fun s => [d] ++ s)).flatten := by
  induction fs with
  | nil => intro bw; simp [writeRecord]
  | cons f fs ih =>
    intro bw
    simp [writeRecord, ih, writeField_eq]

theorem writeRecord_true (d : Rune) (fs : List Field) (bw : GoString) :
    writeRecord d true bw fs = bw ++ recordText d fs := by
  cases fs with
  | nil => simp [writeRecord, recordText, List.intercalate]
  | cons f fs =>
    simp [writeRecord, writeRecord_false, writeField_eq, recordText, intercalate_cons_eq]

theorem Write_buffered (e : Writer) (record : List Field) :
    e.Write record =
      { e with appended := true
               buffered := e.buffered ++ (if e.appended then e.lineBreak else []) ++
                 recordText e.Delimiter record } := by
  unfold Writer.Write
  simp only [writeRecord_true]
  cases e.appended <;> simp

theorem WriteAll_appended (records : List (List Field)) :
    ∀ e : Writer, e.appended = true →
      e.WriteAll records =
        { e with buffered := e.buffered ++
            ((records.map (recordText e.Delimiter)).map (fun s => e.lineBreak ++ s)).flatten } := by
  induction records with
  | nil => intro e _; simp [Writer.WriteAll]
  | cons r rs ih =>
    intro e he
    rw [Writer.WriteAll, Write_buffered, ih _ rfl]
    simp [he]

theorem WriteAll_fresh (records : List (List Field)) (e : Writer) (he : e.appended = false) :
    (e.WriteAll records).buffered =
      e.buffered ++ recordsText e.Delimiter e.lineBreak records ∧
    (e.WriteAll records).output = e.output := by
  cases records with
  | nil => simp [Writer.WriteAll, recordsText, List.intercalate]
  | cons r rs =>
    rw [Writer.WriteAll, Write_buffered, WriteAll_appended _ _ rfl]
    simp [he, recordsText, intercalate_cons_eq]

theorem writeOutcome_eq (d : Rune) (lb : GoString) (enc : Encoding)
    (records : List (List Field)) :
    writeOutcome d lb enc records =
      (if enc = Encoding.UTF8M then UTF8BOM else []) ++ recordsText d lb records := by
  unfold writeOutcome Writer.Flush
  have h1 := WriteAll_fresh records { NewWriter lb enc with Delimiter := d } rfl
  simp only [h1.1, h1.2]
  simp [NewWriter]

/-! ## The stream of the reader -/

/-- C9: for every delimiter, line break and list of records, the text delivered after
the writes and the flush is the prologue of the encoding (empty unless the encoding is
UTF8M) followed by the lines of the records joined by the line break, a line being the
fields joined by the delimiter and a field being written in double quotes, its quotes
doubled, when its flag is set or its content holds the delimiter, a double quote, CR
or LF, and verbatim otherwise; no line break follows the last line and no record
gives the empty text. -/
theorem C9_writer_serialization (delimiter : Rune) (lineBreak : GoString) (enc : Encoding)
    (records : List (List Field)) :
    writeOutcome delimiter lineBreak enc records =
        (if enc = Encoding.UTF8M then UTF8BOM else []) ++
          List.intercalate lineBreak
            (records.map (fun record =>
              List.intercalate [delimiter] (record.map (fieldText delimiter)))) ∧
      writeOutcome delimiter lineBreak Encoding.UTF8 records =
        recordsText delimiter lineBreak records ∧
      writeOutcome delimiter lineBreak enc [] =
        (if enc = Encoding.UTF8M then UTF8BOM else []) := by
  have h : ∀ (en : Encoding) (rs : List (List Field)),
      writeOutcome delimiter lineBreak en rs =
        (if en = Encoding.UTF8M then UTF8BOM else []) ++ recordsText delimiter lineBreak rs :=
    fun en rs => writeOutcome_eq delimiter lineBreak en rs
  refine ⟨h enc records, ?_, ?_⟩
  · rw [h]; simp
  · rw [h]; simp [recordsText, List.intercalate]

theorem advance_append (ts us : List Token) :
    ∀ p : Nat × Nat, advance p (ts ++ us) = advance (advance p ts) us := by
  induction ts with
  | nil => intro p; rfl
  | cons t ts ih =>
    intro p
    cases t <;> simp [advance, ih]

theorem advance_runes (s : GoString) :
    ∀ p : Nat × Nat, advance p (s.map Token.rune) = (p.1, p.2 + s.length) := by
  induction s with
  | nil => intro p; rfl
  | cons c s ih =>
    intro p
    simp only [List.map_cons, advance, ih, List.length_cons]
    congr 1
    omega

theorem ofRune_of_ne (c : Rune) (h1 : c ≠ '\r') (h2 : c ≠ '\n') :
    Token.ofRune c = Token.rune c := by
  simp [Token.ofRune, h1, h2]

theorem tokens_cons (c : Rune) (ys : GoString)
    (h : ¬ (c = '\r' ∧ ys.head? = some '\n')) :
    tokens (c :: ys) = Token.ofRune c :: tokens ys := by
  cases ys with
  | nil => simp [tokens]
  | cons d rest =>
    have h2 : ¬ (c = '\r' ∧ d = '\n') := by simpa using h
    rw [tokens, if_neg h2]

theorem tokens_crlf (ys : GoString) :
    tokens ('\r' :: '\n' :: ys) = Token.lineBreak LineBreak.CRLF :: tokens ys := by
  rw [tokens, if_pos ⟨rfl, rfl⟩]

theorem tokens_append (xs ys : GoString) (h : ys.head? ≠ some '\n') :
    tokens (xs ++ ys) = tokens xs ++ tokens ys := by
  induction xs using tokens.induct with
  | case1 => rfl
  | case2 c =>
    rw [List.singleton_append, tokens_cons c ys (fun hc => h hc.2)]
    simp [tokens]
  | case3 c d rest hcd ih =>
    obtain ⟨rfl, rfl⟩ := hcd
    rw [List.cons_append, List.cons_append, tokens_crlf, tokens_crlf, ih, List.cons_append]
  | case4 c d rest hcd ih =>
    rw [List.cons_append, tokens_cons c _ (by simpa using hcd),
      tokens_cons c _ (by simpa using hcd), ih, List.cons_append]

theorem tokens_plain (s : GoString) (hs : ∀ c ∈ s, c ≠ '\r' ∧ c ≠ '\n') (ys : GoString) :
    tokens (s ++ ys) = s.map Token.rune ++ tokens ys := by
  induction s with
  | nil => rfl
  | cons c s ih =>
    have hc := hs c (List.mem_cons_self _ _)
    rw [List.cons_append, tokens_cons c _ (fun h => hc.1 h.1), ofRune_of_ne c hc.1 hc.2,
      ih (fun x hx => hs x (List.mem_cons_of_mem _ hx))]
    rfl

theorem escape_head (d : Rune) (rest : GoString) :
    (escape (d :: rest)).head? = some d := by
  by_cases hd : d = '"' <;> simp [escape_cons, hd]

theorem tokens_escape (s : GoString) : tokens (escape s) = escTok (tokens s) := by
  induction s using tokens.induct with
  | case1 => rfl
  | case2 c =>
    by_cases hc : c = '"'
    · subst hc; decide
    · have : escape [c] = [c] := by simp [escape, hc]
      rw [this]
      simp only [tokens, Token.ofRune]
      by_cases h1 : c = '\r'
      · simp [h1, escTok]
      · by_cases h2 : c = '\n'
        · simp [h2, escTok]
        · simp [h1, h2, escTok, hc]
  | case3 c d rest hcd ih =>
    obtain ⟨rfl, rfl⟩ := hcd
    have : escape ('\r' :: '\n' :: rest) = '\r' :: '\n' :: escape rest := by
      rw [escape_cons, escape_cons]; rfl
    rw [this, tokens_crlf, tokens_crlf, ih, escTok]
  | case4 c d rest hcd ih =>
    rw [tokens_cons c (d :: rest) (by simpa using hcd), escape_cons]
    by_cases hc : c = '"'
    · subst hc
      have e1 : Token.ofRune '"' = Token.rune '"' := by decide
      rw [if_pos rfl, e1, escTok, if_pos rfl, ← ih]
      rw [show ['"', '"'] ++ escape (d :: rest) = '"' :: '"' :: escape (d :: rest) from rfl,
        tokens_cons '"' _ (fun h => absurd h.1 (by decide)),
        tokens_cons '"' _ (fun h => absurd h.1 (by decide)), e1]
    · rw [if_neg hc, List.singleton_append,
        tokens_cons c _ (by
          rw [escape_head]
          intro h
          exact hcd ⟨h.1, by simpa using h.2⟩), ih]
      simp only [Token.ofRune]
      by_cases h1 : c = '\r'
      · simp [h1, escTok]
      · by_cases h2 : c = '\n'
        · simp [h2, escTok]
        · simp [h1, h2, escTok, hc]

theorem detok_tokens (s : GoString) : detok (tokens s) = s := by
  induction s using tokens.induct with
  | case1 => rfl
  | case2 c =>
    simp only [tokens, Token.ofRune]
    by_cases h1 : c = '\r'
    · subst h1; decide
    · by_cases h2 : c = '\n'
      · subst h2; decide
      · simp [h1, h2, detok]
  | case3 c d rest hcd ih =>
    obtain ⟨rfl, rfl⟩ := hcd
    rw [tokens_crlf, detok, ih]; rfl
  | case4 c d rest hcd ih =>
    rw [tokens_cons c (d :: rest) (by simpa using hcd)]
    simp only [Token.ofRune]
    by_cases h1 : c = '\r'
    · subst h1
      simp only [if_true, detok, ih]; rfl
    · by_cases h2 : c = '\n'
      · subst h2
        simp only [if_neg h1, if_true, detok, ih]; rfl
      · simp only [if_neg h1, if_neg h2, detok, ih]

/-! ## Runs of the reader over a field -/

theorem run_nil (d : Rune) (wn sg : Bool) (m : Machine) :
    run d wn sg m [] = (atEnd wn m).map (fun m2 => (m2, [])) := by
  rw [run]

theorem run_cons (d : Rune) (wn sg : Bool) (m : Machine) (t : Token) (rest : List Token) :
    run d wn sg m (t :: rest) =
      match step d wn m t (rest.all Token.isLineBreak) with
      | .error e => .error e
      | .ok m2 =>
        if sg && m2.state == State.EndOfRecord then .ok (m2, rest)
        else run d wn sg m2 rest := by
  rw [run]

/-- An unquoted field goes on over runes other than the delimiter. -/
theorem run_unquoted (d : Rune) (wn sg : Bool) (rec : List RawText)
    (recs : List (List RawText)) (l : Nat) (k : Option Nat) (dl : GoString)
    (s : GoString) (hs : ∀ x ∈ s, x ≠ d) (rest : List Token) :
    ∀ (fld : GoString) (c : Nat),
      run d wn sg ⟨State.InUnquotedField, fld, rec, recs, l, c, k, dl⟩
          (s.map Token.rune ++ rest) =
        run d wn sg ⟨State.InUnquotedField, fld ++ s, rec, recs, l, c + s.length, k, dl⟩
          rest := by
  induction s with
  | nil => intro fld c; simp
  | cons x s ih =>
    intro fld c
    have hx : x ≠ d := hs x (List.mem_cons_self _ _)
    rw [List.map_cons, List.cons_append, run_cons]
    simp only [step, hx, if_false]
    rw [show (sg && (State.InUnquotedField == State.EndOfRecord)) = false by
      cases sg <;> rfl]
    simp only [Bool.false_eq_true, if_false]
    rw [ih (fun y hy => hs y (List.mem_cons_of_mem _ hy))]
    simp [Nat.add_assoc, Nat.add_comm 1]

/-! ## Cells: runs of the reader over the text of a field -/

/-- A quoted field goes on over an escaped content: doubled quotes give one quote,
line breaks are kept and counted. -/
theorem run_quoted (d : Rune) (wn sg : Bool) (rec : List RawText)
    (recs : List (List RawText)) (k : Option Nat) (dl : GoString)
    (ts : List Token) (rest : List Token) :
    ∀ (fld : GoString) (l c : Nat),
      run d wn sg ⟨State.InQuotedField, fld, rec, recs, l, c, k, dl⟩ (escTok ts ++ rest) =
        run d wn sg ⟨State.InQuotedField, fld ++ detok ts, rec, recs,
          (advance (l, c) (escTok ts)).1, (advance (l, c) (escTok ts)).2, k, dl⟩ rest := by
  induction ts with
  | nil => intro fld l c; simp [escTok, detok, advance]
  | cons t ts ih =>
    intro fld l c
    have hq : ∀ st : State, st ≠ State.EndOfRecord →
        (sg && (st == State.EndOfRecord)) = false := by
      intro st hst
      cases sg
      · rfl
      · simpa using hst
    cases t with
    | rune x =>
      by_cases hx : x = '"'
      · subst hx
        simp only [escTok, if_true, List.cons_append]
        rw [run_cons]
        simp only [step, if_true]
        rw [hq _ (by decide)]
        simp only [Bool.false_eq_true, if_false]
        rw [run_cons]
        simp only [step, if_true]
        rw [hq _ (by decide)]
        simp only [Bool.false_eq_true, if_false]
        rw [ih]
        simp [detok, advance]
      · simp only [escTok, hx, if_false, List.cons_append]
        rw [run_cons]
        simp only [step, hx, if_false]
        rw [hq _ (by decide)]
        simp only [Bool.false_eq_true, if_false]
        rw [ih]
        simp [detok, advance]
    | lineBreak lb =>
      simp only [escTok, List.cons_append]
      rw [run_cons]
      simp only [step, newLine, Bool.false_and, Bool.false_eq_true, if_false]
      rw [hq _ (by decide)]
      simp only [Bool.false_eq_true, if_false]
      rw [ih]
      simp [detok, advance]

theorem cell_tokens (d : Rune) (cell : Cell) (hv : cell.Valid d) (ys : GoString) :
    tokens (cell.text ++ ys) = cell.toks ++ tokens ys := by
  cases cell with
  | bare s => exact tokens_plain s (fun x hx => (hv.1 x hx).2) ys
  | quoted s =>
    have e1 : Token.ofRune '"' = Token.rune '"' := by decide
    simp only [Cell.text, Cell.toks, List.append_assoc, List.singleton_append,
      List.cons_append, List.nil_append]
    rw [tokens_cons '"' _ (fun h => absurd h.1 (by decide)), e1,
      tokens_append (escape s) ('"' :: ys) (by simp), tokens_escape,
      tokens_cons '"' _ (fun h => absurd h.1 (by decide)), e1]

theorem and_endOfRecord_false (sg : Bool) (st : State) (h : st ≠ State.EndOfRecord) :
    (sg && (st == State.EndOfRecord)) = false := by
  cases sg
  · rfl
  · simpa using h

/-- The text of a cell read from the start of a field. -/
theorem run_cell (d : Rune) (wn sg : Bool) (rec : List RawText)
    (recs : List (List RawText)) (k : Option Nat) (dl : GoString)
    (cell : Cell) (hv : cell.Valid d) (st : State) (hst : st.isStart)
    (l c : Nat) (rest : List Token) :
    run d wn sg ⟨st, [], rec, recs, l, c, k, dl⟩ (cell.toks ++ rest) =
      run d wn sg ⟨cell.state st, cell.field, rec, recs,
        (advance (l, c) cell.toks).1, (advance (l, c) cell.toks).2, k, dl⟩ rest := by
  cases cell with
  | bare s =>
    cases s with
    | nil => simp [Cell.toks, Cell.state, Cell.field, advance]
    | cons x s =>
      have hx := hv.1 x (List.mem_cons_self _ _)
      have hq : x ≠ '"' := by
        intro h
        exact hv.2 (by simp [h])
      simp only [Cell.toks, List.map_cons, List.cons_append]
      rw [run_cons]
      have hstep : ∀ b, step d wn ⟨st, [], rec, recs, l, c, k, dl⟩ (Token.rune x) b =
          .ok ⟨State.InUnquotedField, [x], rec, recs, l, c + 1, k, dl⟩ := by
        intro b
        rcases hst with h | h <;> subst h <;> simp [step, hq, hx.1]
      rw [hstep]
      simp only
      rw [and_endOfRecord_false sg _ (by decide)]
      simp only [Bool.false_eq_true, if_false]
      rw [run_unquoted d wn sg rec recs l k dl s
        (fun y hy => (hv.1 y (List.mem_cons_of_mem _ hy)).1)]
      simp [Cell.state, Cell.field, advance, advance_runes]
  | quoted s =>
    simp only [Cell.toks, List.cons_append, List.append_assoc, List.nil_append]
    rw [run_cons]
    have hstep : ∀ b, step d wn ⟨st, [], rec, recs, l, c, k, dl⟩ (Token.rune '"') b =
        .ok ⟨State.InQuotedField, [], rec, recs, l, c + 1, k, dl⟩ := by
      intro b
      rcases hst with h | h <;> subst h <;> simp [step]
    rw [hstep]
    simp only
    rw [and_endOfRecord_false sg _ (by decide)]
    simp only [Bool.false_eq_true, if_false]
    rw [run_quoted, run_cons]
    simp only [step, if_true]
    rw [and_endOfRecord_false sg _ (by decide)]
    simp only [Bool.false_eq_true, if_false]
    simp [Cell.state, Cell.field, advance, advance_append, detok_tokens]

/-- `closeField` does not look at the state or the buffer. -/
theorem closeField_congr (st : State) (fld : GoString) (rec : List RawText)
    (recs : List (List RawText)) (l c : Nat) (k : Option Nat) (dl : GoString) (f : RawText) :
    closeField ⟨st, fld, rec, recs, l, c, k, dl⟩ f =
      closeField ⟨State.StartOfField, [], rec, recs, l, c, k, dl⟩ f := by
  cases k <;> simp [closeField]

/-- `closeRecord` does not look at the state or the buffer. -/
theorem closeRecord_congr (st : State) (fld : GoString) (rec : List RawText)
    (recs : List (List RawText)) (l c : Nat) (k : Option Nat) (dl : GoString) (f : RawText) :
    closeRecord ⟨st, fld, rec, recs, l, c, k, dl⟩ f =
      closeRecord ⟨State.StartOfField, [], rec, recs, l, c, k, dl⟩ f := by
  cases k <;> simp [closeRecord]

/-- The delimiter after the text of a cell closes the field with the value of the cell. -/
theorem step_cell_delimiter (d : Rune) (hd : d ≠ '"') (wn : Bool) (rec : List RawText)
    (recs : List (List RawText)) (k : Option Nat) (dl : GoString)
    (cell : Cell) (st : State) (hst : st.isStart) (fld0 : GoString) (l c : Nat) (b : Bool)
    (hfld : cell = Cell.bare [] ∨ fld0 = cell.field) :
    step d wn ⟨cell.state st, fld0, rec, recs, l, c, k, dl⟩ (Token.rune d) b =
      closeField ⟨State.StartOfField, [], rec, recs, l, c + 1, k, dl⟩ (cell.value wn) := by
  cases cell with
  | bare s =>
    cases s with
    | nil =>
      rcases hst with h | h <;> subst h <;>
        simp [step, Cell.state, Cell.value, hd, closeField_congr]
    | cons x s =>
      rcases hfld with h | h
      · cases h
      · subst h
        simp [step, Cell.state, Cell.value, Cell.field, closeField_congr]
  | quoted s =>
    rcases hfld with h | h
    · cases h
    · subst h
      simp [step, Cell.state, Cell.value, Cell.field, hd, closeField_congr]

/-- A line break after the text of a cell closes the record with the value of the
cell, unless the cell is an empty line that is discarded. -/
theorem step_cell_lineBreak (d : Rune) (wn : Bool) (rec : List RawText)
    (recs : List (List RawText)) (k : Option Nat) (dl : GoString)
    (cell : Cell) (st : State) (hst : st.isStart) (fld0 : GoString) (l c : Nat) (b : Bool)
    (lb : LineBreak) (hfld : cell = Cell.bare [] ∨ fld0 = cell.field)
    (hne : ¬ (cell = Cell.bare [] ∧ rec = [])) :
    step d wn ⟨cell.state st, fld0, rec, recs, l, c, k, dl⟩ (Token.lineBreak lb) b =
      (closeRecord ⟨State.StartOfField, [], rec, recs, l, c, k, dl⟩ (cell.value wn)).map
        (fun m2 => newLine m2 lb true) := by
  cases cell with
  | bare s =>
    cases s with
    | nil =>
      have hr : rec.isEmpty = false := by
        cases rec with
        | nil => exact absurd ⟨rfl, rfl⟩ hne
        | cons a as => rfl
      rcases hst with h | h <;> subst h <;>
        simp [step, Cell.state, Cell.value, hr, closeRecord_congr]
    | cons x s =>
      rcases hfld with h | h
      · cases h
      · subst h
        simp only [step, Cell.state, Cell.value, Cell.field, List.isEmpty_cons,
          Bool.false_eq_true, if_false]
        rw [closeRecord_congr]
  | quoted s =>
    rcases hfld with h | h
    · cases h
    · subst h
      simp only [step, Cell.state, Cell.value, Cell.field]
      rw [closeRecord_congr]

/-! ## Rows: runs of the reader over a record -/

/-- The end of the stream after the text of a cell closes the record with the value of
the cell, unless nothing of a record has been read. -/
theorem atEnd_cell (wn : Bool) (rec : List RawText)
    (recs : List (List RawText)) (k : Option Nat) (dl : GoString)
    (cell : Cell) (st : State) (hst : st.isStart) (fld0 : GoString) (l c : Nat)
    (hfld : cell = Cell.bare [] ∨ fld0 = cell.field)
    (hne : ¬ (cell = Cell.bare [] ∧ rec = [])) :
    atEnd wn ⟨cell.state st, fld0, rec, recs, l, c, k, dl⟩ =
      closeRecord ⟨State.StartOfField, [], rec, recs, l, c + 1, k, dl⟩ (cell.value wn) := by
  cases cell with
  | bare s =>
    cases s with
    | nil =>
      have hr : rec.isEmpty = false := by
        cases rec with
        | nil => exact absurd ⟨rfl, rfl⟩ hne
        | cons a as => rfl
      rcases hst with h | h <;> subst h <;>
        simp [atEnd, Cell.state, Cell.value, hr, closeRecord_congr]
    | cons x s =>
      rcases hfld with h | h
      · cases h
      · subst h
        simp only [atEnd, Cell.state, Cell.value, Cell.field, List.isEmpty_cons,
          Bool.false_eq_true, if_false]
        rw [closeRecord_congr]
  | quoted s =>
    rcases hfld with h | h
    · cases h
    · subst h
      simp only [atEnd, Cell.state, Cell.value, Cell.field]
      rw [closeRecord_congr]

theorem cellsDelim_tokens (d : Rune) (h1 : d ≠ '\r') (h2 : d ≠ '\n') (cs : List Cell)
    (hv : ∀ c ∈ cs, c.Valid d) (ys : GoString) :
    tokens (cellsDelimText d cs ++ ys) = cellsDelimToks d cs ++ tokens ys := by
  induction cs with
  | nil => rfl
  | cons c cs ih =>
    have hc := hv c (List.mem_cons_self _ _)
    have ih2 := ih (fun x hx => hv x (List.mem_cons_of_mem _ hx))
    simp only [cellsDelimText, cellsDelimToks, List.map_cons, List.flatten_cons,
      List.append_assoc, List.singleton_append, List.cons_append, List.nil_append] at ih2 ⊢
    rw [cell_tokens d c hc, tokens_cons d _ (fun h => h1 h.1), ofRune_of_ne d h1 h2, ih2]

theorem row_tokens (d : Rune) (h1 : d ≠ '\r') (h2 : d ≠ '\n') (r : Row)
    (hv : r.Valid d) (ys : GoString) :
    tokens (r.text d ++ ys) = r.toks d ++ tokens ys := by
  have hi : ∀ c ∈ r.init, c.Valid d := fun c hc => hv.1 c (by simp [Row.cells, hc])
  have hl : r.last.Valid d := hv.1 r.last (by simp [Row.cells])
  simp only [Row.text, Row.toks, List.append_assoc]
  rw [cellsDelim_tokens d h1 h2 _ hi, cell_tokens d _ hl]

theorem closeField_ok (rec : List RawText) (recs : List (List RawText)) (l c : Nat)
    (k : Option Nat) (dl : GoString) (f : RawText)
    (hk : ∀ n, k = some n → rec.length + 1 < n) :
    closeField ⟨State.StartOfField, [], rec, recs, l, c, k, dl⟩ f =
      .ok ⟨State.StartOfField, [], rec ++ [f], recs, l, c, k, dl⟩ := by
  cases k with
  | none => simp [closeField]
  | some n =>
    have := hk n rfl
    simp only [closeField, List.length_append, List.length_singleton]
    rw [if_neg (by omega)]

theorem closeField_too_many (rec : List RawText) (recs : List (List RawText)) (l c : Nat)
    (n : Nat) (dl : GoString) (f : RawText) (hk : n ≤ rec.length + 1) :
    closeField ⟨State.StartOfField, [], rec, recs, l, c, some n, dl⟩ f =
      .error ⟨l, c, wrongNumberOfFields⟩ := by
  simp only [closeField, List.length_append, List.length_singleton]
  rw [if_pos hk]

/-- Cells each followed by the delimiter, while the record stays below the established
field count: every cell gives its field. -/
theorem run_cells (d : Rune) (hd : d ≠ '"') (wn sg : Bool) (recs : List (List RawText))
    (k : Option Nat) (dl : GoString) (rest : List Token) :
    ∀ (cs : List Cell) (st : State) (rec : List RawText) (l c : Nat),
      st.isStart → (∀ x ∈ cs, x.Valid d) →
      (∀ n, k = some n → rec.length + cs.length < n) →
      run d wn sg ⟨st, [], rec, recs, l, c, k, dl⟩ (cellsDelimToks d cs ++ rest) =
        run d wn sg ⟨if cs.isEmpty then st else State.StartOfField, [],
          rec ++ cs.map (Cell.value wn), recs,
          (advance (l, c) (cellsDelimToks d cs)).1,
          (advance (l, c) (cellsDelimToks d cs)).2, k, dl⟩ rest := by
  intro cs
  induction cs with
  | nil => intro st rec l c _ _ _; simp [cellsDelimToks, advance]
  | cons x cs ih =>
    intro st rec l c hst hv hk
    have hx := hv x (List.mem_cons_self _ _)
    have e : cellsDelimToks d (x :: cs) ++ rest =
        x.toks ++ (Token.rune d :: (cellsDelimToks d cs ++ rest)) := by
      simp [cellsDelimToks]
    rw [e, run_cell d wn sg rec recs k dl x hx st hst, run_cons,
      step_cell_delimiter d hd wn rec recs k dl x st hst _ _ _ _ (Or.inr rfl),
      closeField_ok _ _ _ _ _ _ _ (fun n hn => by
        have := hk n hn
        simp only [List.length_cons] at this
        omega)]
    simp only
    rw [and_endOfRecord_false sg _ (by decide)]
    simp only [Bool.false_eq_true, if_false]
    rw [ih State.StartOfField _ _ _ (Or.inl rfl)
      (fun y hy => hv y (List.mem_cons_of_mem _ hy)) (fun n hn => by
        have := hk n hn
        simp only [List.length_cons, List.length_append, List.length_singleton,
          List.length_nil] at this ⊢
        omega)]
    have e2 : cellsDelimToks d (x :: cs) = x.toks ++ ([Token.rune d] ++ cellsDelimToks d cs) := by
      simp [cellsDelimToks]
    rw [e2, advance_append, advance_append]
    simp [advance]

/-- The cell closed by the delimiter that fills the established field count: a further
field follows, and the reader fails at the position reached after the delimiter. -/
theorem run_cells_too_many (d : Rune) (hd : d ≠ '"') (wn sg : Bool)
    (recs : List (List RawText)) (n : Nat) (dl : GoString) (rest : List Token)
    (cs : List Cell) (x : Cell) (st : State) (rec : List RawText) (l c : Nat)
    (hst : st.isStart) (hv : ∀ y ∈ cs ++ [x], y.Valid d)
    (hn : rec.length + cs.length + 1 = n) :
    run d wn sg ⟨st, [], rec, recs, l, c, some n, dl⟩
        (cellsDelimToks d (cs ++ [x]) ++ rest) =
      .error ⟨(advance (l, c) (cellsDelimToks d (cs ++ [x]))).1,
        (advance (l, c) (cellsDelimToks d (cs ++ [x]))).2, wrongNumberOfFields⟩ := by
  have e : cellsDelimToks d (cs ++ [x]) ++ rest =
      cellsDelimToks d cs ++ (x.toks ++ (Token.rune d :: rest)) := by
    simp [cellsDelimToks]
  have e2 : cellsDelimToks d (cs ++ [x]) =
      cellsDelimToks d cs ++ (x.toks ++ [Token.rune d]) := by
    simp [cellsDelimToks]
  have hst2 : (if cs.isEmpty then st else State.StartOfField).isStart := by
    split
    · exact hst
    · exact Or.inl rfl
  rw [e, run_cells d hd wn sg recs (some n) dl _ cs st rec l c hst
    (fun y hy => hv y (List.mem_append_left _ hy))
    (fun m hm => by cases hm; omega),
    run_cell d wn sg _ recs (some n) dl x (hv x (by simp)) _ hst2, run_cons,
    step_cell_delimiter d hd wn _ recs (some n) dl x _ hst2 _ _ _ _ (Or.inr rfl),
    closeField_too_many _ _ _ _ _ _ _ (by simp; omega)]
  simp only [e2, advance_append, advance]

theorem closeRecord_ok (rec : List RawText) (recs : List (List RawText)) (l c : Nat)
    (k : Option Nat) (dl : GoString) (f : RawText)
    (hk : k = none ∨ k = some (rec.length + 1)) :
    closeRecord ⟨State.StartOfField, [], rec, recs, l, c, k, dl⟩ f =
      .ok ⟨State.EndOfRecord, [], [], recs ++ [rec ++ [f]], l, c, some (rec.length + 1), dl⟩ := by
  rcases hk with h | h <;> subst h <;> simp [closeRecord]

theorem closeRecord_too_few (rec : List RawText) (recs : List (List RawText)) (l c : Nat)
    (n : Nat) (dl : GoString) (f : RawText) (hk : rec.length + 1 < n) :
    closeRecord ⟨State.StartOfField, [], rec, recs, l, c, some n, dl⟩ f =
      .error ⟨l, 0, wrongNumberOfFields⟩ := by
  simp only [closeRecord, List.length_append, List.length_singleton]
  rw [if_pos hk]

/-- The reader just before the last cell of a row is closed. -/
theorem run_row_last (d : Rune) (hd : d ≠ '"') (wn sg : Bool) (recs : List (List RawText))
    (k : Option Nat) (dl : GoString) (row : Row) (hv : row.Valid d)
    (st : State) (hst : st.isStart) (l c : Nat)
    (hk : ∀ n, k = some n → row.init.length < n) (rest : List Token) :
    run d wn sg ⟨st, [], [], recs, l, c, k, dl⟩ (row.toks d ++ rest) =
      run d wn sg ⟨row.last.state (if row.init.isEmpty then st else State.StartOfField),
        row.last.field, row.init.map (Cell.value wn), recs,
        (advance (l, c) (row.toks d)).1, (advance (l, c) (row.toks d)).2, k, dl⟩ rest := by
  have hst2 : (if row.init.isEmpty then st else State.StartOfField).isStart := by
    split
    · exact hst
    · exact Or.inl rfl
  simp only [Row.toks, List.append_assoc]
  rw [run_cells d hd wn sg recs k dl _ row.init st [] l c hst
    (fun x hx => hv.1 x (by simp [Row.cells, hx]))
    (fun n hn => by simpa using hk n hn),
    run_cell d wn sg _ recs k dl row.last (hv.1 _ (by simp [Row.cells])) _ hst2]
  simp [advance_append]

theorem row_not_blank (d : Rune) (wn : Bool) (row : Row) (hv : row.Valid d) :
    ¬ (row.last = Cell.bare [] ∧ row.init.map (Cell.value wn) = []) := by
  rintro ⟨h1, h2⟩
  exact hv.2 ⟨by simpa using h2, h1⟩

theorem row_values_eq (wn : Bool) (row : Row) :
    row.init.map (Cell.value wn) ++ [row.last.value wn] = row.values wn := by
  simp [Row.values, Row.cells]

/-- A row with the established number of fields, or the first row, closed by a line
break: the record is added and the next line starts. -/
theorem run_row_lineBreak (d : Rune) (hd : d ≠ '"') (wn sg : Bool)
    (recs : List (List RawText)) (k : Option Nat) (dl : GoString) (row : Row)
    (hv : row.Valid d) (st : State) (hst : st.isStart) (l c : Nat)
    (hk : k = none ∨ k = some (row.init.length + 1)) (lb : LineBreak) (rest : List Token) :
    run d wn sg ⟨st, [], [], recs, l, c, k, dl⟩ (row.toks d ++ Token.lineBreak lb :: rest) =
      if sg then
        .ok (⟨State.EndOfRecord, [], [], recs ++ [row.values wn],
          (advance (l, c) (row.toks d)).1 + 1, 0, some (row.init.length + 1),
          if dl.isEmpty then lb.Value else dl⟩, rest)
      else
        run d wn sg ⟨State.EndOfRecord, [], [], recs ++ [row.values wn],
          (advance (l, c) (row.toks d)).1 + 1, 0, some (row.init.length + 1),
          if dl.isEmpty then lb.Value else dl⟩ rest := by
  have hst2 : (if row.init.isEmpty then st else State.StartOfField).isStart := by
    split
    · exact hst
    · exact Or.inl rfl
  rw [run_row_last d hd wn sg recs k dl row hv st hst l c
    (fun n hn => by rcases hk with h | h <;> rw [h] at hn <;> cases hn; omega),
    run_cons,
    step_cell_lineBreak d wn _ recs k dl row.last _ hst2 _ _ _ _ lb (Or.inr rfl)
      (row_not_blank d wn row hv),
    closeRecord_ok _ _ _ _ _ _ _ (by simpa using hk)]
  simp only [Except.map, newLine, Bool.true_and, row_values_eq, List.length_map]
  cases sg <;> simp

/-- A row with the established number of fields, or the first row, closed by the end
of the stream. -/
theorem run_row_end (d : Rune) (hd : d ≠ '"') (wn sg : Bool)
    (recs : List (List RawText)) (k : Option Nat) (dl : GoString) (row : Row)
    (hv : row.Valid d) (st : State) (hst : st.isStart) (l c : Nat)
    (hk : k = none ∨ k = some (row.init.length + 1)) :
    run d wn sg ⟨st, [], [], recs, l, c, k, dl⟩ (row.toks d) =
      .ok (⟨State.EndOfRecord, [], [], recs ++ [row.values wn],
        (advance (l, c) (row.toks d)).1, (advance (l, c) (row.toks d)).2 + 1,
        some (row.init.length + 1), dl⟩, []) := by
  have hst2 : (if row.init.isEmpty then st else State.StartOfField).isStart := by
    split
    · exact hst
    · exact Or.inl rfl
  have h := run_row_last d hd wn sg recs k dl row hv st hst l c
    (fun n hn => by rcases hk with h | h <;> rw [h] at hn <;> cases hn; omega) []
  rw [List.append_nil] at h
  rw [h, run_nil,
    atEnd_cell wn _ recs k dl row.last _ hst2 _ _ _ (Or.inr rfl) (row_not_blank d wn row hv),
    closeRecord_ok _ _ _ _ _ _ _ (by simpa using hk)]
  simp [Except.map, row_values_eq]

/-- A row with fewer fields than established, closed by a line break: the reader fails
at the line on which the row ends, column 0. -/
theorem run_row_too_few_lineBreak (d : Rune) (hd : d ≠ '"') (wn sg : Bool)
    (recs : List (List RawText)) (n : Nat) (dl : GoString) (row : Row)
    (hv : row.Valid d) (st : State) (hst : st.isStart) (l c : Nat)
    (hk : row.init.length + 1 < n) (lb : LineBreak) (rest : List Token) :
    run d wn sg ⟨st, [], [], recs, l, c, some n, dl⟩
        (row.toks d ++ Token.lineBreak lb :: rest) =
      .error ⟨(advance (l, c) (row.toks d)).1, 0, wrongNumberOfFields⟩ := by
  have hst2 : (if row.init.isEmpty then st else State.StartOfField).isStart := by
    split
    · exact hst
    · exact Or.inl rfl
  rw [run_row_last d hd wn sg recs (some n) dl row hv st hst l c
    (fun m hm => by cases hm; omega),
    run_cons,
    step_cell_lineBreak d wn _ recs (some n) dl row.last _ hst2 _ _ _ _ lb (Or.inr rfl)
      (row_not_blank d wn row hv),
    closeRecord_too_few _ _ _ _ _ _ _ (by simpa using hk)]
  rfl

/-! ## Tables: rows each closed by a line break -/

/-- A row with fewer fields than established, closed by the end of the stream. -/
theorem run_row_too_few_end (d : Rune) (hd : d ≠ '"') (wn sg : Bool)
    (recs : List (List RawText)) (n : Nat) (dl : GoString) (row : Row)
    (hv : row.Valid d) (st : State) (hst : st.isStart) (l c : Nat)
    (hk : row.init.length + 1 < n) :
    run d wn sg ⟨st, [], [], recs, l, c, some n, dl⟩ (row.toks d) =
      .error ⟨(advance (l, c) (row.toks d)).1, 0, wrongNumberOfFields⟩ := by
  have hst2 : (if row.init.isEmpty then st else State.StartOfField).isStart := by
    split
    · exact hst
    · exact Or.inl rfl
  have h := run_row_last d hd wn sg recs (some n) dl row hv st hst l c
    (fun m hm => by cases hm; omega) []
  rw [List.append_nil] at h
  rw [h, run_nil,
    atEnd_cell wn _ recs (some n) dl row.last _ hst2 _ _ _ (Or.inr rfl)
      (row_not_blank d wn row hv),
    closeRecord_too_few _ _ _ _ _ _ _ (by simpa using hk)]
  rfl

theorem value_not_empty (lb : LineBreak) : lb.Value.isEmpty = false := by
  cases lb <;> rfl

theorem detected_of_not_empty (dl : GoString) (h : dl.isEmpty = false) (t : Table) :
    detected dl t = dl := by
  cases t with
  | nil => rfl
  | cons rl t => simp [detected, h]

theorem tokens_lineBreak (lb : LineBreak) (ys : GoString) (h : ys.head? ≠ some '\n') :
    tokens (lb.Value ++ ys) = Token.lineBreak lb :: tokens ys := by
  cases lb with
  | CR =>
    have e : Token.ofRune '\r' = Token.lineBreak LineBreak.CR := by decide
    rw [show LineBreak.CR.Value ++ ys = '\r' :: ys from rfl,
      tokens_cons '\r' ys (fun hc => h hc.2), e]
  | LF =>
    have e : Token.ofRune '\n' = Token.lineBreak LineBreak.LF := by decide
    rw [show LineBreak.LF.Value ++ ys = '\n' :: ys from rfl,
      tokens_cons '\n' ys (fun hc => absurd hc.1 (by decide)), e]
  | CRLF =>
    rw [show LineBreak.CRLF.Value ++ ys = '\r' :: '\n' :: ys from rfl, tokens_crlf]

theorem cell_head (d : Rune) (h2 : d ≠ '\n') (c : Cell) (hv : c.Valid d) (ys : GoString) :
    (c.text ++ d :: ys).head? ≠ some '\n' := by
  cases c with
  | bare s =>
    cases s with
    | nil => simpa [Cell.text] using h2
    | cons x s =>
      have := (hv.1 x (List.mem_cons_self _ _)).2.2
      simpa [Cell.text] using this
  | quoted s => simp [Cell.text]

theorem row_head (d : Rune) (h2 : d ≠ '\n') (r : Row) (hv : r.Valid d) (ys : GoString) :
    (r.text d ++ ys).head? ≠ some '\n' := by
  obtain ⟨init, last⟩ := r
  cases init with
  | nil =>
    cases last with
    | bare s =>
      cases s with
      | nil => exact absurd ⟨rfl, rfl⟩ hv.2
      | cons x s =>
        have := ((hv.1 (Cell.bare (x :: s)) (by simp [Row.cells])).1 x
          (List.mem_cons_self _ _)).2.2
        simpa [Row.text, cellsDelimText, Cell.text] using this
    | quoted s => simp [Row.text, cellsDelimText, Cell.text]
  | cons c cs =>
    have hc : c.Valid d := hv.1 c (by simp [Row.cells])
    have := cell_head d h2 c hc (cellsDelimText d cs ++ last.text ++ ys)
    simpa [Row.text, cellsDelimText] using this

theorem table_head (d : Rune) (h2 : d ≠ '\n') (t : Table)
    (hv : ∀ rl ∈ t, rl.1.Valid d) (ys : GoString) (hy : ys.head? ≠ some '\n') :
    (tableText d t ++ ys).head? ≠ some '\n' := by
  cases t with
  | nil => simpa [tableText] using hy
  | cons rl t =>
    have := row_head d h2 rl.1 (hv rl (List.mem_cons_self _ _))
      (rl.2.Value ++ (tableText d t ++ ys))
    simpa [tableText] using this

theorem table_tokens (d : Rune) (h1 : d ≠ '\r') (h2 : d ≠ '\n') (t : Table)
    (hv : ∀ rl ∈ t, rl.1.Valid d) (ys : GoString) (hy : ys.head? ≠ some '\n') :
    tokens (tableText d t ++ ys) = tableToks d t ++ tokens ys := by
  induction t with
  | nil => rfl
  | cons rl t ih =>
    have hr := hv rl (List.mem_cons_self _ _)
    have ht : ∀ x ∈ t, x.1.Valid d := fun x hx => hv x (List.mem_cons_of_mem _ hx)
    have e : tableText d (rl :: t) ++ ys =
        rl.1.text d ++ (rl.2.Value ++ (tableText d t ++ ys)) := by
      simp [tableText]
    rw [e, row_tokens d h1 h2 rl.1 hr,
      tokens_lineBreak rl.2 _ (table_head d h2 t ht ys hy), ih ht]
    simp [tableToks]

/-! ## The field count of the records read -/

/-- A table whose rows all have `n` fields, read from the start of a record when no
other field count is established: every row gives its record. -/
theorem run_table (d : Rune) (hd : d ≠ '"') (wn : Bool) (n : Nat) (rest : List Token) :
    ∀ (t : Table) (st : State) (recs : List (List RawText)) (l c : Nat) (k : Option Nat)
      (dl : GoString),
      st.isStart → (∀ rl ∈ t, rl.1.Valid d ∧ rl.1.init.length + 1 = n) →
      (k = none ∨ k = some n) →
      run d wn false ⟨st, [], [], recs, l, c, k, dl⟩ (tableToks d t ++ rest) =
        run d wn false ⟨if t.isEmpty then st else State.EndOfRecord, [], [],
          recs ++ t.map (fun rl => rl.1.values wn),
          (advance (l, c) (tableToks d t)).1, (advance (l, c) (tableToks d t)).2,
          if t.isEmpty then k else some n, detected dl t⟩ rest := by
  intro t
  induction t with
  | nil => intro st recs l c k dl _ _ _; simp [tableToks, advance, detected]
  | cons rl t ih =>
    intro st recs l c k dl hst hv hk
    obtain ⟨hr, hn⟩ := hv rl (List.mem_cons_self _ _)
    have e : tableToks d (rl :: t) ++ rest =
        rl.1.toks d ++ Token.lineBreak rl.2 :: (tableToks d t ++ rest) := by
      simp [tableToks]
    have e2 : tableToks d (rl :: t) =
        rl.1.toks d ++ ([Token.lineBreak rl.2] ++ tableToks d t) := by
      simp [tableToks]
    rw [e, run_row_lineBreak d hd wn false recs k dl rl.1 hr st hst l c (by rw [hn]; exact hk)]
    simp only [Bool.false_eq_true, if_false]
    rw [ih State.EndOfRecord _ _ _ _ _ (Or.inr rfl)
      (fun x hx => hv x (List.mem_cons_of_mem _ hx)) (Or.inr (by rw [hn]))]
    have hdl : (if dl.isEmpty then rl.2.Value else dl).isEmpty = false := by
      cases h : dl.isEmpty
      · simpa using h
      · simpa using value_not_empty rl.2
    rw [detected_of_not_empty _ hdl, e2, advance_append, advance_append]
    simp [advance, detected, hn]

theorem inv_of_eq (m m2 : Machine) (h1 : m2.record = m.record) (h2 : m2.records = m.records)
    (h3 : m2.FieldsPerRecord = m.FieldsPerRecord) (h : Inv m) : Inv m2 := by
  unfold Inv at h ⊢
  rw [h1, h2, h3]
  exact h

theorem closeField_inv (m m2 : Machine) (f : RawText) (h : Inv m)
    (hc : closeField m f = .ok m2) : Inv m2 := by
  unfold Inv at h ⊢
  unfold closeField at hc
  cases hk : m.FieldsPerRecord with
  | none =>
    rw [hk] at hc h
    simp only [Except.ok.injEq] at hc
    subst hc
    simpa [hk] using h
  | some k =>
    rw [hk] at hc h
    simp only at hc h
    split at hc
    · cases hc
    · rename_i hlt
      simp only [Except.ok.injEq] at hc
      subst hc
      simp only [hk]
      exact ⟨by omega, h.2⟩

theorem closeRecord_inv (m m2 : Machine) (f : RawText) (h : Inv m)
    (hc : closeRecord m f = .ok m2) : Inv m2 := by
  unfold Inv at h ⊢
  unfold closeRecord at hc
  cases hk : m.FieldsPerRecord with
  | none =>
    rw [hk] at hc h
    simp only [Except.ok.injEq] at hc h
    subst hc
    simp [h]
  | some k =>
    rw [hk] at hc h
    simp only at hc h
    split at hc
    · cases hc
    · rename_i hlt
      simp only [Except.ok.injEq] at hc
      subst hc
      simp only [hk, List.length_nil, List.mem_append, List.mem_singleton]
      simp only [List.length_append, List.length_singleton] at hlt
      refine ⟨by omega, ?_⟩
      rintro r (hr | hr)
      · exact h.2 r hr
      · subst hr
        simp only [List.length_append, List.length_singleton]
        omega

theorem closeRecord_newLine_inv (m m2 : Machine) (f : RawText) (lb : LineBreak) (b : Bool)
    (h : Inv m) (hc : (closeRecord m f).map (fun m3 => newLine m3 lb b) = .ok m2) :
    Inv m2 := by
  cases hr : closeRecord m f with
  | error e => rw [hr] at hc; cases hc
  | ok m3 =>
    rw [hr] at hc
    simp only [Except.map, Except.ok.injEq] at hc
    subst hc
    exact inv_of_eq m3 _ rfl rfl rfl (closeRecord_inv m m3 f h hr)

theorem step_inv (d : Rune) (wn : Bool) (m m2 : Machine) (t : Token) (b : Bool)
    (h : Inv m) (hs : step d wn m t b = .ok m2) : Inv m2 := by
  have h1 : Inv { m with column := m.column + 1 } := inv_of_eq m _ rfl rfl rfl h
  unfold step at hs
  cases t with
  | rune c =>
    simp only at hs
    split at hs
    all_goals
      first
      | (split at hs
         · simp only [Except.ok.injEq] at hs; subst hs; exact inv_of_eq m _ rfl rfl rfl h
         · split at hs
           · exact closeField_inv _ _ _ h1 hs
           · first
             | (simp only [Except.ok.injEq] at hs; subst hs; exact inv_of_eq m _ rfl rfl rfl h)
             | cases hs)
      | (split at hs
         · first
           | exact closeField_inv _ _ _ h1 hs
           | (simp only [Except.ok.injEq] at hs; subst hs; exact inv_of_eq m _ rfl rfl rfl h)
         · simp only [Except.ok.injEq] at hs; subst hs; exact inv_of_eq m _ rfl rfl rfl h)
  | lineBreak lb =>
    simp only at hs
    split at hs
    · split at hs
      · simp only [Except.ok.injEq] at hs; subst hs; exact inv_of_eq m _ rfl rfl rfl h
      · exact closeRecord_newLine_inv _ _ _ _ _ h hs
    · split at hs
      · simp only [Except.ok.injEq] at hs; subst hs; exact inv_of_eq m _ rfl rfl rfl h
      · exact closeRecord_newLine_inv _ _ _ _ _ h hs
    · exact closeRecord_newLine_inv _ _ _ _ _ h hs
    · simp only [Except.ok.injEq] at hs; subst hs; exact inv_of_eq m _ rfl rfl rfl h
    · exact closeRecord_newLine_inv _ _ _ _ _ h hs

theorem atEnd_inv (wn : Bool) (m m2 : Machine) (h : Inv m) (hs : atEnd wn m = .ok m2) :
    Inv m2 := by
  have h1 : Inv { m with column := m.column + 1 } := inv_of_eq m _ rfl rfl rfl h
  unfold atEnd at hs
  simp only at hs
  split at hs
  · split at hs
    · simp only [Except.ok.injEq] at hs; subst hs; exact h1
    · exact closeRecord_inv _ _ _ h1 hs
  · split at hs
    · simp only [Except.ok.injEq] at hs; subst hs; exact h1
    · exact closeRecord_inv _ _ _ h1 hs
  · exact closeRecord_inv _ _ _ h1 hs
  · cases hs
  · exact closeRecord_inv _ _ _ h1 hs

theorem run_inv (d : Rune) (wn sg : Bool) (ts : List Token) :
    ∀ (m m2 : Machine) (rest : List Token), Inv m →
      run d wn sg m ts = .ok (m2, rest) → Inv m2 := by
  induction ts with
  | nil =>
    intro m m2 rest h hr
    rw [run_nil] at hr
    cases ha : atEnd wn m with
    | error e => rw [ha] at hr; cases hr
    | ok m3 =>
      rw [ha] at hr
      simp only [Except.map, Except.ok.injEq, Prod.mk.injEq] at hr
      rw [← hr.1]
      exact atEnd_inv wn m m3 h ha
  | cons t ts ih =>
    intro m m2 rest h hr
    rw [run_cons] at hr
    cases hs : step d wn m t (ts.all Token.isLineBreak) with
    | error e => rw [hs] at hr; cases hr
    | ok m3 =>
      rw [hs] at hr
      simp only at hr
      have h3 := step_inv d wn m m3 t _ h hs
      split at hr
      · simp only [Except.ok.injEq, Prod.mk.injEq] at hr
        rw [← hr.1]; exact h3
      · exact ih m3 m2 rest h3 hr

/-- The records that `ReadAll` returns on a new reader all have the number of fields of
the first of them. -/
theorem readAll_uniform (d : Rune) (wn : Bool) (input : GoString)
    (records : List (List RawText)) (dl : GoString)
    (h : readAll d wn input = .ok (records, dl)) :
    ∀ rec ∈ records, rec.length = (records.head?.map List.length).getD 0 := by
  unfold readAll Reader.ReadAll at h
  simp only [NewReader, Reader.machine] at h
  cases hr : run d wn false ⟨State.StartOfField, [], [], [], 1, 0, none, []⟩ (tokens input) with
  | error e => rw [hr] at h; cases h
  | ok res =>
    obtain ⟨m, rest⟩ := res
    rw [hr] at h
    simp only [Except.ok.injEq, Prod.mk.injEq] at h
    have hi : Inv m := run_inv d wn false _ _ _ _ (by simp [Inv]) hr
    rw [← h.1]
    unfold Inv at hi
    cases hk : m.FieldsPerRecord with
    | none =>
      rw [hk] at hi
      simp only at hi
      rw [hi]
      intro rec hrec
      cases hrec
    | some k =>
      rw [hk] at hi
      simp only at hi
      intro rec hrec
      rw [hi.2 rec hrec]
      cases hrs : m.records with
      | nil => rw [hrs] at hrec; cases hrec
      | cons r0 rs =>
        have := hi.2 r0 (by rw [hrs]; exact List.mem_cons_self _ _)
        simp [this]

/-! ## `ReadAll` over tables -/

theorem readAll_eq_run (d : Rune) (wn : Bool) (input : GoString) :
    readAll d wn input =
      (run d wn false ⟨State.StartOfField, [], [], [], 1, 0, none, []⟩ (tokens input)).map
        (fun x => (x.1.records, x.1.DetectedLineBreak)) := by
  unfold readAll Reader.ReadAll
  simp only [NewReader, Reader.machine, Reader.after]
  cases run d wn false ⟨State.StartOfField, [], [], [], 1, 0, none, []⟩ (tokens input) with
  | error e => rfl
  | ok res => rfl

theorem tokens_break_head (c : Rune) (rest : GoString) (hc : c = '\r' ∨ c = '\n') :
    ∃ lb ts, tokens (c :: rest) = Token.lineBreak lb :: ts := by
  have ho : ∃ lb, Token.ofRune c = Token.lineBreak lb := by
    rcases hc with h | h <;> subst h
    · exact ⟨LineBreak.CR, by decide⟩
    · exact ⟨LineBreak.LF, by decide⟩
  obtain ⟨lb, hlb⟩ := ho
  cases rest with
  | nil => exact ⟨lb, [], by simp [tokens, hlb]⟩
  | cons x rest =>
    by_cases hx : c = '\r' ∧ x = '\n'
    · exact ⟨LineBreak.CRLF, tokens rest, by rw [tokens, if_pos hx]⟩
    · exact ⟨lb, tokens (x :: rest), by rw [tokens, if_neg hx, hlb]⟩

theorem position_table_row (d : Rune) (h1 : d ≠ '\r') (h2 : d ≠ '\n') (t : Table)
    (hv : ∀ rl ∈ t, rl.1.Valid d) (r : Row) (hr : r.Valid d) :
    position (tableText d t ++ r.text d) = advance (1, 0) (tableToks d t ++ r.toks d) := by
  unfold position
  rw [table_tokens d h1 h2 t hv _ (by simpa using row_head d h2 r hr [])]
  have := row_tokens d h1 h2 r hr []
  simp only [List.append_nil] at this
  rw [this]
  simp [tokens]

theorem position_table_cells (d : Rune) (h1 : d ≠ '\r') (h2 : d ≠ '\n') (t : Table)
    (hv : ∀ rl ∈ t, rl.1.Valid d) (cs : List Cell) (hc : ∀ c ∈ cs, c.Valid d)
    (hne : cs ≠ []) :
    position (tableText d t ++ cellsDelimText d cs) =
      advance (1, 0) (tableToks d t ++ cellsDelimToks d cs) := by
  unfold position
  have hh : (cellsDelimText d cs).head? ≠ some '\n' := by
    cases cs with
    | nil => exact absurd rfl hne
    | cons c cs =>
      have := cell_head d h2 c (hc c (List.mem_cons_self _ _)) (cellsDelimText d cs)
      simpa [cellsDelimText] using this
  rw [table_tokens d h1 h2 t hv _ hh]
  have := cellsDelim_tokens d h1 h2 cs hc []
  simp only [List.append_nil] at this
  rw [this]
  simp [tokens]

/-- After rows that all have `n` fields, a row with fewer fields, closed by a line break
or by the end of the stream, makes `ReadAll` fail at the line on which that row ends,
column 0. -/
theorem readAll_too_few (d : Rune) (hd : d ≠ '"') (h1 : d ≠ '\r') (h2 : d ≠ '\n')
    (wn : Bool) (good : Table) (bad : Row) (n : Nat) (tail : GoString)
    (hg : good ≠ []) (hv : ∀ rl ∈ good, rl.1.Valid d ∧ rl.1.cells.length = n)
    (hb : bad.Valid d) (hlen : bad.cells.length < n)
    (ht : tail = [] ∨ ∃ c rest, tail = c :: rest ∧ (c = '\r' ∨ c = '\n')) :
    readAll d wn (tableText d good ++ bad.text d ++ tail) =
      .error ⟨(position (tableText d good ++ bad.text d)).1, 0, wrongNumberOfFields⟩ := by
  have hv1 : ∀ rl ∈ good, rl.1.Valid d := fun rl h => (hv rl h).1
  have hv2 : ∀ rl ∈ good, rl.1.Valid d ∧ rl.1.init.length + 1 = n := by
    intro rl h
    have := (hv rl h).2
    simp only [Row.cells, List.length_append, List.length_singleton] at this
    exact ⟨(hv rl h).1, this⟩
  have hlen2 : bad.init.length + 1 < n := by
    simpa [Row.cells] using hlen
  have hge : good.isEmpty = false := by
    cases good with
    | nil => exact absurd rfl hg
    | cons a b => rfl
  rw [readAll_eq_run, position_table_row d h1 h2 good hv1 bad hb, List.append_assoc,
    table_tokens d h1 h2 good hv1 _ (row_head d h2 bad hb tail),
    row_tokens d h1 h2 bad hb, advance_append,
    run_table d hd wn n _ good _ _ _ _ _ _ (Or.inl rfl) hv2 (Or.inl rfl)]
  simp only [hge, Bool.false_eq_true, if_false]
  rcases ht with h | ⟨c, rest, h, hc⟩
  · subst h
    simp only [tokens, List.append_nil]
    rw [run_row_too_few_end d hd wn false _ n _ bad hb _ (Or.inr rfl) _ _ hlen2]
    rfl
  · subst h
    obtain ⟨lb, ts, hts⟩ := tokens_break_head c rest hc
    rw [hts, run_row_too_few_lineBreak d hd wn false _ n _ bad hb _ (Or.inr rfl) _ _ hlen2]
    rfl

/-! ## Positions in texts without line breaks inside fields -/

/-- After rows that all have `n` fields, a row whose `n`-th field is closed by the
delimiter makes `ReadAll` fail at the position reached after that delimiter. -/
theorem readAll_too_many (d : Rune) (hd : d ≠ '"') (h1 : d ≠ '\r') (h2 : d ≠ '\n')
    (wn : Bool) (good : Table) (cs : List Cell) (n : Nat) (tail : GoString)
    (hg : good ≠ []) (hv : ∀ rl ∈ good, rl.1.Valid d ∧ rl.1.cells.length = n)
    (hc : ∀ c ∈ cs, c.Valid d) (hlen : cs.length = n) :
    readAll d wn (tableText d good ++ cellsDelimText d cs ++ tail) =
      .error ⟨(position (tableText d good ++ cellsDelimText d cs)).1,
        (position (tableText d good ++ cellsDelimText d cs)).2, wrongNumberOfFields⟩ := by
  have hv1 : ∀ rl ∈ good, rl.1.Valid d := fun rl h => (hv rl h).1
  have hv2 : ∀ rl ∈ good, rl.1.Valid d ∧ rl.1.init.length + 1 = n := by
    intro rl h
    have := (hv rl h).2
    simp only [Row.cells, List.length_append, List.length_singleton] at this
    exact ⟨(hv rl h).1, this⟩
  have hge : good.isEmpty = false := by
    cases good with
    | nil => exact absurd rfl hg
    | cons a b => rfl
  have hn : 0 < n := by
    cases good with
    | nil => exact absurd rfl hg
    | cons a b =>
      have := (hv2 a (List.mem_cons_self _ _)).2
      omega
  have hne : cs ≠ [] := by
    intro h
    rw [h] at hlen
    simp at hlen
    omega
  obtain ⟨cs0, x, rfl⟩ : ∃ cs0 x, cs = cs0 ++ [x] :=
    ⟨cs.dropLast, cs.getLast hne, (List.dropLast_append_getLast hne).symm⟩
  have hh : (cellsDelimText d (cs0 ++ [x]) ++ tail).head? ≠ some '\n' := by
    cases cs0 with
    | nil =>
      have := cell_head d h2 x (hc x (by simp)) tail
      simpa [cellsDelimText] using this
    | cons c cs1 =>
      have := cell_head d h2 c (hc c (by simp)) (cellsDelimText d (cs1 ++ [x]) ++ tail)
      simpa [cellsDelimText] using this
  rw [readAll_eq_run, position_table_cells d h1 h2 good hv1 _ hc hne, List.append_assoc,
    table_tokens d h1 h2 good hv1 _ hh,
    cellsDelim_tokens d h1 h2 _ hc, advance_append,
    run_table d hd wn n _ good _ _ _ _ _ _ (Or.inl rfl) hv2 (Or.inl rfl)]
  simp only [hge, Bool.false_eq_true, if_false]
  rw [run_cells_too_many d hd wn false _ n _ _ cs0 x _ [] _ _ (Or.inr rfl) hc
    (by simpa using hlen)]
  rfl

theorem escTok_runes (s : GoString) :
    escTok (s.map Token.rune) = (escape s).map Token.rune := by
  induction s with
  | nil => rfl
  | cons x s ih =>
    by_cases hx : x = '"'
    · simp [escTok, escape_cons, hx, ih]
    · simp [escTok, escape_cons, hx, ih]

theorem cell_toks_oneLine (c : Cell) (h : c.OneLine) : c.toks = c.text.map Token.rune := by
  cases c with
  | bare s => rfl
  | quoted s =>
    have ht : tokens s = s.map Token.rune := by
      have := tokens_plain s h []
      simpa [tokens] using this
    simp [Cell.toks, Cell.text, ht, escTok_runes]

theorem cellsDelimToks_oneLine (d : Rune) (cs : List Cell) (h : ∀ c ∈ cs, c.OneLine) :
    cellsDelimToks d cs = (cellsDelimText d cs).map Token.rune := by
  induction cs with
  | nil => rfl
  | cons c cs ih =>
    have hc := cell_toks_oneLine c (h c (List.mem_cons_self _ _))
    have ih2 := ih (fun x hx => h x (List.mem_cons_of_mem _ hx))
    simp only [cellsDelimToks, cellsDelimText, List.map_cons, List.flatten_cons,
      List.map_append] at ih2 ⊢
    rw [hc, ih2]
    rfl

theorem row_toks_oneLine (d : Rune) (r : Row) (h : ∀ c ∈ r.cells, c.OneLine) :
    r.toks d = (r.text d).map Token.rune := by
  simp only [Row.toks, Row.text, List.map_append]
  rw [cellsDelimToks_oneLine d r.init (fun c hc => h c (by simp [Row.cells, hc])),
    cell_toks_oneLine r.last (h r.last (by simp [Row.cells]))]

theorem advance_table_oneLine (d : Rune) (t : Table)
    (h : ∀ rl ∈ t, ∀ c ∈ rl.1.cells, c.OneLine) :
    ∀ p : Nat × Nat, advance p (tableToks d t) = if t.isEmpty then p else (p.1 + t.length, 0) := by
  induction t with
  | nil => intro p; rfl
  | cons rl t ih =>
    intro p
    have e : tableToks d (rl :: t) = rl.1.toks d ++ ([Token.lineBreak rl.2] ++ tableToks d t) := by
      simp [tableToks]
    rw [e, advance_append, advance_append,
      row_toks_oneLine d rl.1 (h rl (List.mem_cons_self _ _)), advance_runes,
      ih (fun x hx => h x (List.mem_cons_of_mem _ hx))]
    simp only [advance, List.isEmpty_cons, Bool.false_eq_true, if_false, List.length_cons]
    split
    · rename_i ht
      have : t = [] := by simpa using ht
      subst this
      rfl
    · congr 1
      omega

/-- When no field holds a line break, a row that follows `good` rows ends on line
`good.length + 1`, at the column that is the length of its text. -/
theorem position_row_oneLine (d : Rune) (h1 : d ≠ '\r') (h2 : d ≠ '\n') (good : Table)
    (hg : good ≠ []) (hv : ∀ rl ∈ good, rl.1.Valid d)
    (ho : ∀ rl ∈ good, ∀ c ∈ rl.1.cells, c.OneLine)
    (r : Row) (hr : r.Valid d) (hro : ∀ c ∈ r.cells, c.OneLine) :
    position (tableText d good ++ r.text d) = (good.length + 1, (r.text d).length) := by
  have hge : good.isEmpty = false := by
    cases good with
    | nil => exact absurd rfl hg
    | cons a b => rfl
  rw [position_table_row d h1 h2 good hv r hr, advance_append,
    advance_table_oneLine d good ho, row_toks_oneLine d r hro, advance_runes]
  simp only [hge, Bool.false_eq_true, if_false]
  congr 1
  · omega
  · omega

/-! ## The writer's text as a row -/

/-- When no field holds a line break, cells each followed by the delimiter after `good`
rows end on line `good.length + 1`, at the column that is the length of their text. -/
theorem position_cells_oneLine (d : Rune) (h1 : d ≠ '\r') (h2 : d ≠ '\n') (good : Table)
    (hg : good ≠ []) (hv : ∀ rl ∈ good, rl.1.Valid d)
    (ho : ∀ rl ∈ good, ∀ c ∈ rl.1.cells, c.OneLine)
    (cs : List Cell) (hc : ∀ c ∈ cs, c.Valid d) (hne : cs ≠ [])
    (hco : ∀ c ∈ cs, c.OneLine) :
    position (tableText d good ++ cellsDelimText d cs) =
      (good.length + 1, (cellsDelimText d cs).length) := by
  have hge : good.isEmpty = false := by
    cases good with
    | nil => exact absurd rfl hg
    | cons a b => rfl
  rw [position_table_cells d h1 h2 good hv cs hc hne, advance_append,
    advance_table_oneLine d good ho, cellsDelimToks_oneLine d cs hco, advance_runes]
  simp only [hge, Bool.false_eq_true, if_false]
  congr 1
  · omega
  · omega

theorem fieldText_eq_cell (d : Rune) (f : Field) : fieldText d f = (f.cell d).text := by
  unfold fieldText Field.cell
  by_cases h : needsQuote d f = true
  · rw [if_pos ((needsQuote_iff d f).1 h), if_pos h]
    rfl
  · rw [if_neg (fun hc => h ((needsQuote_iff d f).2 hc)), if_neg h]
    rfl

theorem field_cell_valid (d : Rune) (f : Field) : (f.cell d).Valid d := by
  unfold Field.cell
  by_cases h : needsQuote d f = true
  · rw [if_pos h]; trivial
  · rw [if_neg h]
    have hn : ¬ (f.Quote ∨ d ∈ f.Contents ∨ '"' ∈ f.Contents ∨ '\r' ∈ f.Contents ∨
        '\n' ∈ f.Contents) := fun hc => h ((needsQuote_iff d f).2 hc)
    simp only [not_or] at hn
    refine ⟨fun x hx => ⟨?_, ?_, ?_⟩, ?_⟩
    · rintro rfl; exact hn.2.1 hx
    · rintro rfl; exact hn.2.2.2.1 hx
    · rintro rfl; exact hn.2.2.2.2 hx
    · intro hh
      cases hs : f.Contents with
      | nil => rw [hs] at hh; cases hh
      | cons a as =>
        rw [hs] at hh
        simp only [List.head?_cons, Option.some.injEq] at hh
        exact hn.2.2.1 (by rw [hs, hh]; exact List.mem_cons_self _ _)

theorem field_cell_value (d : Rune) (wn : Bool) (f : Field) :
    (f.cell d).value wn =
      if f.Contents = [] ∧ f.Quote = false then absent wn else some f.Contents := by
  unfold Field.cell
  by_cases h : needsQuote d f = true
  · rw [if_pos h]
    by_cases hc : f.Contents = []
    · have hq : f.Quote = true := by
        have := (needsQuote_iff d f).1 h
        simpa [hc] using this
      simp [Cell.value, hc, hq]
    · simp [Cell.value, hc]
  · rw [if_neg h]
    have hq : f.Quote = false := by
      cases hq : f.Quote
      · rfl
      · exact absurd ((needsQuote_iff d f).2 (Or.inl hq)) h
    by_cases hc : f.Contents = []
    · simp [Cell.value, hc, hq]
    · simp [Cell.value, hc]

theorem intercalate_concat {α : Type} (sep : List α) (xs : List (List α)) (y : List α) :
    List.intercalate sep (xs ++ [y]) = (xs.map (fun x => x ++ sep)).flatten ++ y := by
  induction xs with
  | nil => simp [List.intercalate]
  | cons x xs ih =>
    rw [List.cons_append, intercalate_cons_eq]
    cases xs with
    | nil => simp
    | cons x2 xs =>
      rw [List.cons_append, intercalate_cons_eq] at ih
      simp only [List.map_cons, List.flatten_cons, List.cons_append, List.append_assoc] at ih ⊢
      rw [ih]

theorem recordText_eq_row (d : Rune) (init : List Field) (last : Field) :
    recordText d (init ++ [last]) = (fieldsRow d init last).text d := by
  unfold recordText
  rw [List.map_append, List.map_singleton, intercalate_concat]
  simp [fieldsRow, Row.text, cellsDelimText, fieldText_eq_cell, List.map_map, Function.comp_def]

theorem row_text_ne_nil (d : Rune) (r : Row) (hv : r.Valid d) : r.text d ≠ [] := by
  intro h
  obtain ⟨init, last⟩ := r
  cases init with
  | nil =>
    cases last with
    | bare s =>
      have : s = [] := by simpa [Row.text, cellsDelimText, Cell.text] using h
      subst this
      exact hv.2 ⟨rfl, rfl⟩
    | quoted s => simp [Row.text, cellsDelimText, Cell.text] at h
  | cons c cs => simp [Row.text, cellsDelimText] at h

/-! ## Reading back what the writer wrote -/

theorem readAll_nil (d : Rune) (wn : Bool) : readAll d wn [] = .ok ([], []) := by
  rw [readAll_eq_run]
  simp [tokens, run_nil, atEnd, Except.map]

/-- The text of one record read back: one record of the values of its fields, and no
record when the text is empty. -/
theorem readAll_recordText (d : Rune) (hq : d ≠ '"') (hr : d ≠ '\r') (hn : d ≠ '\n')
    (wn : Bool) (record : List Field) :
    readAll d wn (recordText d record) =
      .ok (if recordText d record = [] then [] else [record.map (readBack wn)], []) := by
  rcases List.eq_nil_or_concat record with h | ⟨init, last, h⟩
  · subst h
    simp [recordText, List.intercalate, readAll_nil]
  · rw [List.concat_eq_append] at h
    subst h
    rw [recordText_eq_row]
    by_cases hb : init = [] ∧ last.cell d = Cell.bare []
    · have ht : (fieldsRow d init last).text d = [] := by
        simp [fieldsRow, Row.text, cellsDelimText, hb.1, hb.2, Cell.text]
      rw [ht, readAll_nil]
      simp
    · have hv : (fieldsRow d init last).Valid d := by
        constructor
        · intro c hc
          simp only [fieldsRow, Row.cells, List.mem_append, List.mem_map,
            List.mem_singleton] at hc
          rcases hc with ⟨f, _, rfl⟩ | rfl
          · exact field_cell_valid d f
          · exact field_cell_valid d last
        · intro hc
          apply hb
          simpa [fieldsRow] using hc
      have htok := row_tokens d hr hn _ hv []
      simp only [List.append_nil, tokens] at htok
      rw [if_neg (row_text_ne_nil d _ hv), readAll_eq_run, htok,
        run_row_end d hq wn false [] none [] _ hv _ (Or.inl rfl) 1 0 (Or.inl rfl)]
      simp [Except.map, Row.values, Row.cells, fieldsRow, List.map_map, Function.comp_def,
        field_cell_value, readBack]

/-- With the double quote as delimiter a written record is not read back: the record of
the quoted field `a` and the field `b` is written as `"a""b`, and the reader fails on a
quote left open.  The round trip is for delimiters other than the double quote, CR and
LF. -/
theorem quote_delimiter_not_read_back :
    writeOutcome '"' (str "\n") Encoding.UTF8 [[⟨str "a", true⟩, ⟨str "b", false⟩]] =
        str "\"a\"\"b" ∧
      readAll '"' false
          (writeOutcome '"' (str "\n") Encoding.UTF8 [[⟨str "a", true⟩, ⟨str "b", false⟩]]) =
        .error ⟨1, 6, extraneousQuote⟩ := by
  decide

/-- The decoder of an encoding gives back the text the writer was given under that
encoding. -/
theorem decode_writeOutcome (d : Rune) (lb : GoString) (enc : Encoding)
    (records : List (List Field)) :
    decode enc (writeOutcome d lb enc records) = recordsText d lb records := by
  rw [writeOutcome_eq]
  by_cases he : enc = Encoding.UTF8M
  · subst he
    simp [decode, UTF8BOM, List.isPrefixOf]
  · simp [decode, he]

theorem mem_intercalate_of_mem {α : Type} (c : α) (sep : List α) (xs : List (List α))
    (x : List α) (hx : x ∈ xs) (hc : c ∈ x) : c ∈ List.intercalate sep xs := by
  cases xs with
  | nil => cases hx
  | cons a l =>
    rw [intercalate_cons_eq, List.mem_append]
    rcases List.mem_cons.1 hx with rfl | h
    · exact Or.inl hc
    · exact Or.inr (List.mem_flatten.2
        ⟨sep ++ x, List.mem_map.2 ⟨x, h, rfl⟩, List.mem_append_right _ hc⟩)

/-- The text of a record that holds a field with a non-empty content is not empty. -/
theorem recordText_ne_nil (d : Rune) (record : List Field) (f : Field) (hf : f ∈ record)
    (hc : f.Contents ≠ []) : recordText d record ≠ [] := by
  have hft : fieldText d f ≠ [] := by
    unfold fieldText
    split
    · simp
    · exact hc
  obtain ⟨c, rest, hcr⟩ := List.exists_cons_of_ne_nil hft
  have hmem : c ∈ recordText d record :=
    mem_intercalate_of_mem c [d] _ (fieldText d f) (List.mem_map.2 ⟨f, hf, rfl⟩)
      (by rw [hcr]; exact List.mem_cons_self _ _)
  intro h
  rw [h] at hmem
  cases hmem

/-- C8: for every delimiter other than the double quote, CR and LF, every line break,
every encoding and every record, whose contents may hold the delimiter, double quotes,
CR and LF: reading what the writer delivers for that record, with a reader of the same
delimiter and encoding, yields one record with as many fields, in which every non-empty
content is read back exactly, whatever the quote flags.  An empty content is read back
as the absent field when unquoted and as the empty string when quoted, and a record
whose text is empty (no field, or one unquoted empty field) gives no record.  The same
holds for the text of the record read as it is. -/
theorem C8_round_trip (d : Rune) (hq : d ≠ '"') (hr : d ≠ '\r') (hn : d ≠ '\n')
    (wn : Bool) (lb : GoString) (enc : Encoding) (record : List Field) :
    readAllFrom d wn enc (writeOutcome d lb enc [record]) =
        .ok (if recordText d record = [] then []
             else [record.map (fun f =>
               if f.Contents = [] ∧ f.Quote = false then absent wn else some f.Contents)],
             []) ∧
      (record ≠ [] → (∀ f ∈ record, f.Contents ≠ []) →
        readAllFrom d wn enc (writeOutcome d lb enc [record]) =
          .ok ([record.map (fun f => some f.Contents)], [])) ∧
      (∀ (i : Nat) (f : Field), record[i]? = some f → f.Contents ≠ [] →
        ∃ rec, readAllFrom d wn enc (writeOutcome d lb enc [record]) = .ok ([rec], []) ∧
          rec.length = record.length ∧ rec[i]? = some (some f.Contents)) ∧
      readAll d wn (recordText d record) =
        .ok (if recordText d record = [] then []
             else [record.map (fun f =>
               if f.Contents = [] ∧ f.Quote = false then absent wn else some f.Contents)],
             []) := by
  have hw : decode enc (writeOutcome d lb enc [record]) = recordText d record := by
    rw [decode_writeOutcome]
    simp [recordsText, List.intercalate]
  have h1 := readAll_recordText d hq hr hn wn record
  unfold readAllFrom
  rw [hw]
  refine ⟨h1, ?_, ?_, h1⟩
  · intro hne hall
    rw [h1]
    obtain ⟨f, rest, hfr⟩ := List.exists_cons_of_ne_nil hne
    have ht : recordText d record ≠ [] :=
      recordText_ne_nil d record f (by rw [hfr]; exact List.mem_cons_self _ _)
        (hall f (by rw [hfr]; exact List.mem_cons_self _ _))
    rw [if_neg ht]
    congr 3
    apply List.map_congr_left
    intro f hf
    simp [readBack, hall f hf]
  · intro i f hi hc
    have hmem : f ∈ record := by
      obtain ⟨hlt, hget⟩ := List.getElem?_eq_some_iff.1 hi
      rw [← hget]
      exact List.getElem_mem hlt
    have ht : recordText d record ≠ [] := recordText_ne_nil d record f hmem hc
    rw [h1, if_neg ht]
    refine ⟨_, rfl, by simp, ?_⟩
    rw [List.getElem?_map, hi]
    simp [readBack, hc]

/-- C8 at the delimiter `,`, the encoding UTF8M and a record holding a delimiter, a
quote and a line break. -/
theorem C8_round_trip_witness :
    writeOutcome ',' (str "\n") Encoding.UTF8M
        [[⟨str "a,b", false⟩, ⟨str "c\"d", false⟩, ⟨str "e\r\nf", true⟩]] =
      UTF8BOM ++ str "\"a,b\",\"c\"\"d\",\"e\r\nf\"" ∧
    readAllFrom ',' false Encoding.UTF8M
        (writeOutcome ',' (str "\n") Encoding.UTF8M
          [[⟨str "a,b", false⟩, ⟨str "c\"d", false⟩, ⟨str "e\r\nf", true⟩]]) =
      .ok ([[some (str "a,b"), some (str "c\"d"), some (str "e\r\nf")]], []) :=
  ⟨by decide,
    (C8_round_trip ',' (by decide) (by decide) (by decide) false (str "\n") Encoding.UTF8M
      [⟨str "a,b", false⟩, ⟨str "c\"d", false⟩, ⟨str "e\r\nf", true⟩]).2.1
      (by decide) (by decide)⟩

/-! ## The field count: claim -/

/-- C10: `ReadAll` succeeds only if every record has the number of fields of the first
one.  After rows that all have `n` fields, the first row with another number of fields
makes `ReadAll` fail with `wrong number of fields in line`: a row with fewer fields
(closed by a line break or the end of the stream) at the line on which it ends, column
0; a row whose `n`-th field is closed by the delimiter at the position reached after
that delimiter.  When no field holds a line break that line is the 1-based number of
the row and that column is the length of the `n` fields with their delimiters.  The
two inputs of the tests give line 2 column 0 and line 2 column 6. -/
theorem C10_field_count_enforcement (d : Rune) (wn : Bool) :
    (∀ (input : GoString) (records : List (List RawText)) (dl : GoString),
        readAll d wn input = .ok (records, dl) →
        ∀ rec ∈ records, rec.length = (records.head?.map List.length).getD 0) ∧
      (d ≠ '"' → d ≠ '\r' → d ≠ '\n' →
        ∀ (good : Table) (bad : Row) (n : Nat) (tail : GoString),
          good ≠ [] → (∀ rl ∈ good, rl.1.Valid d ∧ rl.1.cells.length = n) →
          bad.Valid d → bad.cells.length < n →
          (tail = [] ∨ ∃ c rest, tail = c :: rest ∧ (c = '\r' ∨ c = '\n')) →
          readAll d wn (tableText d good ++ bad.text d ++ tail) =
              .error ⟨(position (tableText d good ++ bad.text d)).1, 0,
                wrongNumberOfFields⟩ ∧
            ((∀ rl ∈ good, ∀ c ∈ rl.1.cells, c.OneLine) → (∀ c ∈ bad.cells, c.OneLine) →
              (position (tableText d good ++ bad.text d)).1 = good.length + 1)) ∧
      (d ≠ '"' → d ≠ '\r' → d ≠ '\n' →
        ∀ (good : Table) (cs : List Cell) (n : Nat) (tail : GoString),
          good ≠ [] → (∀ rl ∈ good, rl.1.Valid d ∧ rl.1.cells.length = n) →
          (∀ c ∈ cs, c.Valid d) → cs.length = n →
          readAll d wn (tableText d good ++ cellsDelimText d cs ++ tail) =
              .error ⟨(position (tableText d good ++ cellsDelimText d cs)).1,
                (position (tableText d good ++ cellsDelimText d cs)).2,
                wrongNumberOfFields⟩ ∧
            ((∀ rl ∈ good, ∀ c ∈ rl.1.cells, c.OneLine) → (∀ c ∈ cs, c.OneLine) →
              position (tableText d good ++ cellsDelimText d cs) =
                (good.length + 1, (cellsDelimText d cs).length))) ∧
      (readAll ',' false (str "a,b,c\nd,e\nf,g,h")).mapError ParseError.Error =
        .error (str "line 2, column 0: wrong number of fields in line") ∧
      (readAll ',' false (str "a,b,c\nd,e,f,g\nh,i,j")).mapError ParseError.Error =
        .error (str "line 2, column 6: wrong number of fields in line") := by
  refine ⟨fun input records dl h => readAll_uniform d wn input records dl h, ?_, ?_,
    by decide, by decide⟩
  · intro hq hr hn good bad n tail hg hv hb hlen ht
    refine ⟨readAll_too_few d hq hr hn wn good bad n tail hg hv hb hlen ht, ?_⟩
    intro ho hbo
    rw [position_row_oneLine d hr hn good hg (fun rl h => (hv rl h).1) ho bad hb hbo]
  · intro hq hr hn good cs n tail hg hv hc hlen
    refine ⟨readAll_too_many d hq hr hn wn good cs n tail hg hv hc hlen, ?_⟩
    intro ho hco
    have hne : cs ≠ [] := by
      intro h
      subst h
      cases good with
      | nil => exact hg rfl
      | cons a b =>
        have := (hv a (List.mem_cons_self _ _)).2
        simp [Row.cells] at hlen this
        omega
    exact position_cells_oneLine d hr hn good hg (fun rl h => (hv rl h).1) ho cs hc hne hco

/-- C10 at the inputs of the tests `NumberOfFieldsIsLess` and
`NumberOfFieldsIsGreater`, as a table of one good row followed by the offending row. -/
theorem C10_field_count_enforcement_witness :
    readAll ',' false (str "a,b,c\nd,e\nf,g,h") = .error ⟨2, 0, wrongNumberOfFields⟩ ∧
      readAll ',' false (str "a,b,c\nd,e,f,g\nh,i,j") =
        .error ⟨2, 6, wrongNumberOfFields⟩ := by
  have h := C10_field_count_enforcement ',' false
  have hfew := (h.2.1 (by decide) (by decide) (by decide)
    [(⟨[Cell.bare (str "a"), Cell.bare (str "b")], Cell.bare (str "c")⟩, LineBreak.LF)]
    ⟨[Cell.bare (str "d")], Cell.bare (str "e")⟩ 3 (str "\nf,g,h")
    (by decide) (by decide) (by decide) (by decide)
    (Or.inr ⟨'\n', str "f,g,h", by decide, Or.inr rfl⟩)).1
  have hmany := (h.2.2.1 (by decide) (by decide) (by decide)
    [(⟨[Cell.bare (str "a"), Cell.bare (str "b")], Cell.bare (str "c")⟩, LineBreak.LF)]
    [Cell.bare (str "d"), Cell.bare (str "e"), Cell.bare (str "f")] 3 (str "g\nh,i,j")
    (by decide) (by decide) (by decide) (by decide)).1
  have e1 : tableText ','
      [(⟨[Cell.bare (str "a"), Cell.bare (str "b")], Cell.bare (str "c")⟩, LineBreak.LF)] ++
      Row.text ',' ⟨[Cell.bare (str "d")], Cell.bare (str "e")⟩ ++ str "\nf,g,h" =
      str "a,b,c\nd,e\nf,g,h" := by decide
  have e2 : tableText ','
      [(⟨[Cell.bare (str "a"), Cell.bare (str "b")], Cell.bare (str "c")⟩, LineBreak.LF)] ++
      cellsDelimText ',' [Cell.bare (str "d"), Cell.bare (str "e"), Cell.bare (str "f")] ++
      str "g\nh,i,j" = str "a,b,c\nd,e,f,g\nh,i,j" := by decide
  have p1 : position (tableText ','
      [(⟨[Cell.bare (str "a"), Cell.bare (str "b")], Cell.bare (str "c")⟩, LineBreak.LF)] ++
      Row.text ',' ⟨[Cell.bare (str "d")], Cell.bare (str "e")⟩) = (2, 3) := by decide
  have p2 : position (tableText ','
      [(⟨[Cell.bare (str "a"), Cell.bare (str "b")], Cell.bare (str "c")⟩, LineBreak.LF)] ++
      cellsDelimText ',' [Cell.bare (str "d"), Cell.bare (str "e"), Cell.bare (str "f")]) =
      (2, 6) := by decide
  rw [e1, p1] at hfew
  rw [e2, p2] at hmany
  exact ⟨hfew, hmany⟩

/-! ## Conformance of the modelled codec with the tests

The expectations of `readAllTests`, `TestReader_ReadHeader` and `writerWriteTests`,
evaluated on the model (the SJIS cases apart, which test the encoding adapter). -/

/-- `readAllTests`: the ten inputs that are read, with records and detected line break. -/
theorem reader_tests_records :
    readAll ',' false (str "a,b,c\nd,e,f") =
        .ok ([[some (str "a"), some (str "b"), some (str "c")],
              [some (str "d"), some (str "e"), some (str "f")]], str "\n") ∧
      readAll ',' false (str "a,b,c\rd,e,f") =
        .ok ([[some (str "a"), some (str "b"), some (str "c")],
              [some (str "d"), some (str "e"), some (str "f")]], str "\r") ∧
      readAll ',' false (str "a,b,c\r\nd,e,f") =
        .ok ([[some (str "a"), some (str "b"), some (str "c")],
              [some (str "d"), some (str "e"), some (str "f")]], str "\r\n") ∧
      readAll '\t' false (str "a\tb\tc\nd\te\tf") =
        .ok ([[some (str "a"), some (str "b"), some (str "c")],
              [some (str "d"), some (str "e"), some (str "f")]], str "\n") ∧
      readAll ',' false (str "a,\"b\",\"ccc\ncc\"\nd,e,") =
        .ok ([[some (str "a"), some (str "b"), some (str "ccc\ncc")],
              [some (str "d"), some (str "e"), none]], str "\n") ∧
      readAll ',' false (str "a,\"b\",\"ccc\"\"cc\"\nd,e,\"\"") =
        .ok ([[some (str "a"), some (str "b"), some (str "ccc\"cc")],
              [some (str "d"), some (str "e"), some []]], str "\n") ∧
      readAll ',' false (str "a,b,ccc\"cc\nd,e,") =
        .ok ([[some (str "a"), some (str "b"), some (str "ccc\"cc")],
              [some (str "d"), some (str "e"), none]], str "\n") ∧
      readAll ',' false (str "a") = .ok ([[some (str "a")]], []) ∧
      readAll ',' false (str "a,b,c\nd,e,f\n\n") =
        .ok ([[some (str "a"), some (str "b"), some (str "c")],
              [some (str "d"), some (str "e"), some (str "f")]], str "\n") ∧
      readAll ',' false (str "a,b,\"c\r\nd\"\ne,f,g") =
        .ok ([[some (str "a"), some (str "b"), some (str "c\r\nd")],
              [some (str "e"), some (str "f"), some (str "g")]], str "\n") := by
  refine ⟨?_, ?_, ?_, ?_, ?_, ?_, ?_, ?_, ?_, ?_⟩ <;> decide

/-- `readAllTests`: the four inputs that fail, with the text of the error. -/
theorem reader_tests_errors :
    (readAll ',' false (str "a,\"b\",\"ccc\ncc\nd,e,")).mapError ParseError.Error =
        .error (str "line 3, column 5: extraneous \" in field") ∧
      (readAll ',' false (str "a,\"b\",\"ccc\"cc\nd,e,")).mapError ParseError.Error =
        .error (str "line 1, column 11: unexpected \" in field") ∧
      (readAll ',' false (str "a,b,c\nd,e\nf,g,h")).mapError ParseError.Error =
        .error (str "line 2, column 0: wrong number of fields in line") ∧
      (readAll ',' false (str "a,b,c\nd,e,f,g\nh,i,j")).mapError ParseError.Error =
        .error (str "line 2, column 6: wrong number of fields in line") := by
  refine ⟨?_, ?_, ?_, ?_⟩ <;> decide

/-- `TestReader_ReadHeader`: the header and the records after it, and the error of a
header whose quote is left open. -/
theorem reader_tests_header :
    (match (NewReader (str "h1,h2 ,h3\na,b,c\nd,e,f")).ReadHeader with
      | Except.error e => Except.error e
      | Except.ok (h, r) => (r.ReadAll).map (fun x => (h, x.1))) =
        Except.ok (some [str "h1", str "h2 ", str "h3"],
          [[some (str "a"), some (str "b"), some (str "c")],
           [some (str "d"), some (str "e"), some (str "f")]]) ∧
      (((NewReader (str "h1,\"h2 ,h3\na,b,c\nd,e,f")).ReadHeader).map (fun x => x.1)).mapError
          ParseError.Error =
        .error (str "line 3, column 6: extraneous \" in field") := by
  refine ⟨?_, ?_⟩ <;> decide

set_option maxRecDepth 100000 in
/-- `writerWriteTests`: `Empty Data`, `CSV`, `TSV`, `CSV with Specified Delimiter` and
`Encode to UTF8M`. -/
theorem writer_tests_output :
    writeOutcome ',' (str "\n") Encoding.UTF8 [] = [] ∧
      writeOutcome ',' (str "\n") Encoding.UTF8
          [[⟨str "c1", true⟩, ⟨str "c2\nsecond line", true⟩, ⟨str "c3", true⟩],
           [⟨str "-1", false⟩, ⟨str "", false⟩, ⟨str "true", false⟩],
           [⟨str "2.0123", false⟩, ⟨str "2016-02-01T16:00:00.123456-07:00", true⟩,
            ⟨str "abc,de\"f", false⟩]] =
        str ("\"c1\",\"c2\nsecond line\",\"c3\"\n-1,,true\n" ++
          "2.0123,\"2016-02-01T16:00:00.123456-07:00\",\"abc,de\"\"f\"") ∧
      writeOutcome '\t' (str "\n") Encoding.UTF8
          [[⟨str "c1", true⟩, ⟨str "c2\nsecond line", true⟩, ⟨str "c3", true⟩],
           [⟨str "-1", false⟩, ⟨str "", false⟩, ⟨str "true", false⟩],
           [⟨str "2.0123", false⟩, ⟨str "2016-02-01T16:00:00.123456-07:00", true⟩,
            ⟨str "abc,de\"f", false⟩]] =
        str ("\"c1\"\t\"c2\nsecond line\"\t\"c3\"\n-1\t\ttrue\n" ++
          "2.0123\t\"2016-02-01T16:00:00.123456-07:00\"\t\"abc,de\"\"f\"") ∧
      writeOutcome ';' (str "\n") Encoding.UTF8
          [[⟨str "c1", true⟩, ⟨str "c2\nsecond line", true⟩, ⟨str "c3", true⟩],
           [⟨str "-1", false⟩, ⟨str "", false⟩, ⟨str "true", false⟩],
           [⟨str "2.0123", false⟩, ⟨str "2016-02-01T16:00:00.123456-07:00", true⟩,
            ⟨str "\"abc,def", false⟩]] =
        str ("\"c1\";\"c2\nsecond line\";\"c3\"\n-1;;true\n" ++
          "2.0123;\"2016-02-01T16:00:00.123456-07:00\";\"\"\"abc,def\"") ∧
      writeOutcome ',' (str "\n") Encoding.UTF8M
          [[⟨str "c1", true⟩, ⟨str "c2\nsecond line", true⟩, ⟨str "c3", true⟩],
           [⟨str "-1", false⟩, ⟨str "", false⟩, ⟨str "true", false⟩],
           [⟨str "2.0123", false⟩, ⟨str "2016-02-01T16:00:00.123456-07:00", true⟩,
            ⟨str "abc,de\"f", false⟩]] =
        UTF8BOM ++ str ("\"c1\",\"c2\nsecond line\",\"c3\"\n-1,,true\n" ++
          "2.0123,\"2016-02-01T16:00:00.123456-07:00\",\"abc,de\"\"f\"") := by
  refine ⟨?_, ?_, ?_, ?_, ?_⟩ <;> decide

/-! ## Reading well-formed tables -/

theorem valid_init_length (d : Rune) (t : Table) (n : Nat)
    (hv : ∀ rl ∈ t, rl.1.Valid d ∧ rl.1.cells.length = n) :
    ∀ rl ∈ t, rl.1.Valid d ∧ rl.1.init.length + 1 = n := by
  intro rl h
  have := (hv rl h).2
  simp only [Row.cells, List.length_append, List.length_singleton] at this
  exact ⟨(hv rl h).1, this⟩

/-- A table of rows with `n` fields each, followed by a last row with `n` fields closed
by the end of the stream: `ReadAll` returns the fields of every row, and the detected
line break is the one that closes the first row. -/
theorem readAll_table_last (d : Rune) (hd : d ≠ '"') (h1 : d ≠ '\r') (h2 : d ≠ '\n')
    (wn : Bool) (good : Table) (last : Row) (n : Nat)
    (hv : ∀ rl ∈ good, rl.1.Valid d ∧ rl.1.cells.length = n)
    (hl : last.Valid d) (hlen : last.cells.length = n) :
    readAll d wn (tableText d good ++ last.text d) =
      .ok (good.map (fun rl => rl.1.values wn) ++ [last.values wn], detected [] good) := by
  have hv1 : ∀ rl ∈ good, rl.1.Valid d := fun rl h => (hv rl h).1
  have hv2 := valid_init_length d good n hv
  have hlen2 : last.init.length + 1 = n := by
    simpa [Row.cells] using hlen
  have htok := row_tokens d h1 h2 last hl []
  simp only [List.append_nil, tokens] at htok
  rw [readAll_eq_run, table_tokens d h1 h2 good hv1 _
      (by simpa using row_head d h2 last hl []), htok,
    run_table d hd wn n _ good _ _ _ _ _ _ (Or.inl rfl) hv2 (Or.inl rfl),
    run_row_end d hd wn false _ _ _ last hl _
      (by split
          · exact Or.inl rfl
          · exact Or.inr rfl) _ _
      (by split
          · exact Or.inl rfl
          · exact Or.inr (by rw [hlen2]))]
  simp [Except.map]

/-- A table of rows with `n` fields each, the last one closed by a line break too. -/
theorem readAll_table (d : Rune) (hd : d ≠ '"') (h1 : d ≠ '\r') (h2 : d ≠ '\n')
    (wn : Bool) (good : Table) (n : Nat)
    (hv : ∀ rl ∈ good, rl.1.Valid d ∧ rl.1.cells.length = n) :
    readAll d wn (tableText d good) =
      .ok (good.map (fun rl => rl.1.values wn), detected [] good) := by
  have hv1 : ∀ rl ∈ good, rl.1.Valid d := fun rl h => (hv rl h).1
  have hv2 := valid_init_length d good n hv
  have htok := table_tokens d h1 h2 good hv1 [] (by simp)
  simp only [List.append_nil, tokens] at htok
  have hrun := run_table d hd wn n [] good State.StartOfField [] 1 0 none []
    (Or.inl rfl) hv2 (Or.inl rfl)
  simp only [List.append_nil] at hrun
  rw [readAll_eq_run, htok, hrun, run_nil]
  cases good with
  | nil => simp [atEnd, Except.map, detected]
  | cons a b => simp [atEnd, Except.map]

/-! ## Quoted fields -/

/-- Inside a quoted field every unit but a double quote is kept verbatim and leaves the
field open. -/
theorem step_inQuoted_other (d : Rune) (wn : Bool) (m : Machine) (t : Token) (b : Bool)
    (hm : m.state = State.InQuotedField) (ht : t ≠ Token.rune '"') :
    ∃ m2, step d wn m t b = .ok m2 ∧ m2.state = State.InQuotedField ∧
      m2.field = m.field ++ detok [t] ∧ m2.record = m.record ∧ m2.records = m.records := by
  cases t with
  | rune c =>
    have hc : c ≠ '"' := fun h => ht (by rw [h])
    refine ⟨{ m with column := m.column + 1, field := m.field ++ [c] }, ?_, hm, ?_,
      rfl, rfl⟩
    · simp only [step, hm, hc, if_false]
    · simp [detok]
  | lineBreak lb =>
    refine ⟨{ newLine m lb false with field := m.field ++ lb.Value }, ?_, ?_, ?_,
      rfl, rfl⟩
    · simp only [step, hm]
    · simp [newLine, hm]
    · simp [detok]

/-- What follows a double quote met inside a quoted field decides: a second quote is a
literal quote and the field goes on; the delimiter closes the field, a line break or
the end of the stream closes the record; any other rune is an error at its position. -/
theorem step_quoteInQuoted (d : Rune) (hd : d ≠ '"') (wn : Bool) (m : Machine) (b : Bool)
    (hm : m.state = State.QuoteInQuotedField) :
    step d wn m (Token.rune '"') b =
        .ok { m with column := m.column + 1, state := State.InQuotedField,
                     field := m.field ++ ['"'] } ∧
      step d wn m (Token.rune d) b =
        closeField { m with column := m.column + 1 } (some m.field) ∧
      (∀ lb, step d wn m (Token.lineBreak lb) b =
        (closeRecord m (some m.field)).map (fun m2 => newLine m2 lb true)) ∧
      atEnd wn m = closeRecord { m with column := m.column + 1 } (some m.field) ∧
      (∀ c, c ≠ '"' → c ≠ d →
        step d wn m (Token.rune c) b = .error ⟨m.line, m.column, unexpectedQuote⟩) := by
  refine ⟨by simp [step, hm], by simp [step, hm, hd], fun lb => by simp [step, hm],
    by simp [atEnd, hm], fun c h1 h2 => by simp [step, hm, h1, h2]⟩

/-- C11: in every well-formed table the field read for a quoted cell is the text
between its quotes with every doubled quote replaced by one quote, delimiters and
CR, LF, CRLF kept verbatim, and the field read for a bare cell is its text, double
quotes included.  Inside a quoted field nothing but a double quote ends the
accumulation; after that quote a second quote continues the field with a literal quote,
the delimiter, a line break or the end of the stream close it, and any other rune is
an error. -/
theorem C11_quoted_field_decoding (d : Rune) (hq : d ≠ '"') (hr : d ≠ '\r')
    (hn : d ≠ '\n') (wn : Bool) :
    (∀ (good : Table) (last : Row) (n : Nat),
        (∀ rl ∈ good, rl.1.Valid d ∧ rl.1.cells.length = n) →
        last.Valid d → last.cells.length = n →
        readAll d wn (tableText d good ++ last.text d) =
          .ok (good.map (fun rl => rl.1.cells.map (Cell.value wn)) ++
                [last.cells.map (Cell.value wn)], detected [] good)) ∧
      (∀ s : GoString, (Cell.quoted s).Valid d ∧
        (Cell.quoted s).text =
          ['"'] ++ (s.map (fun r => if r = '"' then ['"', '"'] else [r])).flatten ++ ['"'] ∧
        (Cell.quoted s).value wn = some s) ∧
      (∀ s : GoString, (∀ x ∈ s, x ≠ d ∧ x ≠ '\r' ∧ x ≠ '\n') → s.head? ≠ some '"' →
        s ≠ [] →
        (Cell.bare s).Valid d ∧ (Cell.bare s).text = s ∧ (Cell.bare s).value wn = some s) ∧
      (∀ (m : Machine) (t : Token) (b : Bool), m.state = State.InQuotedField →
        t ≠ Token.rune '"' →
        ∃ m2, step d wn m t b = .ok m2 ∧ m2.state = State.InQuotedField ∧
          m2.field = m.field ++ detok [t] ∧ m2.record = m.record ∧
          m2.records = m.records) ∧
      (∀ (m : Machine) (b : Bool), m.state = State.InQuotedField →
        step d wn m (Token.rune '"') b =
          .ok { m with column := m.column + 1, state := State.QuoteInQuotedField }) ∧
      (∀ (m : Machine) (b : Bool), m.state = State.QuoteInQuotedField →
        step d wn m (Token.rune '"') b =
            .ok { m with column := m.column + 1, state := State.InQuotedField,
                         field := m.field ++ ['"'] } ∧
          step d wn m (Token.rune d) b =
            closeField { m with column := m.column + 1 } (some m.field) ∧
          (∀ lb, step d wn m (Token.lineBreak lb) b =
            (closeRecord m (some m.field)).map (fun m2 => newLine m2 lb true)) ∧
          atEnd wn m = closeRecord { m with column := m.column + 1 } (some m.field) ∧
          (∀ c, c ≠ '"' → c ≠ d →
            step d wn m (Token.rune c) b =
              .error ⟨m.line, m.column, unexpectedQuote⟩)) := by
  refine ⟨?_, ?_, ?_, ?_, ?_, ?_⟩
  · intro good last n hv hl hlen
    exact readAll_table_last d hq hr hn wn good last n hv hl hlen
  · intro s
    exact ⟨trivial, rfl, rfl⟩
  · intro s hs hh hne
    refine ⟨⟨hs, hh⟩, rfl, ?_⟩
    cases s with
    | nil => exact absurd rfl hne
    | cons x s => rfl
  · intro m t b hm ht
    exact step_inQuoted_other d wn m t b hm ht
  · intro m b hm
    simp [step, hm]
  · intro m b hm
    exact step_quoteInQuoted d hq wn m b hm

/-- C11 at the inputs of the tests `EscapeDoubleQuote` and `DoubleQuoteInNoQuoteField`
joined: a quoted field with a doubled quote, a line break and a delimiter inside, and
a bare field with a double quote inside. -/
theorem C11_quoted_field_decoding_witness :
    readAll ',' false (str "a,\"b\",\"c\"\"c,\r\nc\"\nd,e\"e,\"\"") =
      .ok ([[some (str "a"), some (str "b"), some (str "c\"c,\r\nc")],
            [some (str "d"), some (str "e\"e"), some []]], str "\n") := by
  have h := (C11_quoted_field_decoding ',' (by decide) (by decide) (by decide) false).1
    [(⟨[Cell.bare (str "a"), Cell.quoted (str "b")], Cell.quoted (str "c\"c,\r\nc")⟩,
      LineBreak.LF)]
    ⟨[Cell.bare (str "d"), Cell.bare (str "e\"e")], Cell.quoted []⟩ 3
    (by decide) (by decide) (by decide)
  have e : tableText ','
      [(⟨[Cell.bare (str "a"), Cell.quoted (str "b")], Cell.quoted (str "c\"c,\r\nc")⟩,
        LineBreak.LF)] ++
      Row.text ',' ⟨[Cell.bare (str "d"), Cell.bare (str "e\"e")], Cell.quoted []⟩ =
      str "a,\"b\",\"c\"\"c,\r\nc\"\nd,e\"e,\"\"" := by decide
  rw [e] at h
  exact h

/-! ## Absent and empty fields -/

/-- C15: in every well-formed table a cell with nothing in it (between two delimiters,
or between a delimiter and the line break or the end of the stream) is read as the
absent field, and the quoted cell `""` is read as the empty string; the absent field
is the null marker in the default mode and the empty string with `WithoutNull`. -/
theorem C15_absent_versus_empty (d : Rune) (hq : d ≠ '"') (hr : d ≠ '\r')
    (hn : d ≠ '\n') :
    (∀ (wn : Bool) (good : Table) (last : Row) (n : Nat),
        (∀ rl ∈ good, rl.1.Valid d ∧ rl.1.cells.length = n) →
        last.Valid d → last.cells.length = n →
        readAll d wn (tableText d good ++ last.text d) =
          .ok (good.map (fun rl => rl.1.cells.map (Cell.value wn)) ++
                [last.cells.map (Cell.value wn)], detected [] good)) ∧
      (Cell.bare []).text = [] ∧ (Cell.quoted []).text = ['"', '"'] ∧
      (Cell.bare []).Valid d ∧ (Cell.quoted []).Valid d ∧
      (Cell.bare []).value false = none ∧ (Cell.quoted []).value false = some [] ∧
      (Cell.bare []).value true = some [] ∧ (Cell.quoted []).value true = some [] := by
  refine ⟨?_, rfl, rfl, ⟨by simp, by simp⟩, trivial, rfl, rfl, rfl, rfl⟩
  intro wn good last n hv hl hlen
  exact readAll_table_last d hq hr hn wn good last n hv hl hlen

/-- C15 at a record with an empty field between two delimiters, an empty quoted field
and an empty field before the line break, and a record with an empty field before the
end of the stream, in both modes. -/
theorem C15_absent_versus_empty_witness :
    readAll ',' false (str "a,,\"\",\nb,c,d,") =
        .ok ([[some (str "a"), none, some [], none],
              [some (str "b"), some (str "c"), some (str "d"), none]], str "\n") ∧
      readAll ',' true (str "a,,\"\",\nb,c,d,") =
        .ok ([[some (str "a"), some [], some [], some []],
              [some (str "b"), some (str "c"), some (str "d"), some []]], str "\n") := by
  have h := (C15_absent_versus_empty ',' (by decide) (by decide) (by decide)).1
  have e : tableText ','
      [(⟨[Cell.bare (str "a"), Cell.bare [], Cell.quoted []], Cell.bare []⟩,
        LineBreak.LF)] ++
      Row.text ',' ⟨[Cell.bare (str "b"), Cell.bare (str "c"), Cell.bare (str "d")],
        Cell.bare []⟩ = str "a,,\"\",\nb,c,d," := by decide
  have h1 := h false
    [(⟨[Cell.bare (str "a"), Cell.bare [], Cell.quoted []], Cell.bare []⟩, LineBreak.LF)]
    ⟨[Cell.bare (str "b"), Cell.bare (str "c"), Cell.bare (str "d")], Cell.bare []⟩ 4
    (by decide) (by decide) (by decide)
  have h2 := h true
    [(⟨[Cell.bare (str "a"), Cell.bare [], Cell.quoted []], Cell.bare []⟩, LineBreak.LF)]
    ⟨[Cell.bare (str "b"), Cell.bare (str "c"), Cell.bare (str "d")], Cell.bare []⟩ 4
    (by decide) (by decide) (by decide)
  rw [e] at h1 h2
  exact ⟨h1, h2⟩

/-! ## Positions -/

theorem lastLineRunes_concat (ts : List Token) (t : Token) :
    lastLineRunes (ts ++ [t]) = if t.isLineBreak then 0 else lastLineRunes ts + 1 := by
  unfold lastLineRunes
  rw [List.reverse_append, List.reverse_singleton, List.singleton_append,
    List.takeWhile_cons]
  cases t <;> simp [Token.isLineBreak]

/-- The position after units read from `p`: the line goes up by the number of line
breaks, and the column is the number of runes on the last line (counted from the
column of `p` when there is no line break). -/
theorem advance_eq (ts : List Token) :
    ∀ p : Nat × Nat, advance p ts =
      (p.1 + lineBreakCount ts,
       if ts.any Token.isLineBreak then lastLineRunes ts else p.2 + ts.length) := by
  induction ts using List.reverseRecOn with
  | nil => intro p; simp [advance, lineBreakCount]
  | append_singleton ts t ih =>
    intro p
    rw [advance_append, ih, lastLineRunes_concat]
    cases t with
    | rune c =>
      simp only [advance, lineBreakCount, List.countP_append, List.any_append,
        Token.isLineBreak, List.length_append, List.length_singleton]
      cases h : ts.any Token.isLineBreak <;> simp [List.countP_cons, Token.isLineBreak]
      omega
    | lineBreak lb =>
      simp [advance, lineBreakCount, List.countP_append, List.countP_cons,
        Token.isLineBreak, Nat.add_assoc]

/-- The position reached at the end of a text: line 1 + the number of line breaks,
column the number of runes on the last line. -/
theorem position_eq (s : GoString) :
    position s = (1 + lineBreakCount (tokens s), lastLineRunes (tokens s)) := by
  unfold position
  rw [advance_eq]
  congr 1
  split
  · rfl
  · rename_i h
    unfold lastLineRunes
    have : ∀ t ∈ (tokens s).reverse, (!t.isLineBreak) = true := by
      intro t ht
      have hn : ¬ ((tokens s).any Token.isLineBreak = true) := h
      rw [List.any_eq_true] at hn
      cases hb : t.isLineBreak
      · rfl
      · exact absurd ⟨t, List.mem_reverse.1 ht, hb⟩ hn
    rw [List.takeWhile_eq_self_iff.2 this]
    simp

theorem advance_oneLine (d : Rune) (good : Table)
    (ho : ∀ rl ∈ good, ∀ c ∈ rl.1.cells, c.OneLine) (x : GoString) :
    advance (1, 0) (tableToks d good ++ x.map Token.rune) = (good.length + 1, x.length) := by
  rw [advance_append, advance_table_oneLine d good ho, advance_runes]
  cases good with
  | nil => simp
  | cons a b =>
    simp only [List.isEmpty_cons, Bool.false_eq_true, if_false, List.length_cons]
    congr 1
    · omega
    · omega

/-! ## Malformed quotes -/

theorem prefix_tokens (d : Rune) (h1 : d ≠ '\r') (h2 : d ≠ '\n') (good : Table)
    (hv : ∀ rl ∈ good, rl.1.Valid d) (cs : List Cell) (hc : ∀ c ∈ cs, c.Valid d)
    (ys : GoString) (hy : ys.head? ≠ some '\n') :
    tokens (tableText d good ++ cellsDelimText d cs ++ ys) =
      tableToks d good ++ (cellsDelimToks d cs ++ tokens ys) := by
  have hh : (cellsDelimText d cs ++ ys).head? ≠ some '\n' := by
    cases cs with
    | nil => simpa [cellsDelimText] using hy
    | cons c cs1 =>
      have := cell_head d h2 c (hc c (by simp)) (cellsDelimText d cs1 ++ ys)
      simpa [cellsDelimText] using this
  rw [List.append_assoc, table_tokens d h1 h2 good hv _ hh, cellsDelim_tokens d h1 h2 _ hc]

/-- The reader after a table of rows with `n` fields each and cells, fewer than `n`,
each closed by the delimiter: it is at the start of a field. -/
theorem run_prefix (d : Rune) (hd : d ≠ '"') (wn : Bool) (good : Table) (n : Nat)
    (hv : ∀ rl ∈ good, rl.1.Valid d ∧ rl.1.cells.length = n)
    (cs : List Cell) (hc : ∀ c ∈ cs, c.Valid d) (hcs : good = [] ∨ cs.length < n)
    (rest : List Token) :
    ∃ st : State, st.isStart ∧
      run d wn false ⟨State.StartOfField, [], [], [], 1, 0, none, []⟩
          (tableToks d good ++ (cellsDelimToks d cs ++ rest)) =
        run d wn false ⟨st, [], cs.map (Cell.value wn),
          good.map (fun rl => rl.1.values wn),
          (advance (1, 0) (tableToks d good ++ cellsDelimToks d cs)).1,
          (advance (1, 0) (tableToks d good ++ cellsDelimToks d cs)).2,
          if good.isEmpty then none else some n, detected [] good⟩ rest := by
  have hv2 := valid_init_length d good n hv
  have hst1 : (if good.isEmpty then State.StartOfField else State.EndOfRecord).isStart := by
    split
    · exact Or.inl rfl
    · exact Or.inr rfl
  have hst2 : (if cs.isEmpty then
      (if good.isEmpty then State.StartOfField else State.EndOfRecord)
      else State.StartOfField).isStart := by
    split
    · exact hst1
    · exact Or.inl rfl
  refine ⟨_, hst2, ?_⟩
  rw [run_table d hd wn n _ good _ _ _ _ _ _ (Or.inl rfl) hv2 (Or.inl rfl),
    run_cells d hd wn false _ _ _ _ cs _ [] _ _ hst1 hc
      (fun m hm => by
        rcases hcs with h | h
        · subst h
          simp at hm
        · cases hg : good.isEmpty
          · rw [hg] at hm
            simp only [Bool.false_eq_true, if_false, Option.some.injEq] at hm
            subst hm
            simpa using h
          · rw [hg] at hm
            simp at hm),
    advance_append]
  simp

/-- After a well-formed table and cells, a quoted cell whose closing quote is followed
by a rune that is neither a double quote, the delimiter nor a line break makes
`ReadAll` fail with `unexpected " in field` at the position of that rune. -/
theorem readAll_unexpected (d : Rune) (hd : d ≠ '"') (h1 : d ≠ '\r') (h2 : d ≠ '\n')
    (wn : Bool) (good : Table) (n : Nat)
    (hv : ∀ rl ∈ good, rl.1.Valid d ∧ rl.1.cells.length = n)
    (cs : List Cell) (hc : ∀ c ∈ cs, c.Valid d) (hcs : good = [] ∨ cs.length < n)
    (s : GoString) (c : Rune) (tail : GoString)
    (hc1 : c ≠ '"') (hc2 : c ≠ d) (hc3 : c ≠ '\r') (hc4 : c ≠ '\n') :
    readAll d wn
        (tableText d good ++ cellsDelimText d cs ++ (Cell.quoted s).text ++ c :: tail) =
      .error ⟨(position (tableText d good ++ cellsDelimText d cs ++ (Cell.quoted s).text)).1,
        (position (tableText d good ++ cellsDelimText d cs ++ (Cell.quoted s).text)).2,
        unexpectedQuote⟩ := by
  have hv1 : ∀ rl ∈ good, rl.1.Valid d := fun rl h => (hv rl h).1
  have hq : ∀ ys : GoString, ((Cell.quoted s).text ++ ys).head? ≠ some '\n' := by
    intro ys
    simp [Cell.text]
  have hpos : position (tableText d good ++ cellsDelimText d cs ++ (Cell.quoted s).text) =
      advance (1, 0) (tableToks d good ++ cellsDelimToks d cs ++ (Cell.quoted s).toks) := by
    unfold position
    have := prefix_tokens d h1 h2 good hv1 cs hc ((Cell.quoted s).text ++ [])
      (hq [])
    rw [List.append_nil] at this
    rw [this]
    have e := cell_tokens d (Cell.quoted s) trivial []
    rw [List.append_nil] at e
    rw [e]
    simp [tokens]
  obtain ⟨st, hst, hrun⟩ := run_prefix d hd wn good n hv cs hc hcs
    ((Cell.quoted s).toks ++ Token.rune c :: tokens tail)
  rw [hpos, readAll_eq_run, List.append_assoc (tableText d good ++ cellsDelimText d cs),
    prefix_tokens d h1 h2 good hv1 cs hc _ (hq (c :: tail)),
    cell_tokens d (Cell.quoted s) trivial,
    tokens_cons c tail (fun h => hc3 h.1), ofRune_of_ne c hc3 hc4, hrun,
    run_cell d wn false _ _ _ _ (Cell.quoted s) trivial st hst, run_cons]
  simp only [step, Cell.state, hc1, hc2, if_false, Except.map, advance_append,
    Prod.mk.eta]

theorem position_prefix_quoted (d : Rune) (h1 : d ≠ '\r') (h2 : d ≠ '\n') (good : Table)
    (hv : ∀ rl ∈ good, rl.1.Valid d) (cs : List Cell) (hc : ∀ c ∈ cs, c.Valid d)
    (s : GoString) :
    position (tableText d good ++ cellsDelimText d cs ++ (Cell.quoted s).text) =
      advance (1, 0) (tableToks d good ++ (cellsDelimToks d cs ++ (Cell.quoted s).toks)) := by
  unfold position
  have := prefix_tokens d h1 h2 good hv cs hc ((Cell.quoted s).text ++ [])
    (by simp [Cell.text])
  rw [List.append_nil] at this
  rw [this]
  have e := cell_tokens d (Cell.quoted s) trivial []
  rw [List.append_nil] at e
  rw [e]
  simp [tokens]

/-- C12: after a well-formed table and cells, a quoted field whose closing quote is
followed by a rune that is neither a double quote, the delimiter nor a line break
makes `ReadAll` fail with `unexpected " in field`; the position is that of the
offending rune: line 1 + the number of line breaks before it, column the number of
runes before it on its line (the length of the text before it on the line when no
field holds a line break).  The input of the test gives line 1, column 11. -/
theorem C12_unexpected_quote (d : Rune) (hq : d ≠ '"') (hr : d ≠ '\r') (hn : d ≠ '\n')
    (wn : Bool) :
    (∀ (good : Table) (n : Nat) (cs : List Cell) (s : GoString) (c : Rune)
        (tail : GoString),
        (∀ rl ∈ good, rl.1.Valid d ∧ rl.1.cells.length = n) → (∀ x ∈ cs, x.Valid d) →
        (good = [] ∨ cs.length < n) →
        c ≠ '"' → c ≠ d → c ≠ '\r' → c ≠ '\n' →
        readAll d wn
            (tableText d good ++ cellsDelimText d cs ++ (Cell.quoted s).text ++ c :: tail) =
          .error
            ⟨1 + lineBreakCount
                (tokens (tableText d good ++ cellsDelimText d cs ++ (Cell.quoted s).text)),
              lastLineRunes
                (tokens (tableText d good ++ cellsDelimText d cs ++ (Cell.quoted s).text)),
              unexpectedQuote⟩ ∧
        ((∀ rl ∈ good, ∀ x ∈ rl.1.cells, x.OneLine) → (∀ x ∈ cs, x.OneLine) →
          (∀ x ∈ s, x ≠ '\r' ∧ x ≠ '\n') →
          readAll d wn
              (tableText d good ++ cellsDelimText d cs ++ (Cell.quoted s).text ++ c :: tail) =
            .error ⟨good.length + 1,
              (cellsDelimText d cs ++ (Cell.quoted s).text).length, unexpectedQuote⟩)) ∧
      (readAll ',' false (str "a,\"b\",\"ccc\"cc\nd,e,")).mapError ParseError.Error =
        .error (str "line 1, column 11: unexpected \" in field") := by
  refine ⟨?_, by decide⟩
  intro good n cs s c tail hv hc hcs hc1 hc2 hc3 hc4
  have hv1 : ∀ rl ∈ good, rl.1.Valid d := fun rl h => (hv rl h).1
  have h := readAll_unexpected d hq hr hn wn good n hv cs hc hcs s c tail hc1 hc2 hc3 hc4
  constructor
  · rw [h, position_eq]
  · intro ho hco hso
    rw [h, position_prefix_quoted d hr hn good hv1 cs hc s,
      cellsDelimToks_oneLine d cs hco, cell_toks_oneLine (Cell.quoted s) hso,
      ← List.map_append, advance_oneLine d good ho]

/-- C12 at the input of the test `UnexpectedQuote`. -/
theorem C12_unexpected_quote_witness :
    readAll ',' false (str "a,\"b\",\"ccc\"cc\nd,e,") = .error ⟨1, 11, unexpectedQuote⟩ := by
  have h := ((C12_unexpected_quote ',' (by decide) (by decide) (by decide) false).1
    [] 0 [Cell.bare (str "a"), Cell.quoted (str "b")] (str "ccc") 'c' (str "c\nd,e,")
    (by decide) (by decide) (Or.inl rfl) (by decide) (by decide) (by decide)
    (by decide)).2 (by decide) (by decide) (by decide)
  have e : tableText ',' [] ++
      cellsDelimText ',' [Cell.bare (str "a"), Cell.quoted (str "b")] ++
      (Cell.quoted (str "ccc")).text ++ 'c' :: str "c\nd,e," =
      str "a,\"b\",\"ccc\"cc\nd,e," := by decide
  rw [e] at h
  exact h

theorem closeField_position (m m2 : Machine) (f : RawText) (h : closeField m f = .ok m2) :
    m2.line = m.line ∧ m2.column = m.column := by
  unfold closeField at h
  simp only at h
  split at h
  · split at h
    · cases h
    · cases h; exact ⟨rfl, rfl⟩
  · cases h; exact ⟨rfl, rfl⟩

theorem closeRecord_position (m m2 : Machine) (f : RawText) (h : closeRecord m f = .ok m2) :
    m2.line = m.line ∧ m2.column = m.column := by
  unfold closeRecord at h
  simp only at h
  split at h
  · split at h
    · cases h
    · cases h; exact ⟨rfl, rfl⟩
  · cases h; exact ⟨rfl, rfl⟩

theorem closeField_message (m : Machine) (f : RawText) (e : ParseError)
    (h : closeField m f = .error e) : e.message = wrongNumberOfFields := by
  unfold closeField at h
  simp only at h
  split at h
  · split at h
    · cases h; rfl
    · cases h
  · cases h

theorem closeRecord_message (m : Machine) (f : RawText) (e : ParseError)
    (h : closeRecord m f = .error e) : e.message = wrongNumberOfFields := by
  unfold closeRecord at h
  simp only at h
  split at h
  · split at h
    · cases h; rfl
    · cases h
  · cases h

theorem closeRecord_newLine_position (m m2 : Machine) (f : RawText) (lb : LineBreak)
    (b : Bool) (h : (closeRecord m f).map (fun m3 => newLine m3 lb b) = .ok m2) :
    (m2.line, m2.column) = (m.line + 1, 0) := by
  cases hr : closeRecord m f with
  | error e => rw [hr] at h; cases h
  | ok m3 =>
    rw [hr] at h
    simp only [Except.map, Except.ok.injEq] at h
    subst h
    have := closeRecord_position m m3 f hr
    simp [newLine, this.1]

theorem closeRecord_newLine_message (m : Machine) (f : RawText) (lb : LineBreak)
    (b : Bool) (e : ParseError)
    (h : (closeRecord m f).map (fun m3 => newLine m3 lb b) = .error e) :
    e.message = wrongNumberOfFields := by
  cases hr : closeRecord m f with
  | error e2 =>
    rw [hr] at h
    simp only [Except.map, Except.error.injEq] at h
    subst h
    exact closeRecord_message m f e2 hr
  | ok m3 => rw [hr] at h; cases h

/-- Every transition moves the position by the unit consumed. -/
theorem step_position (d : Rune) (wn : Bool) (m m2 : Machine) (t : Token) (b : Bool)
    (hs : step d wn m t b = .ok m2) :
    (m2.line, m2.column) = advance (m.line, m.column) [t] := by
  unfold step at hs
  cases t with
  | rune c =>
    simp only at hs
    repeat' split at hs
    all_goals first
      | (cases hs; rfl)
      | cases hs
      | (have h := closeField_position _ _ _ hs
         simp only [advance, h.1, h.2])
  | lineBreak lb =>
    simp only at hs
    repeat' split at hs
    all_goals first
      | (cases hs; rfl)
      | cases hs
      | exact closeRecord_newLine_position _ _ _ _ _ hs

/-- No transition fails with the message of an open quote. -/
theorem step_message (d : Rune) (wn : Bool) (m : Machine) (t : Token) (b : Bool)
    (e : ParseError) (hs : step d wn m t b = .error e) : e.message ≠ extraneousQuote := by
  have hw : wrongNumberOfFields ≠ extraneousQuote := by decide
  have hu : unexpectedQuote ≠ extraneousQuote := by decide
  unfold step at hs
  cases t with
  | rune c =>
    simp only at hs
    repeat' split at hs
    all_goals first
      | (cases hs; exact hu)
      | cases hs
      | (rw [closeField_message _ _ _ hs]; exact hw)
  | lineBreak lb =>
    simp only at hs
    repeat' split at hs
    all_goals first
      | cases hs
      | (rw [closeRecord_newLine_message _ _ _ _ _ hs]; exact hw)

theorem atEnd_extraneous (wn : Bool) (m : Machine) (e : ParseError)
    (h : atEnd wn m = .error e) (hm : e.message = extraneousQuote) :
    (e.line, e.column) = (m.line, m.column + 1) := by
  have hw : wrongNumberOfFields ≠ extraneousQuote := by decide
  unfold atEnd at h
  simp only at h
  repeat' split at h
  all_goals first
    | (cases h; rfl)
    | cases h
    | (rw [closeRecord_message _ _ _ h] at hm; exact absurd hm hw)

/-- Whenever the reader fails on a quote left open, the position of the error is the one
reached at the end of the stream, one column further. -/
theorem run_extraneous (d : Rune) (wn sg : Bool) (ts : List Token) :
    ∀ (m : Machine) (e : ParseError), run d wn sg m ts = .error e →
      e.message = extraneousQuote →
      (e.line, e.column) =
        ((advance (m.line, m.column) ts).1, (advance (m.line, m.column) ts).2 + 1) := by
  induction ts with
  | nil =>
    intro m e h hm
    rw [run_nil] at h
    cases ha : atEnd wn m with
    | error e2 =>
      rw [ha] at h
      simp only [Except.map, Except.error.injEq] at h
      subst h
      rw [atEnd_extraneous wn m e2 ha hm]
      rfl
    | ok m2 => rw [ha] at h; cases h
  | cons t ts ih =>
    intro m e h hm
    rw [run_cons] at h
    cases hs : step d wn m t (ts.all Token.isLineBreak) with
    | error e2 =>
      rw [hs] at h
      simp only [Except.error.injEq] at h
      subst h
      exact absurd hm (step_message d wn m t _ e2 hs)
    | ok m2 =>
      rw [hs] at h
      simp only at h
      split at h
      · cases h
      · have hp := step_position d wn m m2 t _ hs
        rw [ih m2 e h hm, show t :: ts = [t] ++ ts from rfl, advance_append, ← hp]

/-- A quoted field opened at the start of a field and never closed: the reader fails at
the end of the stream. -/
theorem run_open_quote (d : Rune) (wn sg : Bool) (rec : List RawText)
    (recs : List (List RawText)) (k : Option Nat) (dl : GoString) (st : State)
    (hst : st.isStart) (l c : Nat) (ts : List Token) :
    run d wn sg ⟨st, [], rec, recs, l, c, k, dl⟩ (Token.rune '"' :: escTok ts) =
      .error ⟨(advance (l, c) (Token.rune '"' :: escTok ts)).1,
        (advance (l, c) (Token.rune '"' :: escTok ts)).2 + 1, extraneousQuote⟩ := by
  have hstep : ∀ b, step d wn ⟨st, [], rec, recs, l, c, k, dl⟩ (Token.rune '"') b =
      .ok ⟨State.InQuotedField, [], rec, recs, l, c + 1, k, dl⟩ := by
    intro b
    rcases hst with h | h <;> subst h <;> simp [step]
  have hq := run_quoted d wn sg rec recs k dl ts [] [] l (c + 1)
  rw [List.append_nil] at hq
  rw [run_cons, hstep]
  simp only
  rw [and_endOfRecord_false sg _ (by decide)]
  simp only [Bool.false_eq_true, if_false]
  rw [hq, run_nil]
  simp [atEnd, Except.map, advance]

theorem tokens_open_quote (s : GoString) :
    tokens ('"' :: escape s) = Token.rune '"' :: escTok (tokens s) := by
  have e1 : Token.ofRune '"' = Token.rune '"' := by decide
  rw [tokens_cons '"' _ (fun h => absurd h.1 (by decide)), e1, tokens_escape]

theorem readHeader_eq_run (d : Rune) (input : GoString) :
    readHeader d input =
      (run d true true ⟨State.StartOfField, [], [], [], 1, 0, none, []⟩ (tokens input)).map
        (fun x => x.1.records.head?.map (fun rec => rec.map (fun f => f.getD []))) := by
  unfold readHeader Reader.ReadHeader
  simp only [NewReader, Reader.machine, Reader.after]
  cases run d true true ⟨State.StartOfField, [], [], [], 1, 0, none, []⟩ (tokens input) with
  | error e => rfl
  | ok res => rfl

/-- Whenever `ReadAll` fails on a quote left open, the error is at line 1 + the number
of line breaks of the input, column the number of runes on its last line + 1. -/
theorem readAll_extraneous_position (d : Rune) (wn : Bool) (input : GoString)
    (e : ParseError) (h : readAll d wn input = .error e)
    (hm : e.message = extraneousQuote) :
    e.line = 1 + lineBreakCount (tokens input) ∧
      e.column = lastLineRunes (tokens input) + 1 := by
  rw [readAll_eq_run] at h
  cases hr : run d wn false ⟨State.StartOfField, [], [], [], 1, 0, none, []⟩
      (tokens input) with
  | ok res => rw [hr] at h; cases h
  | error e2 =>
    rw [hr] at h
    simp only [Except.map, Except.error.injEq] at h
    subst h
    have hp := run_extraneous d wn false _ _ _ hr hm
    have hq := position_eq input
    unfold position at hq
    simp only at hp
    rw [hq] at hp
    simp only [Prod.mk.injEq] at hp
    exact hp

/-- The same for `ReadHeader`. -/
theorem readHeader_extraneous_position (d : Rune) (input : GoString)
    (e : ParseError) (h : readHeader d input = .error e)
    (hm : e.message = extraneousQuote) :
    e.line = 1 + lineBreakCount (tokens input) ∧
      e.column = lastLineRunes (tokens input) + 1 := by
  rw [readHeader_eq_run] at h
  cases hr : run d true true ⟨State.StartOfField, [], [], [], 1, 0, none, []⟩
      (tokens input) with
  | ok res => rw [hr] at h; cases h
  | error e2 =>
    rw [hr] at h
    simp only [Except.map, Except.error.injEq] at h
    subst h
    have hp := run_extraneous d true true _ _ _ hr hm
    have hq := position_eq input
    unfold position at hq
    simp only at hp
    rw [hq] at hp
    simp only [Prod.mk.injEq] at hp
    exact hp

/-- After a well-formed table and cells, a quoted field that the stream leaves open
makes `ReadAll` fail with `extraneous " in field`. -/
theorem readAll_extraneous (d : Rune) (hd : d ≠ '"') (h1 : d ≠ '\r') (h2 : d ≠ '\n')
    (wn : Bool) (good : Table) (n : Nat)
    (hv : ∀ rl ∈ good, rl.1.Valid d ∧ rl.1.cells.length = n)
    (cs : List Cell) (hc : ∀ c ∈ cs, c.Valid d) (hcs : good = [] ∨ cs.length < n)
    (s : GoString) :
    ∃ l c, readAll d wn (tableText d good ++ cellsDelimText d cs ++ '"' :: escape s) =
      .error ⟨l, c, extraneousQuote⟩ := by
  have hv1 : ∀ rl ∈ good, rl.1.Valid d := fun rl h => (hv rl h).1
  obtain ⟨st, hst, hrun⟩ := run_prefix d hd wn good n hv cs hc hcs
    (Token.rune '"' :: escTok (tokens s))
  rw [readAll_eq_run, prefix_tokens d h1 h2 good hv1 cs hc _ (by simp), tokens_open_quote,
    hrun, run_open_quote d wn false _ _ _ _ st hst]
  exact ⟨_, _, rfl⟩

/-- Cells of the first record followed by a quoted field that the stream leaves open
make `ReadHeader` fail with `extraneous " in field`. -/
theorem readHeader_extraneous (d : Rune) (hd : d ≠ '"') (h1 : d ≠ '\r') (h2 : d ≠ '\n')
    (cs : List Cell) (hc : ∀ c ∈ cs, c.Valid d) (s : GoString) :
    ∃ l c, readHeader d (cellsDelimText d cs ++ '"' :: escape s) =
      .error ⟨l, c, extraneousQuote⟩ := by
  have hst2 : (if cs.isEmpty then State.StartOfField else State.StartOfField).isStart := by
    split <;> exact Or.inl rfl
  rw [readHeader_eq_run, cellsDelim_tokens d h1 h2 cs hc, tokens_open_quote,
    run_cells d hd true true [] none [] _ cs State.StartOfField [] 1 0 (Or.inl rfl) hc
      (fun m hm => by cases hm),
    run_open_quote d true true _ _ _ _ _ hst2]
  exact ⟨_, _, rfl⟩

/-! ## The detected line break -/

/-- A transition does not look at the detected line break, but to update it. -/
theorem step_forget (d : Rune) (wn : Bool) (m : Machine) (t : Token) (b : Bool) :
    (step d wn m.forget t b).map Machine.forget = (step d wn m t b).map Machine.forget := by
  obtain ⟨st, fld, rec, recs, l, c, k, dl⟩ := m
  cases t <;> cases st <;> cases k <;>
    simp only [step, Machine.forget, closeField, closeRecord, newLine] <;>
    (try split_ifs) <;> simp [Except.map, Machine.forget, newLine]

theorem atEnd_forget (wn : Bool) (m : Machine) :
    (atEnd wn m.forget).map Machine.forget = (atEnd wn m).map Machine.forget := by
  obtain ⟨st, fld, rec, recs, l, c, k, dl⟩ := m
  cases st <;> cases k <;>
    simp only [atEnd, Machine.forget, closeRecord] <;>
    (try split_ifs) <;> simp [Except.map, Machine.forget]

theorem run_forget (d : Rune) (wn sg : Bool) (ts : List Token) (m : Machine) :
    (run d wn sg m.forget ts).map (fun x => (x.1.forget, x.2)) =
      (run d wn sg m ts).map (fun x => (x.1.forget, x.2)) := by
  induction ts generalizing m with
  | nil =>
    have h := atEnd_forget wn m
    simp only [run]
    cases h1 : atEnd wn m.forget <;> cases h2 : atEnd wn m <;>
      simp only [h1, h2, Except.map] at h ⊢
    · injection h with h
      rw [h]
    · cases h
    · cases h
    · injection h with h
      rw [h]
  | cons t rest ih =>
    have h := step_forget d wn m t (rest.all Token.isLineBreak)
    simp only [run]
    cases h1 : step d wn m.forget t (rest.all Token.isLineBreak) <;>
      cases h2 : step d wn m t (rest.all Token.isLineBreak) <;>
      simp only [h1, h2] at h ⊢
    · simp only [Except.map] at h ⊢
      injection h with h
      rw [h]
    · cases h
    · cases h
    · rename_i m1 m2
      have he : m1.forget = m2.forget := by
        simp only [Except.map] at h
        injection h
      have hs : m1.state = m2.state := by
        have := congrArg Machine.state he
        simpa [Machine.forget] using this
      rw [hs]
      by_cases hc : (sg && m2.state == State.EndOfRecord) = true
      · rw [if_pos hc, if_pos hc]
        simp only [Except.map, he]
      · rw [if_neg hc, if_neg hc]
        have i1 := ih m1
        have i2 := ih m2
        rw [he] at i1
        rw [← i1, i2]

theorem lineBreak_value_ne_nil (lb : LineBreak) : lb.Value ≠ [] := by
  cases lb <;> decide

/-- A rune leaves the detected line break as it is, and moves the state as
`quoteStep` says. -/
theorem step_rune_detected (d : Rune) (wn : Bool) (m m2 : Machine) (c : Rune) (b : Bool)
    (h : step d wn m (Token.rune c) b = .ok m2) :
    m2.DetectedLineBreak = m.DetectedLineBreak ∧ m2.state = quoteStep d m.state c := by
  obtain ⟨st, fld, rec, recs, l, col, k, dl⟩ := m
  cases st <;> cases k <;>
    simp only [step, closeField, quoteStep] at h ⊢ <;>
    split_ifs at h ⊢ <;> cases h <;> exact ⟨rfl, rfl⟩

/-- A line break inside a quoted field leaves the detected line break as it is. -/
theorem step_break_quoted (d : Rune) (wn : Bool) (m m2 : Machine) (lb : LineBreak)
    (b : Bool) (hs : m.state = State.InQuotedField)
    (h : step d wn m (Token.lineBreak lb) b = .ok m2) :
    m2.DetectedLineBreak = m.DetectedLineBreak ∧ m2.state = State.InQuotedField := by
  simp only [step, hs] at h
  cases h
  simp [newLine, hs]

theorem newLine_detected (m : Machine) (lb : LineBreak) :
    (newLine m lb true).DetectedLineBreak =
      if m.DetectedLineBreak = [] then lb.Value else m.DetectedLineBreak := by
  cases h : m.DetectedLineBreak <;> simp [newLine, h]

theorem closeRecord_detected (m m2 : Machine) (f : RawText)
    (h : closeRecord m f = .ok m2) : m2.DetectedLineBreak = m.DetectedLineBreak := by
  unfold closeRecord at h
  simp only at h
  split at h
  · split at h
    · cases h
    · cases h; rfl
  · cases h; rfl

theorem closeRecord_newLine_detected (m m2 : Machine) (f : RawText) (lb : LineBreak)
    (h : (closeRecord m f).map (fun m1 => newLine m1 lb true) = .ok m2) :
    m2.DetectedLineBreak =
      if m.DetectedLineBreak = [] then lb.Value else m.DetectedLineBreak := by
  cases hc : closeRecord m f with
  | error e => rw [hc] at h; cases h
  | ok m1 =>
    rw [hc] at h
    simp only [Except.map] at h
    cases h
    rw [newLine_detected, closeRecord_detected m m1 f hc]

/-- A line break outside a quoted field is detected when none was before. -/
theorem step_break_outside (d : Rune) (wn : Bool) (m m2 : Machine) (lb : LineBreak)
    (b : Bool) (hs : m.state ≠ State.InQuotedField)
    (h : step d wn m (Token.lineBreak lb) b = .ok m2) :
    m2.DetectedLineBreak =
      if m.DetectedLineBreak = [] then lb.Value else m.DetectedLineBreak := by
  cases hst : m.state <;> simp only [step, hst] at h
  · split_ifs at h
    · cases h
      exact newLine_detected m lb
    · exact closeRecord_newLine_detected m m2 _ lb h
  · exact closeRecord_newLine_detected m m2 _ lb h
  · exact absurd hst hs
  · exact closeRecord_newLine_detected m m2 _ lb h
  · split_ifs at h
    · cases h
      exact newLine_detected m lb
    · exact closeRecord_newLine_detected m m2 _ lb h

theorem atEnd_detected (wn : Bool) (m m2 : Machine) (h : atEnd wn m = .ok m2) :
    m2.DetectedLineBreak = m.DetectedLineBreak := by
  obtain ⟨st, fld, rec, recs, l, col, k, dl⟩ := m
  cases st <;> cases k <;>
    simp only [atEnd, closeRecord] at h ⊢ <;>
    (try split_ifs at h) <;> cases h <;> rfl

/-- Once a line break is detected it stays. -/
theorem run_detected_keep (d : Rune) (wn : Bool) (ts : List Token) :
    ∀ (m m2 : Machine) (rest : List Token), m.DetectedLineBreak ≠ [] →
      run d wn false m ts = .ok (m2, rest) → m2.DetectedLineBreak = m.DetectedLineBreak := by
  induction ts with
  | nil =>
    intro m m2 rest _ h
    simp only [run] at h
    cases ha : atEnd wn m with
    | error e => rw [ha] at h; cases h
    | ok m1 =>
      rw [ha] at h
      simp only [Except.map] at h
      cases h
      exact atEnd_detected wn m _ ha
  | cons t ts ih =>
    intro m m2 rest hne h
    simp only [run] at h
    cases hs : step d wn m t (ts.all Token.isLineBreak) with
    | error e => rw [hs] at h; cases h
    | ok m1 =>
      rw [hs] at h
      simp only [Bool.false_and, Bool.false_eq_true, if_false] at h
      have h1 : m1.DetectedLineBreak = m.DetectedLineBreak := by
        cases t with
        | rune c => exact (step_rune_detected d wn m m1 c _ hs).1
        | lineBreak lb =>
          by_cases hq : m.state = State.InQuotedField
          · exact (step_break_quoted d wn m m1 lb _ hq hs).1
          · rw [step_break_outside d wn m m1 lb _ hq hs, if_neg hne]
      rw [ih m1 m2 rest (by rw [h1]; exact hne) h, h1]

/-- The detected line break at the end of a run that started with none: the first line
break of the stream that is outside a quoted field. -/
theorem run_detected (d : Rune) (wn : Bool) (ts : List Token) :
    ∀ (m m2 : Machine) (rest : List Token), m.DetectedLineBreak = [] →
      run d wn false m ts = .ok (m2, rest) →
      m2.DetectedLineBreak = firstBreakOutside d m.state ts := by
  induction ts with
  | nil =>
    intro m m2 rest he h
    simp only [run] at h
    cases ha : atEnd wn m with
    | error e => rw [ha] at h; cases h
    | ok m1 =>
      rw [ha] at h
      simp only [Except.map] at h
      cases h
      rw [atEnd_detected wn m _ ha, he]
      rfl
  | cons t ts ih =>
    intro m m2 rest he h
    have h0 := h
    simp only [run] at h
    cases hs : step d wn m t (ts.all Token.isLineBreak) with
    | error e => rw [hs] at h; cases h
    | ok m1 =>
      rw [hs] at h
      simp only [Bool.false_and, Bool.false_eq_true, if_false] at h
      cases t with
      | rune c =>
        obtain ⟨h1, h2⟩ := step_rune_detected d wn m m1 c _ hs
        rw [ih m1 m2 rest (by rw [h1]; exact he) h, h2]
        rfl
      | lineBreak lb =>
        by_cases hq : m.state = State.InQuotedField
        · obtain ⟨h1, h2⟩ := step_break_quoted d wn m m1 lb _ hq hs
          rw [ih m1 m2 rest (by rw [h1]; exact he) h, h2]
          simp [firstBreakOutside, hq]
        · have h1 := step_break_outside d wn m m1 lb _ hq hs
          rw [if_pos he] at h1
          rw [run_detected_keep d wn ts m1 m2 rest
            (by rw [h1]; exact lineBreak_value_ne_nil lb) h, h1]
          simp [firstBreakOutside, hq]

theorem mem_of_rune_mem_tokens (c : Rune) (s : GoString) :
    Token.rune c ∈ tokens s → c ∈ s := by
  induction s using tokens.induct with
  | case1 => simp [tokens]
  | case2 x =>
    simp only [tokens, Token.ofRune, List.mem_singleton]
    split_ifs <;> intro h <;> cases h
    rfl
  | case3 x y rest hxy ih =>
    rw [tokens, if_pos hxy]
    intro h
    simp only [List.mem_cons] at h ⊢
    rcases h with h | h
    · cases h
    · exact Or.inr (Or.inr (ih h))
  | case4 x y rest hxy ih =>
    rw [tokens, if_neg hxy]
    intro h
    simp only [List.mem_cons] at h ih ⊢
    rcases h with h | h
    · left
      simp only [Token.ofRune] at h
      split_ifs at h
      cases h
      rfl
    · exact Or.inr (ih h)

/-- In a stream without a double quote no line break is inside a quoted field. -/
theorem firstBreakOutside_no_quote (d : Rune) (ts : List Token)
    (hq : Token.rune '"' ∉ ts) :
    ∀ s : State, s ≠ State.InQuotedField → s ≠ State.QuoteInQuotedField →
      firstBreakOutside d s ts =
        match ts.find? Token.isLineBreak with
        | some (Token.lineBreak lb) => lb.Value
        | _ => [] := by
  induction ts with
  | nil => intro s _ _; rfl
  | cons t ts ih =>
    intro s h1 h2
    have hq2 : Token.rune '"' ∉ ts := fun h => hq (List.mem_cons_of_mem _ h)
    cases t with
    | rune c =>
      have hc : c ≠ '"' := fun h => hq (by rw [h]; exact List.mem_cons_self _ _)
      simp only [firstBreakOutside, List.find?, Token.isLineBreak]
      apply ih hq2
      · cases s <;> simp only [quoteStep, hc, if_false] <;> (try split_ifs) <;>
          simp at h1 h2 ⊢
      · cases s <;> simp only [quoteStep, hc, if_false] <;> (try split_ifs) <;>
          simp at h1 h2 ⊢
    | lineBreak lb =>
      simp [firstBreakOutside, List.find?, Token.isLineBreak, h1]

/-- A stream without line breaks has none outside quoted fields. -/
theorem firstBreakOutside_runes (d : Rune) (s : GoString) :
    ∀ st : State, firstBreakOutside d st (s.map Token.rune) = [] := by
  induction s with
  | nil => intro st; rfl
  | cons c s ih => intro st; simp only [List.map_cons, firstBreakOutside, ih]

/-- C14 as stated fails: in the input of the test "Different Line Breaks" the first line
terminator is the CRLF inside the quoted field, and the detected line break is the LF
that closes the first record. -/
theorem C14_line_break_counterexample :
    readAll ',' false (str "a,b,\"c\r\nd\"\ne,f,g") =
        .ok ([[some (str "a"), some (str "b"), some (str "c\r\nd")],
              [some (str "e"), some (str "f"), some (str "g")]], str "\n") ∧
      firstLineBreak (str "a,b,\"c\r\nd\"\ne,f,g") = str "\r\n" := by
  refine ⟨?_, ?_⟩ <;> decide

/-- C14, amended: for every input that `ReadAll` reads successfully, the detected line
break is the first line terminator (CR, LF or CRLF) of the input that is outside a
quoted field, and empty when there is none; it is the first line terminator of the
input when the input holds no double quote, and it is empty when the input holds no
line break.  The detected value does not change how records are split: two runs that
differ only in the detected line break they start with end with the same records,
fields, position and error. -/
theorem C14_line_break_detection (d : Rune) (wn : Bool) :
    (∀ (input : GoString) (records : List (List RawText)) (dl : GoString),
        readAll d wn input = .ok (records, dl) →
        dl = firstBreakOutside d State.StartOfField (tokens input) ∧
        ('"' ∉ input → dl = firstLineBreak input) ∧
        ((∀ c ∈ input, c ≠ '\r' ∧ c ≠ '\n') → dl = [])) ∧
    (∀ (m : Machine) (dl : GoString) (ts : List Token),
        (run d wn false { m with DetectedLineBreak := dl } ts).map
            (fun x => (x.1.forget, x.2)) =
          (run d wn false m ts).map (fun x => (x.1.forget, x.2))) := by
  constructor
  · intro input records dl h
    rw [readAll_eq_run] at h
    cases hr : run d wn false ⟨State.StartOfField, [], [], [], 1, 0, none, []⟩
      (tokens input) with
    | error e => rw [hr] at h; cases h
    | ok res =>
      obtain ⟨m2, rest⟩ := res
      rw [hr] at h
      simp only [Except.map] at h
      have hdl : dl = m2.DetectedLineBreak := by
        injection h with h
        exact (congrArg Prod.snd h).symm
      have hfirst := run_detected d wn (tokens input) _ m2 rest rfl hr
      rw [← hdl] at hfirst
      refine ⟨hfirst, ?_, ?_⟩
      · intro hq
        rw [hfirst, firstLineBreak]
        exact firstBreakOutside_no_quote d (tokens input)
          (fun hmem => hq (mem_of_rune_mem_tokens _ _ hmem)) _ (by decide) (by decide)
      · intro hc
        have ht := tokens_plain input hc []
        simp only [List.append_nil, tokens] at ht
        rw [hfirst, ht]
        exact firstBreakOutside_runes d input _
  · intro m dl ts
    have h1 := run_forget d wn false ts { m with DetectedLineBreak := dl }
    have h2 := run_forget d wn false ts m
    rw [← h1, ← h2]
    rfl

theorem C14_line_break_detection_witness :
    readAll ',' false (str "a,b,\"c\r\nd\"\ne,f,g") =
        .ok ([[some (str "a"), some (str "b"), some (str "c\r\nd")],
              [some (str "e"), some (str "f"), some (str "g")]], str "\n") ∧
      str "\n" = firstBreakOutside ',' State.StartOfField
        (tokens (str "a,b,\"c\r\nd\"\ne,f,g")) :=
  ⟨by decide,
    ((C14_line_break_detection ',' false).1 (str "a,b,\"c\r\nd\"\ne,f,g")
      [[some (str "a"), some (str "b"), some (str "c\r\nd")],
       [some (str "e"), some (str "f"), some (str "g")]] (str "\n") (by decide)).1⟩

/-! ## A quote left open: claim -/

/-- A transition fails on a quote that closes a field and is followed by text, or on
the number of fields. -/
theorem step_error_message (d : Rune) (wn : Bool) (m : Machine) (t : Token) (b : Bool)
    (e : ParseError) (hs : step d wn m t b = .error e) :
    e.message = unexpectedQuote ∨ e.message = wrongNumberOfFields := by
  unfold step at hs
  cases t with
  | rune c =>
    simp only at hs
    repeat' split at hs
    all_goals first
      | (cases hs; exact Or.inl rfl)
      | cases hs
      | exact Or.inr (closeField_message _ _ _ hs)
  | lineBreak lb =>
    simp only at hs
    repeat' split at hs
    all_goals first
      | cases hs
      | exact Or.inr (closeRecord_newLine_message _ _ _ _ _ hs)

/-- The end of the stream fails on a quote left open, or on the number of fields. -/
theorem atEnd_error_message (wn : Bool) (m : Machine) (e : ParseError)
    (h : atEnd wn m = .error e) :
    e.message = extraneousQuote ∨ e.message = wrongNumberOfFields := by
  unfold atEnd at h
  simp only at h
  repeat' split at h
  all_goals first
    | (cases h; exact Or.inl rfl)
    | cases h
    | exact Or.inr (closeRecord_message _ _ _ h)

theorem run_error_message (d : Rune) (wn sg : Bool) (ts : List Token) :
    ∀ (m : Machine) (e : ParseError), run d wn sg m ts = .error e →
      e.message = extraneousQuote ∨ e.message = unexpectedQuote ∨
        e.message = wrongNumberOfFields := by
  induction ts with
  | nil =>
    intro m e h
    rw [run_nil] at h
    cases ha : atEnd wn m with
    | error e2 =>
      rw [ha] at h
      simp only [Except.map, Except.error.injEq] at h
      subst h
      rcases atEnd_error_message wn m e2 ha with h | h
      · exact Or.inl h
      · exact Or.inr (Or.inr h)
    | ok m2 => rw [ha] at h; cases h
  | cons t ts ih =>
    intro m e h
    rw [run_cons] at h
    cases hs : step d wn m t (ts.all Token.isLineBreak) with
    | error e2 =>
      rw [hs] at h
      simp only [Except.error.injEq] at h
      subst h
      exact Or.inr (step_error_message d wn m t _ e2 hs)
    | ok m2 =>
      rw [hs] at h
      simp only at h
      split at h
      · cases h
      · exact ih m2 e h

/-- A line break outside a quoted field leaves the reader at the start of a record. -/
theorem step_break_state (d : Rune) (wn : Bool) (m m1 : Machine) (lb : LineBreak)
    (b : Bool) (hs : m.state ≠ State.InQuotedField)
    (h : step d wn m (Token.lineBreak lb) b = .ok m1) :
    m1.state = State.StartOfField ∨ m1.state = State.EndOfRecord := by
  obtain ⟨st, fld, rec, recs, l, col, k, dl⟩ := m
  cases st <;> cases k <;> cases rec <;> cases b <;>
    simp only [step, closeRecord, newLine, Except.map, List.isEmpty, Bool.and_true,
      Bool.and_false, Bool.and_self, if_true, Bool.false_eq_true, if_false, List.nil_append,
      List.cons_append, List.length_cons, List.length_nil, List.length_append] at h hs ⊢ <;>
    (try split_ifs at h) <;> (try cases h) <;>
    first | exact Or.inl rfl | exact Or.inr rfl | exact absurd rfl hs

theorem quoteScan_endOfRecord (d : Rune) (ts : List Token) :
    quoteScan d State.EndOfRecord ts = State.InQuotedField ↔
      quoteScan d State.StartOfField ts = State.InQuotedField := by
  cases ts with
  | nil => simp [quoteScan]
  | cons t ts => cases t <;> simp [quoteScan, quoteStep]

/-- A stream that ends while a quoted field is open is not read: the run fails. -/
theorem run_ends_open (d : Rune) (wn : Bool) (ts : List Token) :
    ∀ m : Machine, quoteScan d m.state ts = State.InQuotedField →
      ∃ e, run d wn false m ts = .error e := by
  induction ts with
  | nil =>
    intro m h
    have hm : m.state = State.InQuotedField := by simpa [quoteScan] using h
    refine ⟨⟨m.line, m.column + 1, extraneousQuote⟩, ?_⟩
    simp [run_nil, atEnd, hm, Except.map]
  | cons t ts ih =>
    intro m h
    rw [run_cons]
    cases hs : step d wn m t (ts.all Token.isLineBreak) with
    | error e => exact ⟨e, rfl⟩
    | ok m1 =>
      simp only [Bool.false_and, Bool.false_eq_true, if_false]
      apply ih m1
      cases t with
      | rune c =>
        rw [(step_rune_detected d wn m m1 c _ hs).2]
        simpa [quoteScan] using h
      | lineBreak lb =>
        by_cases hq : m.state = State.InQuotedField
        · rw [(step_break_quoted d wn m m1 lb _ hq hs).2]
          simpa [quoteScan, hq] using h
        · have h2 : quoteScan d State.StartOfField ts = State.InQuotedField := by
            simpa [quoteScan, hq] using h
          rcases step_break_state d wn m m1 lb _ hq hs with h1 | h1
          · rw [h1]; exact h2
          · rw [h1]; exact (quoteScan_endOfRecord d ts).2 h2

theorem tokens_lineBreak_of (lb : LineBreak) (ys : GoString)
    (h : lb = LineBreak.CR → ys.head? ≠ some '\n') :
    tokens (lb.Value ++ ys) = Token.lineBreak lb :: tokens ys := by
  cases lb with
  | CR => exact tokens_lineBreak LineBreak.CR ys (h rfl)
  | LF =>
    have e : Token.ofRune '\n' = Token.lineBreak LineBreak.LF := by decide
    rw [show LineBreak.LF.Value ++ ys = '\n' :: ys from rfl,
      tokens_cons '\n' ys (fun hc => absurd hc.1 (by decide)), e]
  | CRLF =>
    rw [show LineBreak.CRLF.Value ++ ys = '\r' :: '\n' :: ys from rfl, tokens_crlf]

/-- A well-formed first record closed by a line break: `ReadHeader` returns its fields,
whatever follows (a CR followed by LF is the line break CRLF). -/
theorem readHeader_first_record (d : Rune) (hd : d ≠ '"') (h1 : d ≠ '\r') (h2 : d ≠ '\n')
    (row : Row) (hv : row.Valid d) (lb : LineBreak) (rest : GoString)
    (hrest : lb = LineBreak.CR → rest.head? ≠ some '\n') :
    readHeader d (row.text d ++ lb.Value ++ rest) =
      .ok (some ((row.values true).map (fun f => f.getD []))) := by
  rw [readHeader_eq_run, List.append_assoc, row_tokens d h1 h2 row hv,
    tokens_lineBreak_of lb rest hrest,
    run_row_lineBreak d hd true true [] none [] row hv State.StartOfField (Or.inl rfl) 1 0
      (Or.inl rfl) lb (tokens rest)]
  simp [Except.map]

/-- C13 as stated fails.  `ReadHeader` reads the first record only: on an input whose
stream ends while a quoted field of the second record is open it returns the header.
And `ReadAll` reports the first error: on an input whose third record opens a quoted
field that is never closed, after a second record with too few fields, it fails on the
number of fields at line 2. -/
theorem C13_extraneous_quote_counterexample :
    (endsInQuotedField ',' (str "h\n\"x") ∧
      readAll ',' false (str "h\n\"x") = .error ⟨2, 3, extraneousQuote⟩ ∧
      readHeader ',' (str "h\n\"x") = .ok (some [str "h"])) ∧
    (endsInQuotedField ',' (str "a,b\nc\n\"x") ∧
      readAll ',' false (str "a,b\nc\n\"x") = .error ⟨2, 0, wrongNumberOfFields⟩) := by
  refine ⟨⟨?_, ?_, ?_⟩, ?_, ?_⟩ <;> decide

/-- C13, amended: on every input whose stream ends while a quoted field is still open
`ReadAll` fails; the error is `extraneous " in field` at the position reached at the
end of the stream (line 1 + the number of line breaks of the input, those inside the
open field included; column the number of runes on the last line + 1) unless a record
before has raised `unexpected " in field` or `wrong number of fields in line`, and it is
that error whenever the input is well-formed records of one field count followed by
well-formed fields and the open quoted field.  `ReadHeader` reads the first record
only: it fails with the same error at the same position when the open quoted field
belongs to the first record, after well-formed fields, and it returns the fields of the
first record when that record is well-formed and closed by a line break, whatever
follows.  Whenever `ReadAll` or `ReadHeader` fails with that error, on any input, it is
at that position.  The inputs of the tests give line 3 column 5 and line 3 column 6. -/
theorem C13_extraneous_quote (d : Rune) (hq : d ≠ '"') (hr : d ≠ '\r') (hn : d ≠ '\n')
    (wn : Bool) :
    (∀ input : GoString, endsInQuotedField d input →
        ∃ e, readAll d wn input = .error e ∧
          (e.message = extraneousQuote ∨ e.message = unexpectedQuote ∨
            e.message = wrongNumberOfFields) ∧
          (e.message = extraneousQuote →
            e.line = 1 + lineBreakCount (tokens input) ∧
              e.column = lastLineRunes (tokens input) + 1)) ∧
      (∀ (good : Table) (n : Nat) (cs : List Cell) (s : GoString),
        (∀ rl ∈ good, rl.1.Valid d ∧ rl.1.cells.length = n) → (∀ x ∈ cs, x.Valid d) →
        (good = [] ∨ cs.length < n) →
        readAll d wn (tableText d good ++ cellsDelimText d cs ++ '"' :: escape s) =
          .error
            ⟨1 + lineBreakCount
                (tokens (tableText d good ++ cellsDelimText d cs ++ '"' :: escape s)),
              lastLineRunes
                (tokens (tableText d good ++ cellsDelimText d cs ++ '"' :: escape s)) + 1,
              extraneousQuote⟩) ∧
      (∀ (cs : List Cell) (s : GoString), (∀ x ∈ cs, x.Valid d) →
        readHeader d (cellsDelimText d cs ++ '"' :: escape s) =
          .error
            ⟨1 + lineBreakCount (tokens (cellsDelimText d cs ++ '"' :: escape s)),
              lastLineRunes (tokens (cellsDelimText d cs ++ '"' :: escape s)) + 1,
              extraneousQuote⟩) ∧
      (∀ (row : Row) (lb : LineBreak) (rest : GoString), row.Valid d →
        (lb = LineBreak.CR → rest.head? ≠ some '\n') →
        readHeader d (row.text d ++ lb.Value ++ rest) =
          .ok (some ((row.values true).map (fun f => f.getD [])))) ∧
      (∀ (input : GoString) (e : ParseError), readAll d wn input = .error e →
        e.message = extraneousQuote →
        e.line = 1 + lineBreakCount (tokens input) ∧
          e.column = lastLineRunes (tokens input) + 1) ∧
      (∀ (input : GoString) (e : ParseError), readHeader d input = .error e →
        e.message = extraneousQuote →
        e.line = 1 + lineBreakCount (tokens input) ∧
          e.column = lastLineRunes (tokens input) + 1) ∧
      (readAll ',' false (str "a,\"b\",\"ccc\ncc\nd,e,")).mapError ParseError.Error =
        .error (str "line 3, column 5: extraneous \" in field") ∧
      (readHeader ',' (str "h1,\"h2 ,h3\na,b,c\nd,e,f")).mapError ParseError.Error =
        .error (str "line 3, column 6: extraneous \" in field") := by
  refine ⟨?_, ?_, ?_, fun row lb rest hv hrest =>
      readHeader_first_record d hq hr hn row hv lb rest hrest,
    fun input e h hm => readAll_extraneous_position d wn input e h hm,
    fun input e h hm => readHeader_extraneous_position d input e h hm, by decide, by decide⟩
  · intro input hopen
    obtain ⟨e, he⟩ := run_ends_open d wn (tokens input)
      ⟨State.StartOfField, [], [], [], 1, 0, none, []⟩ hopen
    have hre : readAll d wn input = .error e := by
      rw [readAll_eq_run, he]
      rfl
    exact ⟨e, hre, run_error_message d wn false _ _ e he,
      fun hm => readAll_extraneous_position d wn input e hre hm⟩
  · intro good n cs s hv hc hcs
    obtain ⟨l, c, h⟩ := readAll_extraneous d hq hr hn wn good n hv cs hc hcs s
    have hp := readAll_extraneous_position d wn _ _ h rfl
    simp only at hp
    rw [h, hp.1, hp.2]
  · intro cs s hc
    obtain ⟨l, c, h⟩ := readHeader_extraneous d hq hr hn cs hc s
    have hp := readHeader_extraneous_position d _ _ h rfl
    simp only at hp
    rw [h, hp.1, hp.2]

/-- C13, amended, at the inputs of the tests `ExtraneousQuote` and
`TestReader_ReadHeader`. -/
theorem C13_extraneous_quote_witness :
    readAll ',' false (str "a,\"b\",\"ccc\ncc\nd,e,") = .error ⟨3, 5, extraneousQuote⟩ ∧
      readHeader ',' (str "h1,\"h2 ,h3\na,b,c\nd,e,f") =
        .error ⟨3, 6, extraneousQuote⟩ := by
  have h := C13_extraneous_quote ',' (by decide) (by decide) (by decide) false
  have h1 := h.2.1 [] 0 [Cell.bare (str "a"), Cell.quoted (str "b")] (str "ccc\ncc\nd,e,")
    (by decide) (by decide) (Or.inl rfl)
  have h2 := h.2.2.1 [Cell.bare (str "h1")] (str "h2 ,h3\na,b,c\nd,e,f") (by decide)
  have e1 : tableText ',' [] ++
      cellsDelimText ',' [Cell.bare (str "a"), Cell.quoted (str "b")] ++
      '"' :: escape (str "ccc\ncc\nd,e,") = str "a,\"b\",\"ccc\ncc\nd,e," := by decide
  have e2 : cellsDelimText ',' [Cell.bare (str "h1")] ++
      '"' :: escape (str "h2 ,h3\na,b,c\nd,e,f") = str "h1,\"h2 ,h3\na,b,c\nd,e,f" := by
    decide
  rw [e1] at h1
  rw [e2] at h2
  exact ⟨h1, h2⟩

/-! ## Trailing blank lines -/

/-- The units of a text made of CR and LF are all line breaks. -/
theorem tokens_breaks_all (b : GoString) (hb : ∀ c ∈ b, c = '\r' ∨ c = '\n') :
    (tokens b).all Token.isLineBreak = true := by
  induction b using tokens.induct with
  | case1 => rfl
  | case2 c =>
    rcases hb c (List.mem_singleton_self c) with h | h <;> subst h <;> decide
  | case3 c d rest hcd ih =>
    rw [tokens, if_pos hcd]
    simp only [List.all_cons, Token.isLineBreak, Bool.true_and]
    exact ih (fun x hx => hb x (List.mem_cons_of_mem _ (List.mem_cons_of_mem _ hx)))
  | case4 c d rest hcd ih =>
    rw [tokens, if_neg hcd]
    have h1 : (Token.ofRune c).isLineBreak = true := by
      rcases hb c (List.mem_cons_self _ _) with h | h <;> subst h <;> decide
    simp only [List.all_cons, h1, Bool.true_and]
    exact ih (fun x hx => hb x (List.mem_cons_of_mem _ hx))

/-- Appending a text made of CR and LF to an input: its units follow those of the
input, but when the input ends with CR and the text starts with LF, where the two make
one CRLF. -/
theorem tokens_append_breaks (input b : GoString) (hb : ∀ c ∈ b, c = '\r' ∨ c = '\n')
    (hne : b ≠ []) :
    (∃ lb bs, tokens (input ++ b) = tokens input ++ Token.lineBreak lb :: bs ∧
        bs.all Token.isLineBreak = true) ∨
    (∃ ts bs, tokens input = ts ++ [Token.lineBreak LineBreak.CR] ∧
        tokens (input ++ b) = ts ++ Token.lineBreak LineBreak.CRLF :: bs ∧
        bs.all Token.isLineBreak = true) := by
  have hsplit : ∀ b : GoString, (∀ c ∈ b, c = '\r' ∨ c = '\n') → b ≠ [] →
      ∃ lb bs, tokens b = Token.lineBreak lb :: bs ∧ bs.all Token.isLineBreak = true := by
    intro b hb hne
    have hall := tokens_breaks_all b hb
    cases b with
    | nil => exact absurd rfl hne
    | cons c rest =>
      obtain ⟨lb, ts, hts⟩ := tokens_break_head c rest (hb c (List.mem_cons_self _ _))
      rw [hts] at hall
      simp only [List.all_cons, Token.isLineBreak, Bool.true_and] at hall
      exact ⟨lb, ts, hts, hall⟩
  induction input using tokens.induct with
  | case1 =>
    left
    obtain ⟨lb, bs, h1, h2⟩ := hsplit b hb hne
    exact ⟨lb, bs, by simpa [tokens] using h1, h2⟩
  | case2 c =>
    by_cases hc : c = '\r' ∧ b.head? = some '\n'
    · right
      obtain ⟨rfl, hh⟩ := hc
      cases b with
      | nil => exact absurd rfl hne
      | cons x rest =>
        have hx : x = '\n' := by simpa using hh
        subst hx
        refine ⟨[], tokens rest, by decide, ?_, ?_⟩
        · rw [List.singleton_append, tokens_crlf]
          rfl
        · exact tokens_breaks_all rest (fun y hy => hb y (List.mem_cons_of_mem _ hy))
    · left
      obtain ⟨lb, bs, h1, h2⟩ := hsplit b hb hne
      refine ⟨lb, bs, ?_, h2⟩
      rw [List.singleton_append, tokens_cons c b hc, h1]
      simp [tokens]
  | case3 c d rest hcd ih =>
    obtain ⟨rfl, rfl⟩ := hcd
    rcases ih with ⟨lb, bs, h1, h2⟩ | ⟨ts, bs, h0, h1, h2⟩
    · left
      refine ⟨lb, bs, ?_, h2⟩
      rw [List.cons_append, List.cons_append, tokens_crlf, tokens_crlf, h1, List.cons_append]
    · right
      refine ⟨Token.lineBreak LineBreak.CRLF :: ts, bs, ?_, ?_, h2⟩
      · rw [tokens_crlf, h0, List.cons_append]
      · rw [List.cons_append, List.cons_append, tokens_crlf, h1, List.cons_append]
  | case4 c d rest hcd ih =>
    have hc : ¬ (c = '\r' ∧ (d :: rest).head? = some '\n') := by simpa using hcd
    have hc2 : ¬ (c = '\r' ∧ (d :: rest ++ b).head? = some '\n') := by simpa using hcd
    rcases ih with ⟨lb, bs, h1, h2⟩ | ⟨ts, bs, h0, h1, h2⟩
    · left
      refine ⟨lb, bs, ?_, h2⟩
      rw [List.cons_append, tokens_cons c _ hc2, tokens_cons c _ hc, h1, List.cons_append]
    · right
      refine ⟨Token.ofRune c :: ts, bs, ?_, ?_, h2⟩
      · rw [tokens_cons c _ hc, h0, List.cons_append]
      · rw [List.cons_append, tokens_cons c _ hc2, h1, List.cons_append]

/-- Where the end of the stream is accepted, a line break followed by nothing but line
breaks is accepted too, and completes the same records. -/
theorem step_break_of_atEnd (d : Rune) (wn : Bool) (m m1 : Machine) (lb : LineBreak)
    (h : atEnd wn m = .ok m1) :
    ∃ m3, step d wn m (Token.lineBreak lb) true = .ok m3 ∧
      (m3.state = State.StartOfField ∨ m3.state = State.EndOfRecord) ∧
      m3.record = [] ∧ m3.records = m1.records := by
  obtain ⟨st, fld, rec, recs, l, col, k, dl⟩ := m
  cases st <;> cases k <;> cases rec <;>
    simp only [step, atEnd, closeRecord, newLine, Except.map, List.isEmpty, Bool.and_true,
      if_true, Bool.false_eq_true, if_false, List.nil_append, List.cons_append,
      List.length_cons, List.length_nil, List.length_append] at h ⊢ <;>
    (try split_ifs at h ⊢) <;> (try cases h) <;> exact ⟨_, rfl, by simp, rfl, rfl⟩

/-- Outside a quoted field, where a line break followed by nothing but line breaks is
accepted the end of the stream is accepted too; the machine is then at the start of a
record. -/
theorem atEnd_of_step_break (d : Rune) (wn : Bool) (m m3 : Machine) (lb : LineBreak)
    (hs : m.state ≠ State.InQuotedField)
    (h : step d wn m (Token.lineBreak lb) true = .ok m3) :
    (∃ m1, atEnd wn m = .ok m1) ∧
      (m3.state = State.StartOfField ∨ m3.state = State.EndOfRecord) ∧ m3.record = [] := by
  obtain ⟨st, fld, rec, recs, l, col, k, dl⟩ := m
  cases st <;> cases k <;> cases rec <;>
    simp only [step, atEnd, closeRecord, newLine, Except.map, List.isEmpty, Bool.and_true,
      if_true, Bool.false_eq_true, if_false, List.nil_append, List.cons_append,
      List.length_cons, List.length_nil, List.length_append] at h hs ⊢ <;>
    (try split_ifs at h ⊢) <;> (try cases h) <;>
    first | exact ⟨⟨_, rfl⟩, by simp, rfl⟩ | exact absurd rfl hs

/-- At the start of a record, line breaks up to the end of the stream are trailing
blank lines: the run ends with the records it had. -/
theorem run_blank_tail (d : Rune) (wn : Bool) (bs : List Token)
    (hb : bs.all Token.isLineBreak = true) :
    ∀ m : Machine, (m.state = State.StartOfField ∨ m.state = State.EndOfRecord) →
      m.record = [] →
      ∃ m2, run d wn false m bs = .ok (m2, []) ∧ m2.records = m.records := by
  induction bs with
  | nil =>
    intro m hs hr
    refine ⟨{ m with column := m.column + 1 }, ?_, rfl⟩
    rw [run_nil]
    rcases hs with hs | hs <;> simp [atEnd, hs, hr, Except.map]
  | cons t bs ih =>
    intro m hs hr
    simp only [List.all_cons, Bool.and_eq_true] at hb
    cases t with
    | rune c => exact absurd hb.1 (by simp [Token.isLineBreak])
    | lineBreak lb =>
      have hstep : step d wn m (Token.lineBreak lb) (bs.all Token.isLineBreak) =
          .ok { newLine m lb true with state := State.StartOfField } := by
        rcases hs with hs | hs <;> simp [step, hs, hr, hb.2]
      obtain ⟨m2, h2, h3⟩ := ih hb.2 { newLine m lb true with state := State.StartOfField }
        (Or.inl rfl) hr
      refine ⟨m2, ?_, h3⟩
      rw [run_cons, hstep]
      simpa using h2

/-- The units before the end of a stream are read the same whatever line breaks end
the stream. -/
theorem run_prefix_breaks (d : Rune) (wn : Bool) (t1 t2 : List Token)
    (h1 : t1.all Token.isLineBreak = true) (h2 : t2.all Token.isLineBreak = true)
    (hbase : ∀ (m m1 : Machine) (r : List Token), run d wn false m t1 = .ok (m1, r) →
      ∃ m2, run d wn false m t2 = .ok (m2, []) ∧ m2.records = m1.records)
    (ts : List Token) :
    ∀ (m m1 : Machine) (r : List Token), run d wn false m (ts ++ t1) = .ok (m1, r) →
      ∃ m2, run d wn false m (ts ++ t2) = .ok (m2, []) ∧ m2.records = m1.records := by
  induction ts with
  | nil => exact hbase
  | cons t ts ih =>
    intro m m1 r h
    rw [List.cons_append, run_cons] at h
    rw [List.cons_append, run_cons]
    have hf : (ts ++ t2).all Token.isLineBreak = (ts ++ t1).all Token.isLineBreak := by
      rw [List.all_append, List.all_append, h1, h2]
    rw [hf]
    cases hs : step d wn m t ((ts ++ t1).all Token.isLineBreak) with
    | error e => rw [hs] at h; cases h
    | ok m3 =>
      rw [hs] at h
      simp only [Bool.false_and, Bool.false_eq_true, if_false] at h ⊢
      exact ih m3 m1 r h

/-- Line breaks appended to a stream that is read successfully: the same records. -/
theorem run_append_breaks (d : Rune) (wn : Bool) (ts : List Token) (lb : LineBreak)
    (bs : List Token) (hb : bs.all Token.isLineBreak = true) (m m1 : Machine)
    (r : List Token) (h : run d wn false m ts = .ok (m1, r)) :
    ∃ m2, run d wn false m (ts ++ Token.lineBreak lb :: bs) = .ok (m2, []) ∧
      m2.records = m1.records := by
  have h0 : run d wn false m (ts ++ []) = .ok (m1, r) := by rw [List.append_nil]; exact h
  refine run_prefix_breaks d wn [] (Token.lineBreak lb :: bs) rfl
    (by simp [Token.isLineBreak, hb]) ?_ ts m m1 r h0
  intro m m1 r h
  rw [run_nil] at h
  cases ha : atEnd wn m with
  | error e => rw [ha] at h; cases h
  | ok m0 =>
    rw [ha] at h
    simp only [Except.map] at h
    cases h
    obtain ⟨m3, h3, hst, hrec, hrecs⟩ := step_break_of_atEnd d wn m _ lb ha
    obtain ⟨m2, h2, h4⟩ := run_blank_tail d wn bs hb m3 hst hrec
    refine ⟨m2, ?_, by rw [h4, hrecs]⟩
    rw [run_cons, hb, h3]
    simpa using h2

/-- The line break that ends a stream read successfully may be another one, and line
breaks may follow it: the same records. -/
theorem run_replace_break (d : Rune) (wn : Bool) (ts : List Token) (x y : LineBreak)
    (bs : List Token) (hb : bs.all Token.isLineBreak = true) (m m1 : Machine)
    (r : List Token) (h : run d wn false m (ts ++ [Token.lineBreak x]) = .ok (m1, r)) :
    ∃ m2, run d wn false m (ts ++ Token.lineBreak y :: bs) = .ok (m2, []) ∧
      m2.records = m1.records := by
  refine run_prefix_breaks d wn [Token.lineBreak x] (Token.lineBreak y :: bs) rfl
    (by simp [Token.isLineBreak, hb]) ?_ ts m m1 r h
  intro m m1 r h
  rw [run_cons] at h
  simp only [List.all_nil] at h
  cases hs : step d wn m (Token.lineBreak x) true with
  | error e => rw [hs] at h; cases h
  | ok mx =>
    rw [hs] at h
    simp only [Bool.false_and, Bool.false_eq_true, if_false] at h
    by_cases hq : m.state = State.InQuotedField
    · exfalso
      have hx := (step_break_quoted d wn m mx x true hq hs).2
      rw [run_nil] at h
      simp [atEnd, hx, Except.map] at h
    · obtain ⟨⟨m0, ha⟩, hst, hrec⟩ := atEnd_of_step_break d wn m mx x hq hs
      obtain ⟨mx2, hx2, hx3, hx4, hx5⟩ := step_break_of_atEnd d wn m m0 x ha
      rw [hs] at hx2
      cases hx2
      obtain ⟨mz, hz1, hz2⟩ := run_blank_tail d wn [] rfl mx hst hrec
      rw [hz1] at h
      cases h
      obtain ⟨my, hy2, hy3, hy4, hy5⟩ := step_break_of_atEnd d wn m m0 y ha
      obtain ⟨m2, h2, h4⟩ := run_blank_tail d wn bs hb my hy3 hy4
      refine ⟨m2, ?_, by rw [h4, hy5, hz2, hx5]⟩
      rw [run_cons, hb, hy2]
      simpa using h2

/-- C16: for every input that `ReadAll` reads as records `R`, the input followed by one
or more line breaks (a non-empty text of CR and LF) is read as the same records `R`: no
extra empty record and no field-count error.  A CR that ends the input and an LF that
starts the appended text are read as one CRLF. -/
theorem C16_trailing_blank_lines (d : Rune) (wn : Bool) (input b : GoString)
    (R : List (List RawText)) (dl : GoString)
    (hb : ∀ c ∈ b, c = '\r' ∨ c = '\n') (hne : b ≠ [])
    (h : readAll d wn input = .ok (R, dl)) :
    ∃ dl2, readAll d wn (input ++ b) = .ok (R, dl2) := by
  rw [readAll_eq_run] at h
  cases hr : run d wn false ⟨State.StartOfField, [], [], [], 1, 0, none, []⟩
    (tokens input) with
  | error e => rw [hr] at h; cases h
  | ok res =>
    obtain ⟨m1, r⟩ := res
    rw [hr] at h
    simp only [Except.map] at h
    have hR : m1.records = R := by
      injection h with h
      exact congrArg Prod.fst h
    rcases tokens_append_breaks input b hb hne with ⟨lb, bs, h1, h2⟩ | ⟨ts, bs, h0, h1, h2⟩
    · obtain ⟨m2, hm2, hrec⟩ := run_append_breaks d wn (tokens input) lb bs h2 _ m1 r hr
      refine ⟨m2.DetectedLineBreak, ?_⟩
      rw [readAll_eq_run, h1, hm2]
      simp only [Except.map, hrec, hR]
    · rw [h0] at hr
      obtain ⟨m2, hm2, hrec⟩ :=
        run_replace_break d wn ts LineBreak.CR LineBreak.CRLF bs h2 _ m1 r hr
      refine ⟨m2.DetectedLineBreak, ?_⟩
      rw [readAll_eq_run, h1, hm2]
      simp only [Except.map, hrec, hR]

theorem C16_trailing_blank_lines_witness :
    readAll ',' false (str "a,b,c\nd,e,f") =
        .ok ([[some (str "a"), some (str "b"), some (str "c")],
              [some (str "d"), some (str "e"), some (str "f")]], str "\n") ∧
      ∃ dl2, readAll ',' false (str "a,b,c\nd,e,f" ++ str "\n\n") =
        .ok ([[some (str "a"), some (str "b"), some (str "c")],
              [some (str "d"), some (str "e"), some (str "f")]], dl2) :=
  ⟨by decide,
    C16_trailing_blank_lines ',' false (str "a,b,c\nd,e,f") (str "\n\n")
      [[some (str "a"), some (str "b"), some (str "c")],
       [some (str "d"), some (str "e"), some (str "f")]] (str "\n")
      (by decide) (by decide) (by decide)⟩

end csv

end GoText
